import Mathlib

/-!
# The sharded byte cache of `0lvl/pkg/cache/cache.go`

A shallow embedding of the Go package `cache`: the per-shard `bucket` (a ring of
64 KiB chunks, a hash index of packed locators, a write cursor and a generation
counter) and the `Cache` dispatcher over 512 buckets.

Conventions of the embedding.

* `uint64` values are natural numbers; every operation of the source that can
  overflow 64 bits is followed by `% u64`.
* A byte is a natural number; a `[]byte` argument is a `List Nat`.
* A chunk (`[]byte` stored in `bucket.chunks`) is `Option Slice`: `none` is the
  nil slice, `some s` is a slice over a backing array `s.mem` with Go's `len`
  and `cap`.  Go reads `s[lo:hi]` up to the capacity, not the length, and the
  source relies on it, so the backing array is part of the state.
* `map[uint64]uint64` is an association list; a missing key reads as `0`.
* A run-time panic is `none`.  `getChunk` is the environment: the backing array
  of the chunk it hands out is an argument (`fresh`) of `bucket.Set`, and its
  `mmap` call is taken to succeed.
* Locks are not modelled: every operation runs alone.
-/

namespace cache

/-! ## Constants -/

/-- Go: `const bucketsCount = 512`. -/
def bucketsCount : Nat := 512

/-- Go: `const chunkSize = 64 * 1024`. -/
def chunkSize : Nat := 64 * 1024

/-- Go: `const bucketSizeBits = 40`. -/
def bucketSizeBits : Nat := 40

/-- Go: `const genSizeBits = 64 - bucketSizeBits`. -/
def genSizeBits : Nat := 64 - bucketSizeBits

/-- Go: `const maxGen = 1<<genSizeBits - 1`. -/
def maxGen : Nat := (1 <<< genSizeBits) - 1

/-- Go: `const maxBucketSize uint64 = 1 << bucketSizeBits`. -/
def maxBucketSize : Nat := 1 <<< bucketSizeBits

/-- The modulus of `uint64` arithmetic. -/
def u64 : Nat := 2 ^ 64

/-! ## Slices and maps -/

/-- A non-nil Go `[]byte`: backing array (indexed from the start of the slice),
length and capacity. -/
structure Slice where
  mem : Nat → Nat
  len : Nat
  cap : Nat

/-- The bytes `mem[lo], ..., mem[lo+n-1]`. -/
def readBytes (mem : Nat → Nat) (lo n : Nat) : List Nat :=
  (List.range n).map (fun j => mem (lo + j))

/-- The backing array after storing `bs` from position `pos` on. -/
def writeAt (mem : Nat → Nat) (pos : Nat) (bs : List Nat) : Nat → Nat :=
  fun i => if pos ≤ i ∧ i < pos + bs.length then bs.getD (i - pos) 0 else mem i

/-- Go: `cap(c)`; a nil slice has capacity 0. -/
def capOf (c : Option Slice) : Nat :=
  match c with
  | none => 0
  | some s => s.cap

/-- Go: `c[lo:hi]` read as bytes; it panics unless `lo <= hi <= cap(c)`. -/
def sliceRange (c : Option Slice) (lo hi : Nat) : Option (List Nat) :=
  match c with
  | none => if lo ≤ hi ∧ hi ≤ 0 then some [] else none
  | some s => if lo ≤ hi ∧ hi ≤ s.cap then some (readBytes s.mem lo (hi - lo)) else none

/-- Go: `c[:0]`; nil stays nil. -/
def truncate0 (c : Option Slice) : Option Slice :=
  match c with
  | none => none
  | some s => some { s with len := 0 }

/-- Go: `append(s, bs...)`.  Within the capacity the bytes go into the backing
array in place; beyond it Go moves the slice to a new, large enough array (the
capacity it picks is left to the run time, the least one is taken here). -/
def Slice.append (s : Slice) (bs : List Nat) : Slice :=
  if s.len + bs.length ≤ s.cap then
    { mem := writeAt s.mem s.len bs, len := s.len + bs.length, cap := s.cap }
  else
    { mem := writeAt s.mem s.len bs, len := s.len + bs.length, cap := s.len + bs.length }

/-- Go: `chunks[i]` for an index `i` already known to be in range. -/
def chunkAt (chunks : List (Option Slice)) (i : Nat) : Option Slice :=
  chunks.getD i none

/-- Go: `m[h]` on a `map[uint64]uint64`; a missing key reads as 0. -/
def mapGet : List (Nat × Nat) → Nat → Nat
  | [], _ => 0
  | e :: rest, h => if e.1 = h then e.2 else mapGet rest h

/-- Go: `delete(m, h)`. -/
def mapDel (m : List (Nat × Nat)) (h : Nat) : List (Nat × Nat) :=
  m.filter (fun e => decide (e.1 ≠ h))

/-- Go: `m[h] = v`. -/
def mapSet (m : List (Nat × Nat)) (h v : Nat) : List (Nat × Nat) :=
  (h, v) :: mapDel m h

/-! ## Statistics -/

/-- Go: `type Stats struct` (the field `Corruptions` is spelled with a Cyrillic
initial in the source). -/
structure Stats where
  GetCalls : Nat
  SetCalls : Nat
  Misses : Nat
  Collisions : Nat
  Corruptions : Nat
  EntriesCount : Nat
  AllocBytes : Nat
  MaxBytes : Nat

/-- Go: `Stats{}`, also what `Stats.Reset` stores. -/
def Stats.zero : Stats :=
  { GetCalls := 0, SetCalls := 0, Misses := 0, Collisions := 0, Corruptions := 0,
    EntriesCount := 0, AllocBytes := 0, MaxBytes := 0 }

/-! ## The bucket -/

/-- Go: `type bucket struct` (without the mutex). -/
structure bucket where
  chunks : List (Option Slice)
  m : List (Nat × Nat)
  idx : Nat
  gen : Nat
  getCalls : Nat
  setCalls : Nat
  misses : Nat
  collisions : Nat
  corruptions : Nat

/-- The zero value of `bucket`, the state of the elements of `Cache.buckets`
before `Init`. -/
def bucket.zero : bucket :=
  { chunks := [], m := [], idx := 0, gen := 0, getCalls := 0, setCalls := 0,
    misses := 0, collisions := 0, corruptions := 0 }

/-- Go: `putChunk(chunk)` as the bucket sees it: `chunk[:chunkSize]` panics when a
non-nil chunk has a smaller capacity. -/
def putChunkOk (c : Option Slice) : Bool :=
  match c with
  | none => true
  | some s => decide (chunkSize ≤ s.cap)

/-- Go: `func (b *bucket) Reset()`; `none` is a panic of `putChunk`. -/
def bucket.Reset (b : bucket) : Option bucket :=
  if b.chunks.all putChunkOk then
    some { chunks := b.chunks.map (fun _ => none), m := [], idx := 0, gen := 1,
           getCalls := 0, setCalls := 0, misses := 0, collisions := 0, corruptions := 0 }
  else none

/-- Go: `func (b *bucket) Init(maxBytes uint64) error`; `none` is a returned error.
(The `Reset` it ends with runs over nil chunks only and cannot panic.) -/
def bucket.Init (b : bucket) (maxBytes : Nat) : Option bucket :=
  if maxBytes = 0 then none
  else if maxBytes ≥ maxBucketSize then none
  else
    let maxChunks := (maxBytes + chunkSize - 1) / chunkSize
    bucket.Reset { b with chunks := List.replicate maxChunks none, m := [] }

/-- The liveness test of a locator `v` against generation `bGen` and cursor
`bIdx`, as written in `cleanLocked` (line 204). -/
def cleanKeeps (bGen bIdx v : Nat) : Prop :=
  ((v >>> bucketSizeBits) + 1 = bGen ∨ (v >>> bucketSizeBits) = maxGen ∧ bGen = 1) ∧
      (v &&& ((1 <<< bucketSizeBits) - 1)) ≥ bIdx ∨
    (v >>> bucketSizeBits) = bGen ∧ (v &&& ((1 <<< bucketSizeBits) - 1)) < bIdx

instance (bGen bIdx v : Nat) : Decidable (cleanKeeps bGen bIdx v) := by
  unfold cleanKeeps
  exact inferInstance

/-- Go: `func (b *bucket) cleanLocked()`. -/
def bucket.cleanLocked (b : bucket) : bucket :=
  let bGen := b.gen &&& ((1 <<< genSizeBits) - 1)
  let bIdx := b.idx
  { b with m := b.m.filter (fun e => decide (cleanKeeps bGen bIdx e.2)) }

/-- Go: `func (b *bucket) UpdateStats(s *Stats)`. -/
def bucket.UpdateStats (b : bucket) (s : Stats) : Stats :=
  { GetCalls := (s.GetCalls + b.getCalls) % u64
    SetCalls := (s.SetCalls + b.setCalls) % u64
    Misses := (s.Misses + b.misses) % u64
    Collisions := (s.Collisions + b.collisions) % u64
    Corruptions := (s.Corruptions + b.corruptions) % u64
    EntriesCount := (s.EntriesCount + b.m.length % u64) % u64
    AllocBytes :=
      (s.AllocBytes + b.chunks.foldl (fun acc c => (acc + capOf c % u64) % u64) 0) % u64
    MaxBytes := (s.MaxBytes + (b.chunks.length % u64) * chunkSize % u64) % u64 }

/-- Lines 236-240 of `bucket.Set`: the two 16-bit big-endian lengths. -/
def kvLenBuf (k v : List Nat) : List Nat :=
  [(k.length % 2 ^ 16) >>> 8 % 256, k.length % 256,
   (v.length % 2 ^ 16) >>> 8 % 256, v.length % 256]

/-- Lines 258-261 of `bucket.Set`: `b.gen++`, and once more when the low
`genSizeBits` bits became 0. -/
def nextGen (gen : Nat) : Nat :=
  let gen1 := (gen + 1) % u64
  if gen1 &&& ((1 <<< genSizeBits) - 1) = 0 then (gen1 + 1) % u64 else gen1

/-- Lines 268-280 of `bucket.Set`, once `chunkIdx` is in range: truncate the target
chunk when the write moved to another chunk (`moved`), take a chunk from the pool
when the slot is nil, append the record, store the locator, move the cursor. -/
def bucket.storeRecord (b : bucket) (k v : List Nat) (h : Nat) (fresh : Nat → Nat)
    (idx idxNew chunkIdx gen : Nat) (moved : Bool) : bucket :=
  let chunks :=
    if moved then b.chunks.set chunkIdx (truncate0 (chunkAt b.chunks chunkIdx))
    else b.chunks
  let chunk : Slice :=
    match chunkAt chunks chunkIdx with
    | none => { mem := fresh, len := 0, cap := chunkSize }
    | some s => s
  let chunk := ((chunk.append (kvLenBuf k v)).append k).append v
  { b with
    chunks := chunks.set chunkIdx (some chunk)
    gen := gen
    m := mapSet b.m h (idx ||| (gen <<< bucketSizeBits) % u64)
    idx := idxNew }

/-- Lines 268-285 of `bucket.Set`: with the placement decided (`idx`, `idxNew`,
`chunkIdx`, the generation `gen`), index `chunks[chunkIdx]` (a panic when out of
range), store the record and clean the index after a wrap. -/
def bucket.setWrite (b : bucket) (k v : List Nat) (h : Nat) (fresh : Nat → Nat)
    (idx idxNew chunkIdx gen : Nat) (moved needClean : Bool) : Option (bucket × Bool) :=
  if chunkIdx < b.chunks.length then
    let b1 := b.storeRecord k v h fresh idx idxNew chunkIdx gen moved
    some (if needClean then b1.cleanLocked else b1, false)
  else none

/-- Go: `func (b *bucket) Set(k, v []byte, h uint64) error`.  The result is `none`
on a panic, else the new state and whether an error was returned.  `fresh` is the
backing array of the chunk `getChunk` would hand out. -/
def bucket.Set (b : bucket) (k v : List Nat) (h : Nat) (fresh : Nat → Nat) :
    Option (bucket × Bool) :=
  let b0 : bucket := { b with setCalls := (b.setCalls + 1) % u64 }
  if k.length ≥ 1 <<< 16 ∨ v.length ≥ 1 <<< 16 then some (b0, true)
  else
    let kvLen := (kvLenBuf k v).length + k.length + v.length
    if kvLen ≥ chunkSize then some (b0, true)
    else
      let idx := b0.idx
      let idxNew := (idx + kvLen) % u64
      let chunkIdx := idx / chunkSize
      let chunkIdxNew := idxNew / chunkSize
      if chunkIdxNew > chunkIdx then
        if chunkIdxNew ≥ b0.chunks.length then
          b0.setWrite k v h fresh 0 kvLen 0 (nextGen b0.gen) true true
        else
          b0.setWrite k v h fresh (chunkIdxNew * chunkSize)
            (chunkIdxNew * chunkSize + kvLen) chunkIdxNew b0.gen true false
      else
        b0.setWrite k v h fresh idx idxNew chunkIdx b0.gen false false

/-- The liveness test of `bucket.Get` (line 298) for a locator `v`. -/
def getLive (bGen bIdx v : Nat) : Prop :=
  (v >>> bucketSizeBits) = bGen ∧ (v &&& ((1 <<< bucketSizeBits) - 1)) < bIdx ∨
    (v >>> bucketSizeBits) + 1 = bGen ∧ (v &&& ((1 <<< bucketSizeBits) - 1)) ≥ bIdx ∨
    (v >>> bucketSizeBits) = maxGen ∧ bGen = 1 ∧ (v &&& ((1 <<< bucketSizeBits) - 1)) ≥ bIdx

instance (bGen bIdx v : Nat) : Decidable (getLive bGen bIdx v) := by
  unfold getLive
  exact inferInstance

/-- The label `end:` of `bucket.Get` (lines 333-338): count a miss unless found. -/
def bucket.endGet (b : bucket) (dst : List Nat) (found : Bool) :
    Option (bucket × List Nat × Bool) :=
  if found then some (b, dst, found)
  else some ({ b with misses := (b.misses + 1) % u64 }, dst, found)

/-- Lines 312-331 of `bucket.Get`: decode the record at in-chunk offset `idx` of
`chunk` and compare its key with `k`. -/
def bucket.getRecord (b : bucket) (chunk : Option Slice) (idx : Nat) (dst k : List Nat)
    (returnDst : Bool) : Option (bucket × List Nat × Bool) :=
  match sliceRange chunk idx (idx + 4) with
  | none => none
  | some kvLenBuf =>
    let keyLen := (kvLenBuf.getD 0 0 <<< 8) ||| kvLenBuf.getD 1 0
    let valLen := (kvLenBuf.getD 2 0 <<< 8) ||| kvLenBuf.getD 3 0
    let idx := idx + 4
    if idx + keyLen + valLen ≥ chunkSize then
      bucket.endGet { b with corruptions := (b.corruptions + 1) % u64 } dst false
    else
      match sliceRange chunk idx (idx + keyLen) with
      | none => none
      | some key =>
        if k = key then
          let idx := idx + keyLen
          if returnDst then
            match sliceRange chunk idx (idx + valLen) with
            | none => none
            | some val => bucket.endGet b (dst ++ val) true
          else bucket.endGet b dst true
        else
          bucket.endGet { b with collisions := (b.collisions + 1) % u64 } dst false

/-- Go: `func (b *bucket) Get(dst, k []byte, h uint64, returnDst bool) ([]byte, bool)`;
`none` is a panic. -/
def bucket.Get (b : bucket) (dst k : List Nat) (h : Nat) (returnDst : Bool) :
    Option (bucket × List Nat × Bool) :=
  let b0 : bucket := { b with getCalls := (b.getCalls + 1) % u64 }
  let v := mapGet b0.m h
  let bGen := b0.gen &&& ((1 <<< genSizeBits) - 1)
  if v > 0 then
    if getLive bGen b0.idx v then
      let idx := v &&& ((1 <<< bucketSizeBits) - 1)
      let chunkIdx := idx / chunkSize
      if chunkIdx ≥ b0.chunks.length then
        bucket.endGet { b0 with corruptions := (b0.corruptions + 1) % u64 } dst false
      else
        let chunk := chunkAt b0.chunks chunkIdx
        let idx := idx % chunkSize
        if idx + 4 ≥ chunkSize then
          bucket.endGet { b0 with corruptions := (b0.corruptions + 1) % u64 } dst false
        else b0.getRecord chunk idx dst k returnDst
    else bucket.endGet b0 dst false
  else bucket.endGet b0 dst false

/-- Go: `func (b *bucket) Del(h uint64)`. -/
def bucket.Del (b : bucket) (h : Nat) : bucket :=
  { b with m := mapDel b.m h }

/-! ## The cache -/

/-- Go: `type Cache struct`. -/
structure Cache where
  buckets : List bucket

/-- The loop of `New` (lines 74-78): `Init` every bucket, stop at the first
error. -/
def initBuckets : List bucket → Nat → Option (List bucket)
  | [], _ => some []
  | b :: rest, maxBucketBytes =>
    match b.Init maxBucketBytes with
    | none => none
    | some b1 =>
      match initBuckets rest maxBucketBytes with
      | none => none
      | some rest1 => some (b1 :: rest1)

/-- Go: `func New(maxBytes uint64) (*Cache, error)`; `none` is a returned error. -/
def New (maxBytes : Nat) : Option Cache :=
  if maxBytes ≤ 0 then none
  else
    let maxBucketBytes := ((maxBytes + bucketsCount - 1) % u64) / bucketsCount
    match initBuckets (List.replicate bucketsCount bucket.zero) maxBucketBytes with
    | none => none
    | some bs => some { buckets := bs }

/-- Go: `func (c *Cache) UpdateStats(s *Stats)`. -/
def Cache.UpdateStats (c : Cache) (s : Stats) : Stats :=
  c.buckets.foldl (fun acc b => b.UpdateStats acc) s

/-! ## Invariants -/

/-- The record layout `[keyLen:16][valLen:16][key bytes][value bytes]`. -/
def encodeRecord (k v : List Nat) : List Nat :=
  kvLenBuf k v ++ k ++ v

/-- The backing array a record is appended to: the one of the chunk in the slot, or
the one of the chunk taken from the pool when the slot is nil. -/
def baseMem (c : Option Slice) (fresh : Nat → Nat) : Nat → Nat :=
  match c with
  | none => fresh
  | some s => s.mem

/-- The low `genSizeBits` bits of the generation, the `bGen` of `Get` and
`cleanLocked`. -/
def bucket.curGen (b : bucket) : Nat :=
  b.gen % 2 ^ genSizeBits

/-- Generation `g` is the one right before `G` in the cycle `1, ..., maxGen`. -/
def prevGen (g G : Nat) : Prop :=
  g + 1 = G ∨ (g = maxGen ∧ G = 1)

/-- The arena of a bucket is well formed: at least one chunk slot and at most
`maxBucketSize` bytes, the cursor inside the arena, a generation whose low bits are
not the sentinel 0, every allocated chunk of capacity `chunkSize`, the chunk under
the cursor filled exactly up to the cursor, and every chunk before it allocated. -/
structure Arena (b : bucket) : Prop where
  nonempty : 1 ≤ b.chunks.length
  bound : b.chunks.length * chunkSize ≤ maxBucketSize
  cursor : b.idx < b.chunks.length * chunkSize
  genLt : b.gen < u64
  genNz : b.curGen ≠ 0
  caps : ∀ j s, chunkAt b.chunks j = some s → s.cap = chunkSize
  curLen : ∀ s, chunkAt b.chunks (b.idx / chunkSize) = some s → s.len = b.idx % chunkSize
  curNil : chunkAt b.chunks (b.idx / chunkSize) = none → b.idx % chunkSize = 0
  below : ∀ j, j < b.idx / chunkSize → chunkAt b.chunks j ≠ none

/-- The encoded record `(k, v)` lies at arena offset `off`, wholly inside one
allocated chunk. -/
def RecordAt (chunks : List (Option Slice)) (off : Nat) (k v : List Nat) : Prop :=
  ∃ s, chunkAt chunks (off / chunkSize) = some s ∧
    off % chunkSize + (4 + k.length + v.length) < chunkSize ∧
    readBytes s.mem (off % chunkSize) (4 + k.length + v.length) = encodeRecord k v

/-- What an index entry `e = (hash, locator)` is known to be in a bucket of current
generation `G`, chunks `chunks` and cursor `cursor`: a packed `(generation g,
offset off)` where either `g` is the current generation and a record, related to
the hash by `P`, lies at `off` and ends at or before the cursor, or `g` is the
previous generation and, when `off` is at or past the cursor, such a record lies
at `off`. -/
def EntryInv (P : Nat → List Nat → List Nat → Prop) (G : Nat) (chunks : List (Option Slice))
    (cursor : Nat) (e : Nat × Nat) : Prop :=
  ∃ g off, e.2 = off + g * 2 ^ bucketSizeBits ∧ off < 2 ^ bucketSizeBits ∧
    0 < g ∧ g < 2 ^ genSizeBits ∧
    ((g = G ∧ ∃ k v, P e.1 k v ∧ RecordAt chunks off k v ∧
        off + (4 + k.length + v.length) ≤ cursor) ∨
     (prevGen g G ∧ (cursor ≤ off → ∃ k v, P e.1 k v ∧ RecordAt chunks off k v)))

/-- The state with the record `(k, v)` stored at arena offset `off` under
generation `gen`: the bytes in the chunk of `off`, the locator in the index, the
cursor right after the record. -/
def bucket.placed (b : bucket) (k v : List Nat) (h : Nat) (fresh : Nat → Nat)
    (off gen : Nat) : bucket :=
  { b with
    chunks := b.chunks.set (off / chunkSize)
      (some ⟨writeAt (baseMem (chunkAt b.chunks (off / chunkSize)) fresh) (off % chunkSize)
        (encodeRecord k v), off % chunkSize + (4 + k.length + v.length), chunkSize⟩)
    gen := gen
    m := mapSet b.m h (off + gen % 2 ^ genSizeBits * 2 ^ bucketSizeBits)
    idx := off + (4 + k.length + v.length) }

/-- The invariant of a bucket: a well-formed arena and an index without duplicate
hashes whose entries all satisfy `EntryInv P`. -/
structure Inv (P : Nat → List Nat → List Nat → Prop) (b : bucket) : Prop where
  arena : Arena b
  nodup : (b.m.map Prod.fst).Nodup
  entries : ∀ e ∈ b.m, EntryInv P b.curGen b.chunks b.idx e

/-- The three ways `Get` finds the locator offset `off` (the low `bucketSizeBits`
bits of a live index entry) corrupted: its chunk index is outside the chunks, or
its in-chunk offset leaves no room for the 4-byte length prefix, or the prefix read
there decodes to lengths that run to or past the end of the chunk. -/
def corruptLocator (b : bucket) (off : Nat) : Prop :=
  off / chunkSize ≥ b.chunks.length ∨
  off % chunkSize + 4 ≥ chunkSize ∨
  ∃ buf, sliceRange (chunkAt b.chunks (off / chunkSize)) (off % chunkSize)
        (off % chunkSize + 4) = some buf ∧
    off % chunkSize + 4 + ((buf.getD 0 0 <<< 8) ||| buf.getD 1 0) +
      ((buf.getD 2 0 <<< 8) ||| buf.getD 3 0) ≥ chunkSize

/-! ## Runs of a bucket -/

/-- The state `bucket.Init` leaves behind for `n` chunk slots (also the state
after `bucket.Reset`): no chunk allocated, empty index, cursor 0, generation 1,
all counters 0. -/
def bucket.blank (n : Nat) : bucket :=
  { chunks := List.replicate n none, m := [], idx := 0, gen := 1, getCalls := 0,
    setCalls := 0, misses := 0, collisions := 0, corruptions := 0 }

/-- One call on a bucket. -/
inductive Op where
  | set (k v : List Nat) (h : Nat) (fresh : Nat → Nat)
  | get (dst k : List Nat) (h : Nat) (returnDst : Bool)
  | del (h : Nat)
  | reset

/-- The state after one call; `none` is a panic. -/
def bucket.step (b : bucket) : Op → Option bucket
  | Op.set k v h fresh => (b.Set k v h fresh).map (fun r => r.1)
  | Op.get dst k h returnDst => (b.Get dst k h returnDst).map (fun r => r.1)
  | Op.del h => some (b.Del h)
  | Op.reset => b.Reset

/-- The state after a sequence of calls, oldest first. -/
def bucket.run (b : bucket) : List Op → Option bucket
  | [] => some b
  | op :: ops =>
    match b.step op with
    | none => none
    | some b1 => b1.run ops

/-- The bucket states reachable from a successful `Init` by calls of
`Set`, `Get`, `Del` and `Reset`. -/
def Reachable (b : bucket) : Prop :=
  ∃ (bz : bucket) (maxBytes : Nat) (b0 : bucket) (ops : List Op),
    bz.Init maxBytes = some b0 ∧ b0.run ops = some b

/-! ## What a read may return -/

/-- The call presents its key with the hash `hash` assigns to it. -/
def Op.hashed (hash : List Nat → Nat) : Op → Prop
  | Op.set k _ h _ => h = hash k
  | Op.get _ k h _ => h = hash k
  | Op.del _ => True
  | Op.reset => True

/-- The value of the most recent successful `Set` of key `k` that no `Del` of the
hash of `k` and no `Reset` followed, in a history listed latest call first; `none`
when there is no such `Set`. -/
def lastSet (hash : List Nat → Nat) : List Op → List Nat → Option (List Nat)
  | [], _ => none
  | Op.reset :: _, _ => none
  | Op.del h :: past, k => if h = hash k then none else lastSet hash past k
  | Op.set k1 v _ _ :: past, k =>
    if k1 = k ∧ 4 + k1.length + v.length < 65536 then some v else lastSet hash past k
  | Op.get _ _ _ _ :: past, k => lastSet hash past k

/-! ## Eviction order -/

/-- Go: `gen := v >> bucketSizeBits` (lines 202 and 296). -/
def locGen (v : Nat) : Nat :=
  v >>> bucketSizeBits

/-- Go: `idx := v & ((1 << bucketSizeBits) - 1)` (lines 203 and 297). -/
def locOff (v : Nat) : Nat :=
  v &&& ((1 <<< bucketSizeBits) - 1)

/-- The keys of the `Set` calls of a history with their hashes, oldest first. -/
def setKeys : List Op → List (List Nat × Nat)
  | [] => []
  | Op.set k _ h _ :: ops => (k, h) :: setKeys ops
  | Op.get _ _ _ _ :: ops => setKeys ops
  | Op.del _ :: ops => setKeys ops
  | Op.reset :: ops => setKeys ops

/-- The call is a `Set` of a record that fits a chunk, or a `Get`: nothing is
deleted and every `Set` succeeds. -/
def Op.storesOrReads : Op → Prop
  | Op.set k v _ _ => 4 + k.length + v.length < 65536
  | Op.get _ _ _ _ => True
  | Op.del _ => False
  | Op.reset => False

/-- `Get` reports the key `kh.1`, presented with hash `kh.2`, as found. -/
def bucket.finds (b : bucket) (kh : List Nat × Nat) : Prop :=
  ∃ b1 dst1, b.Get [] kh.1 kh.2 true = some (b1, dst1, true)

/-- The index entries of the keys `ks` (written in this order) are ordered like the
writes: when an earlier key has an entry, a later key has one too, either of the
same generation at a larger offset, or of the current generation while the earlier
one is of the previous generation. -/
def WriteOrder (ks : List (List Nat × Nat)) (b : bucket) : Prop :=
  ks.Pairwise (fun a c => mapGet b.m a.2 ≠ 0 →
    mapGet b.m c.2 ≠ 0 ∧
      ((locGen (mapGet b.m a.2) = locGen (mapGet b.m c.2) ∧
          locOff (mapGet b.m a.2) < locOff (mapGet b.m c.2)) ∨
        (prevGen (locGen (mapGet b.m a.2)) b.curGen ∧ locGen (mapGet b.m c.2) = b.curGen)))

/-! ## The cache operations -/

/-- Go: `func (c *Cache) Set(k, v []byte) error`.  `hash` is `xxhash.Sum64`; the
bucket array has `bucketsCount` elements, so the indexing can only fail (`none`) on
a list of another length. -/
def Cache.Set (hash : List Nat → Nat) (c : Cache) (k v : List Nat) (fresh : Nat → Nat) :
    Option (Cache × Bool) :=
  let h := hash k
  let idx := h % bucketsCount
  match c.buckets[idx]? with
  | none => none
  | some b =>
    match b.Set k v h fresh with
    | none => none
    | some r => some ({ buckets := c.buckets.set idx r.1 }, r.2)

/-- Go: `func (c *Cache) HasGet(dst, k []byte) ([]byte, bool)`. -/
def Cache.HasGet (hash : List Nat → Nat) (c : Cache) (dst k : List Nat) :
    Option (Cache × List Nat × Bool) :=
  let h := hash k
  let idx := h % bucketsCount
  match c.buckets[idx]? with
  | none => none
  | some b =>
    match b.Get dst k h true with
    | none => none
    | some r => some ({ buckets := c.buckets.set idx r.1 }, r.2.1, r.2.2)

/-- Go: `func (c *Cache) Get(dst, k []byte) []byte`. -/
def Cache.Get (hash : List Nat → Nat) (c : Cache) (dst k : List Nat) :
    Option (Cache × List Nat) :=
  let h := hash k
  let idx := h % bucketsCount
  match c.buckets[idx]? with
  | none => none
  | some b =>
    match b.Get dst k h true with
    | none => none
    | some r => some ({ buckets := c.buckets.set idx r.1 }, r.2.1)

/-- Go: `func (c *Cache) Has(k []byte) bool`. -/
def Cache.Has (hash : List Nat → Nat) (c : Cache) (k : List Nat) : Option (Cache × Bool) :=
  let h := hash k
  let idx := h % bucketsCount
  match c.buckets[idx]? with
  | none => none
  | some b =>
    match b.Get [] k h false with
    | none => none
    | some r => some ({ buckets := c.buckets.set idx r.1 }, r.2.2)

/-- Go: `func (c *Cache) Del(k []byte)`. -/
def Cache.Del (hash : List Nat → Nat) (c : Cache) (k : List Nat) : Option Cache :=
  let h := hash k
  let idx := h % bucketsCount
  match c.buckets[idx]? with
  | none => none
  | some b => some { buckets := c.buckets.set idx (b.Del h) }

/-- The loop of `Cache.Reset` (lines 128-130): `Reset` every bucket; `none` is a
panic of one of them. -/
def resetBuckets : List bucket → Option (List bucket)
  | [] => some []
  | b :: rest =>
    match b.Reset with
    | none => none
    | some b1 =>
      match resetBuckets rest with
      | none => none
      | some rest1 => some (b1 :: rest1)

/-- Go: `func (c *Cache) Reset()`. -/
def Cache.Reset (c : Cache) : Option Cache :=
  match resetBuckets c.buckets with
  | none => none
  | some bs => some { buckets := bs }

/-- The cache states `New` and the operations produce: `bucketsCount` buckets, each
in a state reachable from its `Init`. -/
def Cache.WellFormed (c : Cache) : Prop :=
  c.buckets.length = bucketsCount ∧ ∀ b ∈ c.buckets, Reachable b

/-! ## Counting calls -/

/-- The number of `Get` calls (`Get`, `HasGet` or `Has` of the cache) in a history. -/
def getCount : List Op → Nat
  | [] => 0
  | Op.get _ _ _ _ :: ops => getCount ops + 1
  | Op.set _ _ _ _ :: ops => getCount ops
  | Op.del _ :: ops => getCount ops
  | Op.reset :: ops => getCount ops

/-- The number of `Set` calls in a history, the rejected ones included. -/
def setCount : List Op → Nat
  | [] => 0
  | Op.set _ _ _ _ :: ops => setCount ops + 1
  | Op.get _ _ _ _ :: ops => setCount ops
  | Op.del _ :: ops => setCount ops
  | Op.reset :: ops => setCount ops

/-- The number of `Get` calls of the history `ops`, run from state `b`, that
returned `found = false`. -/
def missCount : List Op → bucket → Nat
  | [], _ => 0
  | Op.get dst k h returnDst :: ops, b =>
    match b.Get dst k h returnDst with
    | none => 0
    | some r => (if r.2.2 then 0 else 1) + missCount ops r.1
  | Op.set k v h fresh :: ops, b =>
    match b.Set k v h fresh with
    | none => 0
    | some r => missCount ops r.1
  | Op.del h :: ops, b => missCount ops (b.Del h)
  | Op.reset :: ops, b =>
    match b.Reset with
    | none => 0
    | some b1 => missCount ops b1

/-! ## Liveness and placement, as specified -/

/-- The liveness predicate in the words of the specification: the locator's
generation `g` is the current generation `G` and its offset `o` is behind the
cursor `c`, or `g` is one generation behind `G` (`g + 1 = G`, or `g = 2^24 - 1` and
`G = 1`) and `o` is at or ahead of the cursor. -/
def specLive (g o G c : Nat) : Prop :=
  (g = G ∧ o < c) ∨ ((g + 1 = G ∨ (g = 2 ^ 24 - 1 ∧ G = 1)) ∧ o ≥ c)

/-- `Get` ends in a plain miss: `found = false`, `dst` unchanged, and only the
get-call and miss counters moved (no collision, no corruption counted). -/
def bucket.plainMiss (b : bucket) (dst k : List Nat) (h : Nat) (returnDst : Bool) : Prop :=
  b.Get dst k h returnDst =
    some ({ b with getCalls := (b.getCalls + 1) % u64,
                   misses := (b.misses + 1) % u64 }, dst, false)

/-- The `Set` of a record of encoded size `L` wraps (lines 253-254): the chunk index
after the record is above the chunk index of the cursor and not below the chunk
count. -/
def bucket.wraps (b : bucket) (L : Nat) : Prop :=
  (b.idx + L) % u64 / chunkSize > b.idx / chunkSize ∧
    (b.idx + L) % u64 / chunkSize ≥ b.chunks.length

/-- What a `Get` that returned `(d, f)` in state `b1` did to the state `b` it was
called in with buffer `dst`: storage and the set-call counter are as before, the
get-call counter moved by one, and either the key was found and no other counter
moved, or it was not found, `dst` came back unchanged, the miss counter moved by one
and at most one of the collision and corruption counters moved by one. -/
def GetEffect (b : bucket) (dst : List Nat) (b1 : bucket) (d : List Nat) (f : Bool) : Prop :=
  b1.chunks = b.chunks ∧ b1.m = b.m ∧ b1.idx = b.idx ∧ b1.gen = b.gen ∧
  b1.setCalls = b.setCalls ∧ b1.getCalls = (b.getCalls + 1) % u64 ∧
  ((f = true ∧ b1.misses = b.misses ∧ b1.collisions = b.collisions ∧
      b1.corruptions = b.corruptions) ∨
   (f = false ∧ d = dst ∧ b1.misses = (b.misses + 1) % u64 ∧
      ((b1.collisions = b.collisions ∧ b1.corruptions = b.corruptions) ∨
       (b1.collisions = (b.collisions + 1) % u64 ∧ b1.corruptions = b.corruptions) ∨
       (b1.collisions = b.collisions ∧ b1.corruptions = (b.corruptions + 1) % u64))))

/-- A bucket of one chunk holding the 6-byte record of key `[1]` and value `[5]`
(generation 1, cursor 6) whose index maps hash 7 to the locator 10: generation 0,
offset 10. -/
def staleSentinel : bucket :=
  { chunks := [some ⟨writeAt (fun _ => 0) 0 (encodeRecord [1] [5]), 6, chunkSize⟩],
    m := [(7, 10)], idx := 6, gen := 1, getCalls := 0, setCalls := 0, misses := 0,
    collisions := 0, corruptions := 0 }

/-! ## Locators and allocation -/

/-- Go: `idx | (b.gen << bucketSizeBits)` (line 279 of `bucket.Set`), the locator
stored for a record at offset `idx` under generation `gen`. -/
def packLoc (idx gen : Nat) : Nat :=
  idx ||| (gen <<< bucketSizeBits) % u64

/-- The number of allocated (non-nil) chunks of a chunk list. -/
def allocChunks (chunks : List (Option Slice)) : Nat :=
  chunks.countP (fun c => c.isSome)

/-! # Theorems -/

/-! ## Constants, evaluated -/

theorem chunkSize_eq : chunkSize = 65536 := rfl
theorem bucketsCount_eq : bucketsCount = 512 := rfl
theorem bucketSizeBits_eq : bucketSizeBits = 40 := rfl
theorem genSizeBits_eq : genSizeBits = 24 := rfl
theorem maxGen_eq : maxGen = 16777215 := by decide
theorem maxBucketSize_eq : maxBucketSize = 1099511627776 := by decide
theorem u64_eq : u64 = 18446744073709551616 := by norm_num [u64]
theorem kvLenBuf_length (k v : List Nat) : (kvLenBuf k v).length = 4 := rfl

/-! ## Errors of `Set` -/

theorem setWrite_no_error (b : bucket) (k v : List Nat) (h : Nat) (fresh : Nat → Nat)
    (idx idxNew chunkIdx gen : Nat) (moved needClean : Bool) (b1 : bucket) :
    b.setWrite k v h fresh idx idxNew chunkIdx gen moved needClean ≠ some (b1, true) := by
  unfold bucket.setWrite
  split
  · simp
  · simp

/-- `Set` returns an error exactly when the encoded record does not fit a chunk. -/
theorem set_error_iff_size (b : bucket) (k v : List Nat) (h : Nat) (fresh : Nat → Nat) :
    (∃ b1, b.Set k v h fresh = some (b1, true)) ↔ 4 + k.length + v.length ≥ 65536 := by
  unfold bucket.Set
  simp only [kvLenBuf_length, chunkSize_eq]
  have e16 : (1 <<< 16 : Nat) = 65536 := by decide
  rw [e16]
  by_cases h1 : k.length ≥ 65536 ∨ v.length ≥ 65536
  · rw [if_pos h1]
    constructor
    · intro _; omega
    · intro _; exact ⟨_, rfl⟩
  · rw [if_neg h1]
    by_cases h2 : 4 + k.length + v.length ≥ 65536
    · rw [if_pos h2]
      constructor
      · intro _; exact h2
      · intro _; exact ⟨_, rfl⟩
    · rw [if_neg h2]
      constructor
      · rintro ⟨b1, hb1⟩
        exfalso
        split at hb1
        · split at hb1
          · exact setWrite_no_error _ _ _ _ _ _ _ _ _ _ _ _ hb1
          · exact setWrite_no_error _ _ _ _ _ _ _ _ _ _ _ _ hb1
        · exact setWrite_no_error _ _ _ _ _ _ _ _ _ _ _ _ hb1
      · intro h3; exact absurd h3 h2

/-- C3: `Set` returns an error exactly when the encoded record size
`4 + len(k) + len(v)` is at least 65536 (one chunk), in every bucket state; in
particular it does whenever the key or the value has 65536 bytes or more. -/
theorem set_error_iff (b : bucket) (k v : List Nat) (h : Nat) (fresh : Nat → Nat) :
    ((∃ b1, b.Set k v h fresh = some (b1, true)) ↔ 4 + k.length + v.length ≥ 65536) ∧
    (k.length ≥ 65536 ∨ v.length ≥ 65536 → ∃ b1, b.Set k v h fresh = some (b1, true)) := by
  refine ⟨set_error_iff_size b k v h fresh, fun hl => (set_error_iff_size b k v h fresh).2 ?_⟩
  omega

theorem set_error_state (b : bucket) (k v : List Nat) (h : Nat) (fresh : Nat → Nat)
    (b1 : bucket) (herr : b.Set k v h fresh = some (b1, true)) :
    b1 = { b with setCalls := (b.setCalls + 1) % u64 } := by
  unfold bucket.Set at herr
  dsimp only at herr
  split at herr
  · simpa using herr.symm
  · split at herr
    · simpa using herr.symm
    · exfalso
      split at herr
      · split at herr
        · exact setWrite_no_error _ _ _ _ _ _ _ _ _ _ _ _ herr
        · exact setWrite_no_error _ _ _ _ _ _ _ _ _ _ _ _ herr
      · exact setWrite_no_error _ _ _ _ _ _ _ _ _ _ _ _ herr

/-- C4: when `Set` returns an error, the index, the cursor, the generation, the
chunks and the get, miss, collision and corruption counters are as before; only the
set-call counter moved, by one (as a `uint64`: exactly one below `2^64 - 1`). -/
theorem set_error_atomic (b : bucket) (k v : List Nat) (h : Nat) (fresh : Nat → Nat)
    (b1 : bucket) (herr : b.Set k v h fresh = some (b1, true)) :
    b1.m = b.m ∧ b1.idx = b.idx ∧ b1.gen = b.gen ∧ b1.chunks = b.chunks ∧
    b1.getCalls = b.getCalls ∧ b1.misses = b.misses ∧ b1.collisions = b.collisions ∧
    b1.corruptions = b.corruptions ∧ b1.setCalls = (b.setCalls + 1) % u64 ∧
    (b.setCalls + 1 < u64 → b1.setCalls = b.setCalls + 1) := by
  have e := set_error_state b k v h fresh b1 herr
  subst e
  refine ⟨rfl, rfl, rfl, rfl, rfl, rfl, rfl, rfl, rfl, fun hlt => Nat.mod_eq_of_lt hlt⟩

theorem set_error_atomic_witness :
    (bucket.blank 1).Set (List.replicate 65536 0) [] 7 (fun _ => 0) =
        some ({ bucket.blank 1 with setCalls := 1 }, true) ∧
      ({ bucket.blank 1 with setCalls := 1 } : bucket).m = (bucket.blank 1).m ∧
      ({ bucket.blank 1 with setCalls := 1 } : bucket).setCalls = (bucket.blank 1).setCalls + 1 :=
  have hs : (bucket.blank 1).Set (List.replicate 65536 0) [] 7 (fun _ => 0) =
      some ({ bucket.blank 1 with setCalls := 1 }, true) := by
    unfold bucket.Set
    rw [if_pos (Or.inl (by rw [List.length_replicate]; decide))]
    rfl
  have hc := set_error_atomic (bucket.blank 1) (List.replicate 65536 0) [] 7 (fun _ => 0) _ hs
  ⟨hs, hc.1, hc.2.2.2.2.2.2.2.2.2 (by simp [bucket.blank, u64])⟩

/-! ## Construction -/

theorem reset_nil_chunks (b : bucket) (n : Nat) :
    bucket.Reset { b with chunks := List.replicate n none, m := [] } = some (bucket.blank n) := by
  unfold bucket.Reset
  have hall : (List.replicate n (none : Option Slice)).all putChunkOk = true := by
    simp [List.all_eq_true, putChunkOk]
  simp [hall, bucket.blank]

theorem init_eq (b : bucket) (maxBytes : Nat) :
    b.Init maxBytes =
      if maxBytes = 0 ∨ maxBytes ≥ 1099511627776 then none
      else some (bucket.blank ((maxBytes + 65535) / 65536)) := by
  unfold bucket.Init
  rw [maxBucketSize_eq, chunkSize_eq]
  by_cases h0 : maxBytes = 0
  · simp [h0]
  · by_cases h1 : maxBytes ≥ 1099511627776
    · simp [h0, h1]
    · rw [if_neg h0, if_neg h1, if_neg (by tauto)]
      exact reset_nil_chunks b _

theorem initBuckets_replicate (n : Nat) (b b1 : bucket) (mb : Nat) (h : b.Init mb = some b1) :
    initBuckets (List.replicate n b) mb = some (List.replicate n b1) := by
  induction n with
  | zero => rfl
  | succ n ih => simp [List.replicate_succ, initBuckets, h, ih]

theorem initBuckets_replicate_none (n : Nat) (b : bucket) (mb : Nat) (h : b.Init mb = none) :
    initBuckets (List.replicate (n + 1) b) mb = none := by
  simp [List.replicate_succ, initBuckets, h]

theorem new_eq (maxBytes : Nat) (hmb : maxBytes < 2 ^ 64) :
    New maxBytes =
      if maxBytes = 0 ∨ (maxBytes + 511) / 512 ≥ 2 ^ 40 then none
      else some { buckets := List.replicate 512
                    (bucket.blank (((maxBytes + 511) / 512 + 65535) / 65536)) } := by
  unfold New
  rw [bucketsCount_eq, u64_eq]
  norm_num at hmb ⊢
  by_cases h0 : maxBytes = 0
  · simp [h0]
  · rw [if_neg h0]
    have e : (512 : Nat) = 511 + 1 := rfl
    by_cases hov : maxBytes + 511 < 18446744073709551616
    · have hm : (maxBytes + 511) % 18446744073709551616 = maxBytes + 511 :=
        Nat.mod_eq_of_lt hov
      rw [hm]
      by_cases hbig : (maxBytes + 511) / 512 ≥ 1099511627776
      · have hi : bucket.zero.Init ((maxBytes + 511) / 512) = none := by
          rw [init_eq]; simp [hbig]
        rw [if_pos (Or.inr hbig)]
        conv_lhs => rw [e]
        rw [initBuckets_replicate_none _ _ _ hi]
      · have hi : bucket.zero.Init ((maxBytes + 511) / 512) =
            some (bucket.blank (((maxBytes + 511) / 512 + 65535) / 65536)) := by
          rw [init_eq]; rw [if_neg]; omega
        rw [if_neg (by omega), initBuckets_replicate _ _ _ _ hi]
    · have hm : (maxBytes + 511) % 18446744073709551616 / 512 = 0 := by omega
      rw [hm]
      have hi : bucket.zero.Init 0 = none := by rw [init_eq]; simp
      rw [if_pos (Or.inr (by omega))]
      conv_lhs => rw [e]
      rw [initBuckets_replicate_none _ _ _ hi]

/-- C5: for a 64-bit `maxBytes`, `New` returns an error exactly when `maxBytes` is
0 or the per-shard share `ceil(maxBytes / 512)` is at least `2^40`; otherwise it
returns a cache of 512 buckets, each in the state `Init` leaves for that share. -/
theorem new_error_iff (maxBytes : Nat) (hmb : maxBytes < 2 ^ 64) :
    (New maxBytes = none ↔ maxBytes = 0 ∨ (maxBytes + 511) / 512 ≥ 2 ^ 40) ∧
    (¬ (maxBytes = 0 ∨ (maxBytes + 511) / 512 ≥ 2 ^ 40) →
      ∃ c, New maxBytes = some c ∧ c.buckets.length = 512 ∧
        ∀ b ∈ c.buckets, b = bucket.blank (((maxBytes + 511) / 512 + 65535) / 65536) ∧
          bucket.zero.Init ((maxBytes + 511) / 512) = some b) := by
  rw [new_eq maxBytes hmb]
  constructor
  · by_cases h : maxBytes = 0 ∨ (maxBytes + 511) / 512 ≥ 2 ^ 40
    · rw [if_pos h]
      exact ⟨fun _ => h, fun _ => rfl⟩
    · rw [if_neg h]
      exact ⟨fun hc => Option.noConfusion hc, fun hc => absurd hc h⟩
  · intro h
    rw [if_neg h]
    refine ⟨_, rfl, List.length_replicate _ _, ?_⟩
    intro b hb
    have hb1 := List.eq_of_mem_replicate hb
    refine ⟨hb1, ?_⟩
    rw [init_eq, hb1, if_neg]
    norm_num at h ⊢
    omega

theorem new_error_iff_witness :
    (New 18446744073709551615 = none ↔
      (18446744073709551615 : Nat) = 0 ∨ (18446744073709551615 + 511) / 512 ≥ 2 ^ 40) ∧
    (New 1000 = none ↔ (1000 : Nat) = 0 ∨ (1000 + 511) / 512 ≥ 2 ^ 40) :=
  ⟨(new_error_iff 18446744073709551615 (by norm_num)).1, (new_error_iff 1000 (by norm_num)).1⟩

/-! ## Capacity statistics -/

theorem updateStats_fold_maxBytes (n : Nat) (b : bucket) (s : Stats) (hs : s.MaxBytes < u64) :
    ((List.replicate n b).foldl (fun acc b => b.UpdateStats acc) s).MaxBytes =
      (s.MaxBytes + n * (b.chunks.length % u64 * chunkSize % u64)) % u64 := by
  induction n generalizing s with
  | zero => simp [Nat.mod_eq_of_lt hs]
  | succ n ih =>
    rw [List.replicate_succ, List.foldl_cons]
    have hlt : (b.UpdateStats s).MaxBytes < u64 := by
      simp only [bucket.UpdateStats]
      exact Nat.mod_lt _ (by rw [u64_eq]; decide)
    rw [ih _ hlt]
    simp only [bucket.UpdateStats]
    rw [Nat.succ_mul]
    generalize n * (b.chunks.length % u64 * chunkSize % u64) = t
    rw [u64_eq]
    omega

/-- C6: for every `maxBytes` accepted by `New`, `UpdateStats` into a zeroed `Stats`
reports `MaxBytes = 512 * 65536 * ceil(ceil(maxBytes / 512) / 65536)`, which is at
least `maxBytes`, at least 32 MiB, and exactly 32 MiB when `maxBytes <= 32 MiB`. -/
theorem new_maxBytes_stat (maxBytes : Nat) (hmb : maxBytes < 2 ^ 64) (c : Cache)
    (hnew : New maxBytes = some c) :
    (c.UpdateStats Stats.zero).MaxBytes =
        512 * 65536 * (((maxBytes + 511) / 512 + 65535) / 65536) ∧
      maxBytes ≤ (c.UpdateStats Stats.zero).MaxBytes ∧
      33554432 ≤ (c.UpdateStats Stats.zero).MaxBytes ∧
      (maxBytes ≤ 33554432 → (c.UpdateStats Stats.zero).MaxBytes = 33554432) := by
  rw [new_eq maxBytes hmb] at hnew
  by_cases h : maxBytes = 0 ∨ (maxBytes + 511) / 512 ≥ 2 ^ 40
  · rw [if_pos h] at hnew
    exact Option.noConfusion hnew
  · rw [if_neg h] at hnew
    have hc : c = ⟨List.replicate 512 (bucket.blank (((maxBytes + 511) / 512 + 65535) / 65536))⟩ := by
      injection hnew with e; exact e.symm
    have hval : (c.UpdateStats Stats.zero).MaxBytes =
        512 * 65536 * (((maxBytes + 511) / 512 + 65535) / 65536) := by
      subst hc
      unfold Cache.UpdateStats
      rw [updateStats_fold_maxBytes 512 _ Stats.zero (by rw [u64_eq]; decide)]
      simp only [bucket.blank, List.length_replicate, Stats.zero, chunkSize_eq, u64_eq]
      norm_num at h
      omega
    rw [hval]
    norm_num at h
    refine ⟨rfl, by omega, by omega, fun hle => by omega⟩

theorem new_maxBytes_stat_witness :
    ((⟨List.replicate 512 (bucket.blank 1)⟩ : Cache).UpdateStats Stats.zero).MaxBytes =
      512 * 65536 * (((1000 + 511) / 512 + 65535) / 65536) :=
  (new_maxBytes_stat 1000 (by norm_num) ⟨List.replicate 512 (bucket.blank 1)⟩
    (by rw [new_eq 1000 (by norm_num)]; rfl)).1

/-! ## Bytes -/

theorem readBytes_length (mem : Nat → Nat) (lo n : Nat) : (readBytes mem lo n).length = n := by
  simp [readBytes]

theorem readBytes_congr (mem1 mem2 : Nat → Nat) (lo n : Nat)
    (h : ∀ j, j < n → mem1 (lo + j) = mem2 (lo + j)) :
    readBytes mem1 lo n = readBytes mem2 lo n := by
  unfold readBytes
  apply List.map_congr_left
  intro j hj
  exact h j (List.mem_range.1 hj)

theorem readBytes_add (mem : Nat → Nat) (lo a b : Nat) :
    readBytes mem lo (a + b) = readBytes mem lo a ++ readBytes mem (lo + a) b := by
  unfold readBytes
  rw [List.range_add, List.map_append, List.map_map]
  congr 1
  apply List.map_congr_left
  intro j _
  simp [Nat.add_assoc]

theorem writeAt_inside (mem : Nat → Nat) (p : Nat) (bs : List Nat) (j : Nat)
    (hj : j < bs.length) : writeAt mem p bs (p + j) = bs.getD j 0 := by
  unfold writeAt
  rw [if_pos ⟨by omega, by omega⟩]
  congr 1
  omega

theorem writeAt_outside (mem : Nat → Nat) (p : Nat) (bs : List Nat) (i : Nat)
    (hi : i < p ∨ p + bs.length ≤ i) : writeAt mem p bs i = mem i := by
  unfold writeAt
  rw [if_neg (by omega)]

theorem readBytes_writeAt_same (mem : Nat → Nat) (p : Nat) (bs : List Nat) :
    readBytes (writeAt mem p bs) p bs.length = bs := by
  apply List.ext_getElem (readBytes_length _ _ _)
  intro i h1 h2
  simp only [readBytes, List.getElem_map, List.getElem_range]
  rw [writeAt_inside mem p bs i h2]
  simp [List.getD_eq_getElem?_getD, h2]

theorem readBytes_writeAt_disjoint (mem : Nat → Nat) (p : Nat) (bs : List Nat) (lo n : Nat)
    (h : lo + n ≤ p ∨ p + bs.length ≤ lo) :
    readBytes (writeAt mem p bs) lo n = readBytes mem lo n := by
  apply readBytes_congr
  intro j hj
  exact writeAt_outside mem p bs (lo + j) (by omega)

theorem writeAt_append (mem : Nat → Nat) (p : Nat) (a b : List Nat) :
    writeAt (writeAt mem p a) (p + a.length) b = writeAt mem p (a ++ b) := by
  funext i
  unfold writeAt
  simp only [List.length_append]
  by_cases h1 : p + a.length ≤ i ∧ i < p + a.length + b.length
  · rw [if_pos h1, if_pos ⟨by omega, by omega⟩]
    rw [List.getD_eq_getElem?_getD, List.getD_eq_getElem?_getD,
      List.getElem?_append_right (by omega)]
    congr 2
    omega
  · rw [if_neg h1]
    by_cases h2 : p ≤ i ∧ i < p + a.length
    · rw [if_pos h2, if_pos ⟨by omega, by omega⟩]
      rw [List.getD_eq_getElem?_getD, List.getD_eq_getElem?_getD,
        List.getElem?_append_left (by omega)]
    · rw [if_neg h2, if_neg (by omega)]

/-! ## The record encoding -/

theorem encodeRecord_length (k v : List Nat) :
    (encodeRecord k v).length = 4 + k.length + v.length := by
  simp only [encodeRecord, kvLenBuf, List.length_append, List.length_cons, List.length_nil]

theorem append_record (s : Slice) (k v : List Nat)
    (hfit : s.len + (4 + k.length + v.length) ≤ s.cap) :
    ((s.append (kvLenBuf k v)).append k).append v =
      ⟨writeAt s.mem s.len (encodeRecord k v), s.len + (4 + k.length + v.length), s.cap⟩ := by
  have h4 : (kvLenBuf k v).length = 4 := rfl
  have e1 : s.append (kvLenBuf k v) = ⟨writeAt s.mem s.len (kvLenBuf k v), s.len + 4, s.cap⟩ := by
    unfold Slice.append
    rw [if_pos (by omega), h4]
  have e2 : (⟨writeAt s.mem s.len (kvLenBuf k v), s.len + 4, s.cap⟩ : Slice).append k =
      ⟨writeAt s.mem s.len (kvLenBuf k v ++ k), s.len + 4 + k.length, s.cap⟩ := by
    unfold Slice.append
    rw [if_pos (by simp only; omega)]
    simp only
    rw [← h4, writeAt_append]
  have e3 : (⟨writeAt s.mem s.len (kvLenBuf k v ++ k), s.len + 4 + k.length, s.cap⟩ :
      Slice).append v =
      ⟨writeAt s.mem s.len (kvLenBuf k v ++ k ++ v), s.len + 4 + k.length + v.length, s.cap⟩ := by
    unfold Slice.append
    rw [if_pos (by simp only; omega)]
    simp only
    have hl : s.len + 4 + k.length = s.len + (kvLenBuf k v ++ k).length := by
      rw [List.length_append, h4]; omega
    rw [hl, writeAt_append]
  rw [e1, e2, e3]
  simp only [encodeRecord, Slice.mk.injEq, true_and, and_true]
  omega

theorem decode_len (n : Nat) (hn : n < 65536) :
    (((n % 2 ^ 16) >>> 8 % 256) <<< 8) ||| (n % 256) = n := by
  rw [Nat.shiftLeft_eq, Nat.shiftRight_eq_div_pow, Nat.mul_comm]
  have hlt : n % 256 < 2 ^ 8 := by
    have : (2 : Nat) ^ 8 = 256 := by norm_num
    omega
  rw [← Nat.mul_add_lt_is_or hlt]
  norm_num
  omega

/-! ## Locators -/

theorem mask40 : ((1 <<< bucketSizeBits) - 1 : Nat) = 2 ^ 40 - 1 := by decide
theorem mask24 : ((1 <<< genSizeBits) - 1 : Nat) = 2 ^ 24 - 1 := by decide

theorem curGen_eq_and (b : bucket) : b.gen &&& ((1 <<< genSizeBits) - 1) = b.curGen := by
  rw [mask24, Nat.and_pow_two_sub_one_eq_mod]
  rfl

theorem curGen_lt (b : bucket) : b.curGen < 2 ^ genSizeBits :=
  Nat.mod_lt _ (by decide)

theorem pack_eq (idx gen : Nat) (hidx : idx < 2 ^ bucketSizeBits) :
    idx ||| (gen <<< bucketSizeBits) % u64 = idx + gen % 2 ^ genSizeBits * 2 ^ bucketSizeBits := by
  have h1 : (gen <<< bucketSizeBits) % u64 = 2 ^ bucketSizeBits * (gen % 2 ^ genSizeBits) := by
    rw [Nat.shiftLeft_eq]
    simp only [u64, bucketSizeBits, genSizeBits]
    norm_num
    omega
  rw [h1, Nat.lor_comm, ← Nat.mul_add_lt_is_or hidx]
  rw [Nat.mul_comm, Nat.add_comm]

theorem unpack_gen (off g : Nat) (hoff : off < 2 ^ bucketSizeBits) :
    (off + g * 2 ^ bucketSizeBits) >>> bucketSizeBits = g := by
  rw [Nat.shiftRight_eq_div_pow]
  simp only [bucketSizeBits] at hoff ⊢
  norm_num at hoff ⊢
  omega

theorem unpack_off (off g : Nat) (hoff : off < 2 ^ bucketSizeBits) :
    (off + g * 2 ^ bucketSizeBits) &&& ((1 <<< bucketSizeBits) - 1) = off := by
  rw [mask40]
  have : (2 : Nat) ^ bucketSizeBits = 2 ^ 40 := rfl
  rw [this] at hoff ⊢
  rw [Nat.and_pow_two_sub_one_eq_mod]
  norm_num at hoff ⊢
  omega

/-! ## Chunk lists -/

theorem chunkAt_set_eq (chunks : List (Option Slice)) (i : Nat) (c : Option Slice)
    (hi : i < chunks.length) : chunkAt (chunks.set i c) i = c := by
  simp [chunkAt, hi]

theorem chunkAt_set_ne (chunks : List (Option Slice)) (i j : Nat) (c : Option Slice)
    (hij : i ≠ j) : chunkAt (chunks.set i c) j = chunkAt chunks j := by
  simp [chunkAt, List.getElem?_set_ne hij]

theorem chunkAt_replicate_none (n j : Nat) : chunkAt (List.replicate n none) j = none := by
  unfold chunkAt
  rw [List.getD_eq_getElem?_getD, List.getElem?_replicate]
  split <;> rfl

theorem chunkAt_length_le (chunks : List (Option Slice)) (j : Nat) (h : chunks.length ≤ j) :
    chunkAt chunks j = none := by
  simp [chunkAt, List.getElem?_eq_none h]

/-! ## The index map -/

theorem mapGet_nil (h : Nat) : mapGet [] h = 0 := rfl

theorem mapGet_cons (e : Nat × Nat) (rest : List (Nat × Nat)) (h : Nat) :
    mapGet (e :: rest) h = if e.1 = h then e.2 else mapGet rest h := rfl

theorem mapGet_mem (m : List (Nat × Nat)) (h : Nat) (hpos : mapGet m h ≠ 0) :
    (h, mapGet m h) ∈ m := by
  induction m with
  | nil => exact absurd rfl hpos
  | cons e rest ih =>
    rw [mapGet_cons] at hpos ⊢
    by_cases he : e.1 = h
    · rw [if_pos he]
      have : (h, e.2) = e := by rw [← he]
      rw [this]
      exact List.mem_cons_self _ _
    · rw [if_neg he] at hpos ⊢
      exact List.mem_cons_of_mem _ (ih hpos)

theorem mapGet_of_mem (m : List (Nat × Nat)) (e : Nat × Nat) (hnd : (m.map Prod.fst).Nodup)
    (he : e ∈ m) : mapGet m e.1 = e.2 := by
  induction m with
  | nil => cases he
  | cons a rest ih =>
    rw [List.map_cons, List.nodup_cons] at hnd
    rw [mapGet_cons]
    rcases List.mem_cons.1 he with rfl | hin
    · rw [if_pos rfl]
    · have hne : a.1 ≠ e.1 := by
        intro heq
        exact hnd.1 (heq ▸ List.mem_map_of_mem Prod.fst hin)
      rw [if_neg hne]
      exact ih hnd.2 hin

theorem mapGet_not_mem (m : List (Nat × Nat)) (h : Nat) (hn : h ∉ m.map Prod.fst) :
    mapGet m h = 0 := by
  induction m with
  | nil => rfl
  | cons a rest ih =>
    rw [List.map_cons, List.mem_cons, not_or] at hn
    rw [mapGet_cons, if_neg (fun e => hn.1 e.symm)]
    exact ih hn.2

theorem mapGet_mapSet_eq (m : List (Nat × Nat)) (h v : Nat) : mapGet (mapSet m h v) h = v := by
  simp [mapSet, mapGet_cons]

theorem mapGet_filter_ne (m : List (Nat × Nat)) (p : Nat × Nat → Bool) (h2 : Nat)
    (hp : ∀ e ∈ m, e.1 = h2 → p e = true) :
    mapGet (m.filter p) h2 = mapGet m h2 := by
  induction m with
  | nil => rfl
  | cons a rest ih =>
    have ih1 := ih (fun e he => hp e (List.mem_cons_of_mem _ he))
    rw [List.filter_cons]
    by_cases ha : p a = true
    · rw [if_pos ha, mapGet_cons, mapGet_cons, ih1]
    · rw [if_neg ha, mapGet_cons, ih1]
      have hne : a.1 ≠ h2 := fun e => ha (hp a (List.mem_cons_self _ _) e)
      rw [if_neg hne]

theorem mapGet_mapDel_ne (m : List (Nat × Nat)) (h h2 : Nat) (hne : h2 ≠ h) :
    mapGet (mapDel m h) h2 = mapGet m h2 := by
  unfold mapDel
  apply mapGet_filter_ne
  intro e _ he
  simp [he, hne]

theorem mapGet_mapDel_eq (m : List (Nat × Nat)) (h : Nat) : mapGet (mapDel m h) h = 0 := by
  apply mapGet_not_mem
  unfold mapDel
  intro hin
  rcases List.mem_map.1 hin with ⟨e, he, heq⟩
  have := (List.mem_filter.1 he).2
  simp [heq] at this

theorem mapGet_mapSet_ne (m : List (Nat × Nat)) (h v h2 : Nat) (hne : h2 ≠ h) :
    mapGet (mapSet m h v) h2 = mapGet m h2 := by
  unfold mapSet
  rw [mapGet_cons, if_neg (fun e => hne e.symm)]
  exact mapGet_mapDel_ne m h h2 hne

theorem mem_mapDel (m : List (Nat × Nat)) (h : Nat) (e : Nat × Nat) :
    e ∈ mapDel m h ↔ e ∈ m ∧ e.1 ≠ h := by
  simp [mapDel, List.mem_filter]

theorem nodup_mapDel (m : List (Nat × Nat)) (h : Nat) (hnd : (m.map Prod.fst).Nodup) :
    ((mapDel m h).map Prod.fst).Nodup :=
  hnd.sublist (List.Sublist.map _ (List.filter_sublist _))

theorem nodup_mapSet (m : List (Nat × Nat)) (h v : Nat) (hnd : (m.map Prod.fst).Nodup) :
    ((mapSet m h v).map Prod.fst).Nodup := by
  unfold mapSet
  rw [List.map_cons, List.nodup_cons]
  refine ⟨?_, nodup_mapDel m h hnd⟩
  intro hin
  rcases List.mem_map.1 hin with ⟨e, he, heq⟩
  exact ((mem_mapDel m h e).1 he).2 heq

theorem nodup_filter (m : List (Nat × Nat)) (p : Nat × Nat → Bool)
    (hnd : (m.map Prod.fst).Nodup) : ((m.filter p).map Prod.fst).Nodup :=
  hnd.sublist (List.Sublist.map _ (List.filter_sublist _))

/-! ## Reading a record back -/

theorem record_parts (mem : Nat → Nat) (io : Nat) (k v : List Nat)
    (hrec : readBytes mem io (4 + k.length + v.length) = encodeRecord k v) :
    readBytes mem io 4 = kvLenBuf k v ∧ readBytes mem (io + 4) k.length = k ∧
      readBytes mem (io + 4 + k.length) v.length = v := by
  rw [readBytes_add, readBytes_add] at hrec
  unfold encodeRecord at hrec
  have h1 := List.append_inj hrec (by simp [readBytes_length, kvLenBuf_length])
  have h2 := List.append_inj h1.1 (by simp [readBytes_length, kvLenBuf_length])
  refine ⟨h2.1, h2.2, ?_⟩
  rw [Nat.add_assoc]
  exact h1.2

theorem sliceRange_some (s : Slice) (lo hi : Nat) (h : lo ≤ hi ∧ hi ≤ s.cap) :
    sliceRange (some s) lo hi = some (readBytes s.mem lo (hi - lo)) := by
  simp only [sliceRange]
  rw [if_pos h]

theorem sliceRange_none (lo hi : Nat) (h : 0 < hi) : sliceRange none lo hi = none := by
  simp only [sliceRange]
  rw [if_neg (by omega)]

theorem getRecord_eval (b : bucket) (s : Slice) (io : Nat) (dst k v k1 : List Nat) (r : Bool)
    (hcap : s.cap = chunkSize) (hfit : io + (4 + k.length + v.length) < chunkSize)
    (hrec : readBytes s.mem io (4 + k.length + v.length) = encodeRecord k v) :
    b.getRecord (some s) io dst k1 r =
      if k1 = k then bucket.endGet b (if r then dst ++ v else dst) true
      else bucket.endGet { b with collisions := (b.collisions + 1) % u64 } dst false := by
  obtain ⟨hp1, hp2, hp3⟩ := record_parts s.mem io k v hrec
  rw [chunkSize_eq] at hfit hcap
  unfold bucket.getRecord
  rw [sliceRange_some s io (io + 4) ⟨by omega, by omega⟩]
  have e4 : io + 4 - io = 4 := by omega
  rw [e4, hp1]
  have hk : ((kvLenBuf k v).getD 0 0 <<< 8) ||| (kvLenBuf k v).getD 1 0 = k.length :=
    decode_len k.length (by omega)
  have hv : ((kvLenBuf k v).getD 2 0 <<< 8) ||| (kvLenBuf k v).getD 3 0 = v.length :=
    decode_len v.length (by omega)
  simp only [hk, hv]
  rw [if_neg (by rw [chunkSize_eq]; omega)]
  rw [sliceRange_some s (io + 4) (io + 4 + k.length) ⟨by omega, by omega⟩]
  have ek : io + 4 + k.length - (io + 4) = k.length := by omega
  simp only [ek, hp2]
  by_cases hkk : k1 = k
  · rw [if_pos hkk, if_pos hkk]
    cases r
    · simp
    · simp only [if_true]
      rw [sliceRange_some s (io + 4 + k.length) (io + 4 + k.length + v.length)
        ⟨by omega, by omega⟩]
      have ev : io + 4 + k.length + v.length - (io + 4 + k.length) = v.length := by omega
      simp only [ev, hp3]
  · rw [if_neg hkk, if_neg hkk]

/-! ## Evaluating `Get` -/

theorem getLive_iff (G c off g : Nat) (hoff : off < 2 ^ bucketSizeBits) :
    getLive G c (off + g * 2 ^ bucketSizeBits) ↔
      (g = G ∧ off < c) ∨ (g + 1 = G ∧ off ≥ c) ∨ (g = maxGen ∧ G = 1 ∧ off ≥ c) := by
  unfold getLive
  rw [unpack_gen off g hoff, unpack_off off g hoff]

theorem cleanKeeps_iff_getLive (G c v : Nat) : cleanKeeps G c v ↔ getLive G c v := by
  unfold cleanKeeps getLive
  tauto

theorem chunkAt_some_lt (chunks : List (Option Slice)) (j : Nat) (s : Slice)
    (h : chunkAt chunks j = some s) : j < chunks.length := by
  by_contra hge
  rw [chunkAt_length_le chunks j (by omega)] at h
  exact Option.noConfusion h

theorem get_eval_record (b : bucket) (dst k v k1 : List Nat) (h : Nat) (r : Bool)
    (off g : Nat) (hv : mapGet b.m h = off + g * 2 ^ bucketSizeBits)
    (hoff : off < 2 ^ bucketSizeBits) (hg : 0 < g)
    (hlive : (g = b.curGen ∧ off < b.idx) ∨ (prevGen g b.curGen ∧ off ≥ b.idx))
    (hcaps : ∀ j s, chunkAt b.chunks j = some s → s.cap = chunkSize)
    (hrec : RecordAt b.chunks off k v) :
    b.Get dst k1 h r =
      if k1 = k then
        some ({ b with getCalls := (b.getCalls + 1) % u64 }, if r then dst ++ v else dst, true)
      else
        some ({ b with getCalls := (b.getCalls + 1) % u64,
                       collisions := (b.collisions + 1) % u64,
                       misses := (b.misses + 1) % u64 }, dst, false) := by
  obtain ⟨s, hs, hfit, hbytes⟩ := hrec
  have hpos : mapGet b.m h > 0 := by
    rw [hv]
    have : 0 < g * 2 ^ bucketSizeBits := Nat.mul_pos hg (by decide)
    omega
  have hl : getLive (b.gen &&& ((1 <<< genSizeBits) - 1)) b.idx (mapGet b.m h) := by
    rw [hv, curGen_eq_and, getLive_iff _ _ _ _ hoff]
    unfold prevGen at hlive
    tauto
  unfold bucket.Get
  simp only
  rw [if_pos hpos, if_pos hl, hv, unpack_off off g hoff]
  rw [if_neg (by have := chunkAt_some_lt _ _ _ hs; omega)]
  rw [if_neg (by omega), hs]
  rw [getRecord_eval _ s (off % chunkSize) dst k v k1 r (hcaps _ _ hs) hfit hbytes]
  by_cases hk : k1 = k
  · rw [if_pos hk, if_pos hk]
    rfl
  · rw [if_neg hk, if_neg hk]
    rfl

theorem get_eval_absent (b : bucket) (dst k1 : List Nat) (h : Nat) (r : Bool)
    (hv : mapGet b.m h = 0) :
    b.Get dst k1 h r =
      some ({ b with getCalls := (b.getCalls + 1) % u64,
                     misses := (b.misses + 1) % u64 }, dst, false) := by
  unfold bucket.Get
  simp only
  rw [if_neg (by omega)]
  rfl

theorem get_eval_stale (b : bucket) (dst k1 : List Nat) (h : Nat) (r : Bool)
    (hl : ¬ getLive b.curGen b.idx (mapGet b.m h)) :
    b.Get dst k1 h r =
      some ({ b with getCalls := (b.getCalls + 1) % u64,
                     misses := (b.misses + 1) % u64 }, dst, false) := by
  unfold bucket.Get
  simp only
  rw [curGen_eq_and]
  by_cases hpos : mapGet b.m h > 0
  · rw [if_pos hpos, if_neg hl]
    rfl
  · rw [if_neg hpos]
    rfl

/-- The storage fields are the same in both states (the counters may differ). -/
theorem get_frame (b b1 : bucket) (dst k1 dst1 : List Nat) (h : Nat) (r f : Bool)
    (hget : b.Get dst k1 h r = some (b1, dst1, f)) :
    b1.chunks = b.chunks ∧ b1.m = b.m ∧ b1.idx = b.idx ∧ b1.gen = b.gen := by
  have hend : ∀ (x : bucket) (d : List Nat) (fd : Bool),
      bucket.endGet x d fd = some (b1, dst1, f) →
      b1.chunks = x.chunks ∧ b1.m = x.m ∧ b1.idx = x.idx ∧ b1.gen = x.gen := by
    intro x d fd he
    unfold bucket.endGet at he
    split at he
    · injection he with he; injection he with he1 _; subst he1; exact ⟨rfl, rfl, rfl, rfl⟩
    · injection he with he; injection he with he1 _; subst he1; exact ⟨rfl, rfl, rfl, rfl⟩
  have hrec : ∀ (x : bucket) (c : Option Slice) (io : Nat),
      x.getRecord c io dst k1 r = some (b1, dst1, f) →
      b1.chunks = x.chunks ∧ b1.m = x.m ∧ b1.idx = x.idx ∧ b1.gen = x.gen := by
    intro x c io he
    unfold bucket.getRecord at he
    split at he
    · exact Option.noConfusion he
    · simp only at he
      split at he
      · exact (hend _ _ _ he :)
      · split at he
        · exact Option.noConfusion he
        · split at he
          · split at he
            · split at he
              · exact Option.noConfusion he
              · exact (hend _ _ _ he :)
            · exact (hend _ _ _ he :)
          · exact (hend _ _ _ he :)
  unfold bucket.Get at hget
  simp only at hget
  split at hget
  · split at hget
    · split at hget
      · exact (hend _ _ _ hget :)
      · split at hget
        · exact (hend _ _ _ hget :)
        · exact (hrec _ _ _ hget :)
    · exact (hend _ _ _ hget :)
  · exact (hend _ _ _ hget :)

/-! ## Generations -/

theorem nextGen_spec (gen : Nat) :
    nextGen gen < u64 ∧ nextGen gen % 2 ^ genSizeBits ≠ 0 ∧
      ((gen % 2 ^ genSizeBits = maxGen ∧ nextGen gen % 2 ^ genSizeBits = 1) ∨
        (gen % 2 ^ genSizeBits < maxGen ∧
          nextGen gen % 2 ^ genSizeBits = gen % 2 ^ genSizeBits + 1)) := by
  unfold nextGen
  simp only
  rw [mask24, Nat.and_pow_two_sub_one_eq_mod]
  rw [u64_eq, maxGen_eq]
  have e24 : (2 : Nat) ^ genSizeBits = 16777216 := by decide
  have e24b : (2 : Nat) ^ 24 = 16777216 := by decide
  rw [e24, e24b]
  split <;> omega

theorem nextGen_prev (gen : Nat) :
    prevGen (gen % 2 ^ genSizeBits) (nextGen gen % 2 ^ genSizeBits) := by
  rcases (nextGen_spec gen).2.2 with ⟨h1, h2⟩ | ⟨_, h2⟩
  · exact Or.inr ⟨h1, h2⟩
  · exact Or.inl h2.symm

/-- Two steps back in the cycle of generations is neither the generation itself
nor its predecessor. -/
theorem prevGen_chain (g G G1 : Nat) (hg : 0 < g) (hG : 0 < G) (hGlt : G < 2 ^ genSizeBits)
    (h1 : prevGen g G) (h2 : prevGen G G1) : g ≠ G1 ∧ ¬ prevGen g G1 := by
  unfold prevGen at *
  rw [maxGen_eq] at *
  have e24 : (2 : Nat) ^ genSizeBits = 16777216 := by decide
  rw [e24] at hGlt
  omega

theorem prevGen_ne (g G : Nat) (h : prevGen g G) : g ≠ G := by
  unfold prevGen at h
  rw [maxGen_eq] at h
  omega

/-! ## Writing a record -/

theorem arena_of_eq (b b1 : bucket) (ha : Arena b) (hc : b1.chunks = b.chunks)
    (hi : b1.idx = b.idx) (hg : b1.gen = b.gen) : Arena b1 := by
  have hcg : b1.curGen = b.curGen := by unfold bucket.curGen; rw [hg]
  constructor
  · rw [hc]; exact ha.nonempty
  · rw [hc]; exact ha.bound
  · rw [hc, hi]; exact ha.cursor
  · rw [hg]; exact ha.genLt
  · rw [hcg]; exact ha.genNz
  · rw [hc]; exact ha.caps
  · rw [hc, hi]; exact ha.curLen
  · rw [hc, hi]; exact ha.curNil
  · rw [hc, hi]; exact ha.below

theorem storeRecord_eq (b : bucket) (k v : List Nat) (h : Nat) (fresh : Nat → Nat)
    (off g : Nat) (moved : Bool) (ha : Arena b)
    (hj : off / chunkSize < b.chunks.length)
    (hfit : off % chunkSize + (4 + k.length + v.length) < chunkSize)
    (hmv : moved = true → off % chunkSize = 0) (hst : moved = false → off = b.idx)
    (hoff : off < 2 ^ bucketSizeBits) :
    b.storeRecord k v h fresh off (off + (4 + k.length + v.length)) (off / chunkSize) g moved =
      b.placed k v h fresh off g := by
  unfold bucket.storeRecord bucket.placed
  simp only
  rw [pack_eq off g hoff]
  congr 1
  cases moved
  · have hoi := hst rfl
    simp only [Bool.false_eq_true, if_false]
    congr 2
    cases hc : chunkAt b.chunks (off / chunkSize) with
    | none =>
      have h0 : off % chunkSize = 0 := by
        rw [hoi] at hc ⊢
        exact ha.curNil hc
      simp only [baseMem]
      rw [append_record _ k v (by simp only; omega), h0]
    | some s =>
      have hlen : s.len = off % chunkSize := by
        rw [hoi] at hc ⊢
        exact ha.curLen s hc
      have hcap := ha.caps _ _ hc
      simp only [baseMem]
      rw [append_record _ k v (by omega), hlen, hcap]
  · have h0 := hmv rfl
    simp only [if_true]
    rw [chunkAt_set_eq _ _ _ hj, List.set_set]
    congr 2
    cases hc : chunkAt b.chunks (off / chunkSize) with
    | none =>
      simp only [baseMem, truncate0]
      rw [append_record _ k v (by simp only; omega), h0]
    | some s =>
      have hcap := ha.caps _ _ hc
      simp only [baseMem, truncate0]
      rw [append_record _ k v (by simp only; omega), h0, hcap]

theorem arena_idx_lt (b : bucket) (ha : Arena b) : b.idx < 2 ^ bucketSizeBits := by
  have h1 := ha.cursor
  have h2 := ha.bound
  rw [maxBucketSize_eq] at h2
  have : (2 : Nat) ^ bucketSizeBits = 1099511627776 := by decide
  omega

theorem set_cases (b : bucket) (k v : List Nat) (h : Nat) (fresh : Nat → Nat) (ha : Arena b)
    (hL : 4 + k.length + v.length < chunkSize) :
    (b.idx % chunkSize + (4 + k.length + v.length) < chunkSize ∧
      b.Set k v h fresh = some (({ b with setCalls := (b.setCalls + 1) % u64 } : bucket).placed
        k v h fresh b.idx b.gen, false)) ∨
    (chunkSize ≤ b.idx % chunkSize + (4 + k.length + v.length) ∧
      b.idx / chunkSize + 1 < b.chunks.length ∧
      b.Set k v h fresh = some (({ b with setCalls := (b.setCalls + 1) % u64 } : bucket).placed
        k v h fresh ((b.idx / chunkSize + 1) * chunkSize) b.gen, false)) ∨
    (chunkSize ≤ b.idx % chunkSize + (4 + k.length + v.length) ∧
      b.chunks.length ≤ b.idx / chunkSize + 1 ∧
      b.Set k v h fresh = some ((({ b with setCalls := (b.setCalls + 1) % u64 } : bucket).placed
        k v h fresh 0 (nextGen b.gen)).cleanLocked, false)) := by
  have ha0 : Arena ({ b with setCalls := (b.setCalls + 1) % u64 } : bucket) :=
    arena_of_eq b _ ha rfl rfl rfl
  have hidx := arena_idx_lt b ha
  have hcur := ha.cursor
  have hne := ha.nonempty
  have hbd := ha.bound
  have e40 : (2 : Nat) ^ bucketSizeBits = 1099511627776 := by decide
  have e16 : (1 <<< 16 : Nat) = 65536 := by decide
  rw [maxBucketSize_eq] at hbd
  rw [e40] at hidx
  rw [chunkSize_eq] at hL hcur hbd ⊢
  have hmod : (b.idx + (4 + k.length + v.length)) % u64 = b.idx + (4 + k.length + v.length) := by
    rw [u64_eq]; omega
  unfold bucket.Set
  simp only [kvLenBuf_length, chunkSize_eq, e16]
  rw [if_neg (by omega), if_neg (by omega), hmod]
  by_cases hstay : b.idx % 65536 + (4 + k.length + v.length) < 65536
  · left
    refine ⟨hstay, ?_⟩
    rw [if_neg (by omega)]
    unfold bucket.setWrite
    simp only
    rw [if_pos (by omega)]
    have := storeRecord_eq _ k v h fresh b.idx b.gen false ha0
      (by rw [chunkSize_eq]; show b.idx / 65536 < b.chunks.length; omega)
      (by rw [chunkSize_eq]; exact hstay) (fun hf => Bool.noConfusion hf) (fun _ => rfl)
      (by rw [e40]; exact hidx)
    rw [chunkSize_eq] at this
    rw [this]
    rfl
  · right
    have hq : (b.idx + (4 + k.length + v.length)) / 65536 = b.idx / 65536 + 1 := by omega
    rw [if_pos (by omega), hq]
    by_cases hnext : b.idx / 65536 + 1 < b.chunks.length
    · left
      refine ⟨by omega, hnext, ?_⟩
      rw [if_neg (by omega)]
      unfold bucket.setWrite
      simp only
      rw [if_pos hnext]
      have hd : (b.idx / 65536 + 1) * 65536 / 65536 = b.idx / 65536 + 1 := by omega
      have hm : (b.idx / 65536 + 1) * 65536 % 65536 = 0 := by omega
      have := storeRecord_eq _ k v h fresh ((b.idx / 65536 + 1) * 65536) b.gen true ha0
        (by rw [chunkSize_eq, hd]; exact hnext)
        (by rw [chunkSize_eq, hm]; omega) (fun _ => by rw [chunkSize_eq, hm])
        (fun hf => Bool.noConfusion hf) (by rw [e40]; omega)
      rw [chunkSize_eq, hd] at this
      rw [this]
      rfl
    · right
      refine ⟨by omega, by omega, ?_⟩
      rw [if_pos (by omega)]
      unfold bucket.setWrite
      simp only
      rw [if_pos (by omega)]
      have := storeRecord_eq _ k v h fresh 0 (nextGen b.gen) true ha0
        (by rw [chunkSize_eq]; show 0 / 65536 < b.chunks.length; omega)
        (by rw [chunkSize_eq]; omega) (fun _ => by rw [chunkSize_eq])
        (fun hf => Bool.noConfusion hf) (by decide)
      rw [chunkSize_eq] at this
      simp only [Nat.zero_div, Nat.zero_add] at this
      rw [this]
      rfl

/-! ## The state after a write -/

theorem placed_chunkAt_eq (b : bucket) (k v : List Nat) (h : Nat) (fresh : Nat → Nat)
    (off g : Nat) (hj : off / chunkSize < b.chunks.length) :
    chunkAt (b.placed k v h fresh off g).chunks (off / chunkSize) =
      some ⟨writeAt (baseMem (chunkAt b.chunks (off / chunkSize)) fresh) (off % chunkSize)
        (encodeRecord k v), off % chunkSize + (4 + k.length + v.length), chunkSize⟩ :=
  chunkAt_set_eq _ _ _ hj

theorem placed_chunkAt_ne (b : bucket) (k v : List Nat) (h : Nat) (fresh : Nat → Nat)
    (off g j : Nat) (hne : j ≠ off / chunkSize) :
    chunkAt (b.placed k v h fresh off g).chunks j = chunkAt b.chunks j :=
  chunkAt_set_ne _ _ _ _ (fun e => hne e.symm)

theorem placed_arena (b : bucket) (k v : List Nat) (h : Nat) (fresh : Nat → Nat)
    (off g : Nat) (ha : Arena b) (hj : off / chunkSize < b.chunks.length)
    (hfit : off % chunkSize + (4 + k.length + v.length) < chunkSize)
    (hbelow : ∀ j, j < off / chunkSize → chunkAt b.chunks j ≠ none)
    (hg : g < u64) (hgz : g % 2 ^ genSizeBits ≠ 0) :
    Arena (b.placed k v h fresh off g) := by
  have hlen : (b.placed k v h fresh off g).chunks.length = b.chunks.length :=
    List.length_set _ _ _
  have hidx : (b.placed k v h fresh off g).idx = off + (4 + k.length + v.length) := rfl
  have hq : (off + (4 + k.length + v.length)) / chunkSize = off / chunkSize := by
    rw [chunkSize_eq] at hfit ⊢; omega
  have hr : (off + (4 + k.length + v.length)) % chunkSize =
      off % chunkSize + (4 + k.length + v.length) := by
    rw [chunkSize_eq] at hfit ⊢; omega
  constructor
  · rw [hlen]; exact ha.nonempty
  · rw [hlen]; exact ha.bound
  · rw [hlen, hidx]
    rw [chunkSize_eq] at hfit hj ⊢
    omega
  · exact hg
  · exact hgz
  · intro j s hs
    by_cases hjj : j = off / chunkSize
    · rw [hjj, placed_chunkAt_eq b k v h fresh off g hj] at hs
      injection hs with hs
      rw [← hs]
    · rw [placed_chunkAt_ne b k v h fresh off g j hjj] at hs
      exact ha.caps j s hs
  · intro s hs
    rw [hidx, hq, placed_chunkAt_eq b k v h fresh off g hj] at hs
    injection hs with hs
    rw [hidx, hr, ← hs]
  · intro hs
    rw [hidx, hq, placed_chunkAt_eq b k v h fresh off g hj] at hs
    exact Option.noConfusion hs
  · intro j hjlt
    rw [hidx, hq] at hjlt
    rw [placed_chunkAt_ne b k v h fresh off g j (by omega)]
    exact hbelow j hjlt

theorem placed_recordAt_new (b : bucket) (k v : List Nat) (h : Nat) (fresh : Nat → Nat)
    (off g : Nat) (hj : off / chunkSize < b.chunks.length)
    (hfit : off % chunkSize + (4 + k.length + v.length) < chunkSize) :
    RecordAt (b.placed k v h fresh off g).chunks off k v := by
  refine ⟨_, placed_chunkAt_eq b k v h fresh off g hj, hfit, ?_⟩
  simp only
  rw [← encodeRecord_length k v]
  exact readBytes_writeAt_same _ _ _

theorem placed_recordAt_old (b : bucket) (k v : List Nat) (h : Nat) (fresh : Nat → Nat)
    (off g o : Nat) (k2 v2 : List Nat) (hrec : RecordAt b.chunks o k2 v2)
    (hdis : o / chunkSize ≠ off / chunkSize ∨
      o % chunkSize + (4 + k2.length + v2.length) ≤ off % chunkSize ∨
      off % chunkSize + (4 + k.length + v.length) ≤ o % chunkSize) :
    RecordAt (b.placed k v h fresh off g).chunks o k2 v2 := by
  obtain ⟨s, hs, hfit2, hbytes⟩ := hrec
  by_cases hjj : o / chunkSize = off / chunkSize
  · have hj : off / chunkSize < b.chunks.length := by
      rw [← hjj]; exact chunkAt_some_lt _ _ _ hs
    refine ⟨_, hjj ▸ placed_chunkAt_eq b k v h fresh off g hj, hfit2, ?_⟩
    simp only
    rw [hs]
    simp only [baseMem]
    rw [readBytes_writeAt_disjoint _ _ _ _ _ (by
      rw [encodeRecord_length]
      rcases hdis with h1 | h1 | h1
      · exact absurd hjj h1
      · exact Or.inl h1
      · exact Or.inr h1)]
    exact hbytes
  · exact ⟨s, by rw [placed_chunkAt_ne b k v h fresh off g _ hjj]; exact hs, hfit2, hbytes⟩

/-! ## The invariant is kept -/

theorem entryInv_mono (P Q : Nat → List Nat → List Nat → Prop) (G : Nat)
    (chunks : List (Option Slice)) (cursor : Nat) (e : Nat × Nat)
    (hPQ : ∀ k v, P e.1 k v → Q e.1 k v) (he : EntryInv P G chunks cursor e) :
    EntryInv Q G chunks cursor e := by
  obtain ⟨g, off, h1, h2, h3, h4, hc⟩ := he
  refine ⟨g, off, h1, h2, h3, h4, ?_⟩
  rcases hc with ⟨hg, k, v, hP, hr, hle⟩ | ⟨hg, hrec⟩
  · exact Or.inl ⟨hg, k, v, hPQ k v hP, hr, hle⟩
  · refine Or.inr ⟨hg, fun hcur => ?_⟩
    obtain ⟨k, v, hP, hr⟩ := hrec hcur
    exact ⟨k, v, hPQ k v hP, hr⟩

theorem inv_of_eq (P : Nat → List Nat → List Nat → Prop) (b b1 : bucket) (hinv : Inv P b)
    (hc : b1.chunks = b.chunks) (hm : b1.m = b.m) (hi : b1.idx = b.idx)
    (hg : b1.gen = b.gen) : Inv P b1 := by
  have hcg : b1.curGen = b.curGen := by unfold bucket.curGen; rw [hg]
  refine ⟨arena_of_eq b b1 hinv.arena hc hi hg, by rw [hm]; exact hinv.nodup, ?_⟩
  rw [hm, hc, hi, hcg]
  exact hinv.entries

theorem inv_mono (P Q : Nat → List Nat → List Nat → Prop) (b : bucket) (hinv : Inv P b)
    (hPQ : ∀ h k v, P h k v → Q h k v) : Inv Q b :=
  ⟨hinv.arena, hinv.nodup,
    fun e he => entryInv_mono P Q _ _ _ e (hPQ e.1) (hinv.entries e he)⟩

theorem inv_blank (P : Nat → List Nat → List Nat → Prop) (n : Nat) (h1 : 1 ≤ n)
    (h2 : n * chunkSize ≤ maxBucketSize) : Inv P (bucket.blank n) := by
  have hlen : (bucket.blank n).chunks.length = n := List.length_replicate _ _
  refine ⟨⟨?_, ?_, ?_, ?_, ?_, ?_, ?_, ?_, ?_⟩, List.nodup_nil, ?_⟩
  · rw [hlen]; exact h1
  · rw [hlen]; exact h2
  · rw [hlen]
    show 0 < n * chunkSize
    exact Nat.mul_pos h1 (by decide)
  · show 1 < u64
    rw [u64_eq]; decide
  · show (1 : Nat) % 2 ^ genSizeBits ≠ 0
    decide
  · intro j s hs
    have : chunkAt (bucket.blank n).chunks j = none := chunkAt_replicate_none n j
    rw [this] at hs
    exact Option.noConfusion hs
  · intro s hs
    have : chunkAt (bucket.blank n).chunks ((bucket.blank n).idx / chunkSize) = none :=
      chunkAt_replicate_none n _
    rw [this] at hs
    exact Option.noConfusion hs
  · intro _; rfl
  · intro j hj
    exact absurd hj (by show ¬ j < 0 / chunkSize; simp)
  · intro e he
    cases he

theorem inv_init (P : Nat → List Nat → List Nat → Prop) (bz : bucket) (maxBytes : Nat)
    (b0 : bucket) (hinit : bz.Init maxBytes = some b0) : Inv P b0 := by
  rw [init_eq] at hinit
  split at hinit
  · exact Option.noConfusion hinit
  · rename_i hcond
    injection hinit with hinit
    rw [← hinit]
    apply inv_blank
    · omega
    · rw [chunkSize_eq, maxBucketSize_eq]; omega

theorem reset_eq (b : bucket) (ha : Arena b) :
    b.Reset = some (bucket.blank b.chunks.length) := by
  unfold bucket.Reset
  have hall : b.chunks.all putChunkOk = true := by
    rw [List.all_eq_true]
    intro c hc
    cases c with
    | none => rfl
    | some s =>
      obtain ⟨j, hj, hget⟩ := List.getElem_of_mem hc
      have : chunkAt b.chunks j = some s := by
        simp [chunkAt, hj, hget]
      have hcap := ha.caps j s this
      simp [putChunkOk, hcap]
  rw [if_pos hall]
  have hmap : b.chunks.map (fun _ => (none : Option Slice)) =
      List.replicate b.chunks.length none := by
    rw [List.eq_replicate_iff]
    refine ⟨List.length_map _ _, ?_⟩
    intro c hc
    rcases List.mem_map.1 hc with ⟨_, _, h⟩
    exact h.symm
  rw [hmap]
  rfl

theorem inv_reset (P Q : Nat → List Nat → List Nat → Prop) (b b1 : bucket) (hinv : Inv P b)
    (hr : b.Reset = some b1) : Inv Q b1 := by
  rw [reset_eq b hinv.arena] at hr
  injection hr with hr
  rw [← hr]
  exact inv_blank Q _ hinv.arena.nonempty hinv.arena.bound

theorem inv_del (P Q : Nat → List Nat → List Nat → Prop) (b : bucket) (h : Nat)
    (hinv : Inv P b) (hPQ : ∀ h2 k v, h2 ≠ h → P h2 k v → Q h2 k v) : Inv Q (b.Del h) := by
  refine ⟨arena_of_eq b _ hinv.arena rfl rfl rfl, nodup_mapDel _ _ hinv.nodup, ?_⟩
  intro e he
  have hmem := (mem_mapDel b.m h e).1 he
  exact entryInv_mono P Q _ _ _ e (hPQ e.1 · · hmem.2) (hinv.entries e hmem.1)

theorem inv_get (P : Nat → List Nat → List Nat → Prop) (b b1 : bucket) (dst k dst1 : List Nat)
    (h : Nat) (r f : Bool) (hinv : Inv P b) (hget : b.Get dst k h r = some (b1, dst1, f)) :
    Inv P b1 := by
  obtain ⟨h1, h2, h3, h4⟩ := get_frame b b1 dst k dst1 h r f hget
  exact inv_of_eq P b b1 hinv h1 h2 h3 h4

theorem mem_mapSet (m : List (Nat × Nat)) (h v : Nat) (e : Nat × Nat) :
    e ∈ mapSet m h v ↔ e = (h, v) ∨ (e ∈ m ∧ e.1 ≠ h) := by
  unfold mapSet
  rw [List.mem_cons, mem_mapDel]

theorem arena_off_lt (b : bucket) (ha : Arena b) (off : Nat)
    (hj : off / chunkSize < b.chunks.length) : off < 2 ^ bucketSizeBits := by
  have h2 := ha.bound
  rw [maxBucketSize_eq] at h2
  rw [chunkSize_eq] at hj h2
  have : (2 : Nat) ^ bucketSizeBits = 1099511627776 := by decide
  omega

/-- A write that keeps the generation (the record goes to the cursor or to the
start of the next chunk) keeps the invariant. -/
theorem inv_placed_same_gen (P Q : Nat → List Nat → List Nat → Prop) (b : bucket)
    (k v : List Nat) (h : Nat) (fresh : Nat → Nat) (off : Nat) (hinv : Inv P b)
    (hge : b.idx ≤ off) (hj : off / chunkSize < b.chunks.length)
    (hfit : off % chunkSize + (4 + k.length + v.length) < chunkSize)
    (hbelow : ∀ j, j < off / chunkSize → chunkAt b.chunks j ≠ none)
    (hold : ∀ h2 k2 v2, h2 ≠ h → P h2 k2 v2 → Q h2 k2 v2) (hnew : Q h k v) :
    Inv Q (b.placed k v h fresh off b.gen) := by
  have ha := hinv.arena
  have hoff := arena_off_lt b ha off hj
  refine ⟨placed_arena b k v h fresh off b.gen ha hj hfit hbelow ha.genLt ha.genNz,
    nodup_mapSet _ _ _ hinv.nodup, ?_⟩
  intro e he
  show EntryInv Q b.curGen (b.placed k v h fresh off b.gen).chunks
    (off + (4 + k.length + v.length)) e
  rcases (mem_mapSet _ _ _ e).1 he with rfl | ⟨hem, hne⟩
  · exact ⟨b.curGen, off, rfl, hoff, Nat.pos_of_ne_zero ha.genNz, curGen_lt b,
      Or.inl ⟨rfl, k, v, hnew, placed_recordAt_new b k v h fresh off b.gen hj hfit, le_refl _⟩⟩
  · obtain ⟨g, o, h1, h2, h3, h4, hc⟩ := hinv.entries e hem
    refine ⟨g, o, h1, h2, h3, h4, ?_⟩
    rcases hc with ⟨hg, k2, v2, hP, hr, hle⟩ | ⟨hg, hrec⟩
    · refine Or.inl ⟨hg, k2, v2, hold _ _ _ hne hP, ?_, by omega⟩
      apply placed_recordAt_old b k v h fresh off b.gen o k2 v2 hr
      by_cases hq : o / chunkSize = off / chunkSize
      · right; left
        rw [chunkSize_eq] at hq ⊢
        omega
      · exact Or.inl hq
    · refine Or.inr ⟨hg, fun hcur => ?_⟩
      obtain ⟨k2, v2, hP, hr⟩ := hrec (by omega)
      refine ⟨k2, v2, hold _ _ _ hne hP, ?_⟩
      apply placed_recordAt_old b k v h fresh off b.gen o k2 v2 hr
      by_cases hq : o / chunkSize = off / chunkSize
      · right; right
        rw [chunkSize_eq] at hq ⊢
        omega
      · exact Or.inl hq

/-- A write that wraps (the record goes to offset 0 under the next generation and
the index is cleaned) keeps the invariant. -/
theorem inv_placed_wrap (P Q : Nat → List Nat → List Nat → Prop) (b : bucket)
    (k v : List Nat) (h : Nat) (fresh : Nat → Nat) (hinv : Inv P b)
    (hL : 4 + k.length + v.length < chunkSize)
    (hold : ∀ h2 k2 v2, h2 ≠ h → P h2 k2 v2 → Q h2 k2 v2) (hnew : Q h k v) :
    Inv Q (b.placed k v h fresh 0 (nextGen b.gen)).cleanLocked := by
  have ha := hinv.arena
  have hne := ha.nonempty
  have hj : 0 / chunkSize < b.chunks.length := by rw [Nat.zero_div]; omega
  have hfit : 0 % chunkSize + (4 + k.length + v.length) < chunkSize := by
    rw [Nat.zero_mod]; omega
  have hng := nextGen_spec b.gen
  have hap := placed_arena b k v h fresh 0 (nextGen b.gen) ha hj hfit
    (fun j hjlt => absurd hjlt (by rw [Nat.zero_div]; omega)) hng.1 hng.2.1
  have hprev : prevGen b.curGen (nextGen b.gen % 2 ^ genSizeBits) := nextGen_prev b.gen
  refine ⟨arena_of_eq _ _ hap rfl rfl rfl, nodup_filter _ _ (nodup_mapSet _ _ _ hinv.nodup), ?_⟩
  intro e he
  show EntryInv Q (nextGen b.gen % 2 ^ genSizeBits)
    (b.placed k v h fresh 0 (nextGen b.gen)).chunks (0 + (4 + k.length + v.length)) e
  have hef := List.mem_filter.1 he
  have hkeep : cleanKeeps (nextGen b.gen % 2 ^ genSizeBits) (0 + (4 + k.length + v.length))
      e.2 := by
    have := of_decide_eq_true hef.2
    rw [curGen_eq_and] at this
    exact this
  rcases (mem_mapSet _ _ _ e).1 hef.1 with rfl | ⟨hem, hneh⟩
  · exact ⟨nextGen b.gen % 2 ^ genSizeBits, 0, rfl, by decide, Nat.pos_of_ne_zero hng.2.1,
      Nat.mod_lt _ (by decide),
      Or.inl ⟨rfl, k, v, hnew, placed_recordAt_new b k v h fresh 0 _ hj hfit, le_refl _⟩⟩
  · obtain ⟨g, o, h1, h2, h3, h4, hc⟩ := hinv.entries e hem
    refine ⟨g, o, h1, h2, h3, h4, ?_⟩
    rw [cleanKeeps_iff_getLive, h1, getLive_iff _ _ _ _ h2] at hkeep
    have hkeep2 : (g = nextGen b.gen % 2 ^ genSizeBits) ∨
        (prevGen g (nextGen b.gen % 2 ^ genSizeBits) ∧ 0 + (4 + k.length + v.length) ≤ o) := by
      unfold prevGen
      tauto
    rcases hc with ⟨hg, k2, v2, hP, hr, _⟩ | ⟨hg, _⟩
    · rw [hg]
      rw [hg] at hkeep2
      rcases hkeep2 with heq | ⟨_, hle⟩
      · exact absurd heq (prevGen_ne _ _ hprev)
      · refine Or.inr ⟨hprev, fun _ => ⟨k2, v2, hold _ _ _ hneh hP, ?_⟩⟩
        apply placed_recordAt_old b k v h fresh 0 _ o k2 v2 hr
        by_cases hq : o / chunkSize = 0 / chunkSize
        · right; right
          rw [chunkSize_eq] at hq ⊢
          omega
        · exact Or.inl hq
    · have hch := prevGen_chain g b.curGen (nextGen b.gen % 2 ^ genSizeBits) h3
        (Nat.pos_of_ne_zero ha.genNz) (curGen_lt b) hg hprev
      rcases hkeep2 with heq | ⟨hp, _⟩
      · exact absurd heq hch.1
      · exact absurd hp hch.2

theorem set_ok_size (b b1 : bucket) (k v : List Nat) (h : Nat) (fresh : Nat → Nat)
    (hset : b.Set k v h fresh = some (b1, false)) : 4 + k.length + v.length < chunkSize := by
  by_contra hge
  obtain ⟨b2, hb2⟩ := (set_error_iff_size b k v h fresh).2 (by rw [chunkSize_eq] at hge; omega)
  rw [hset] at hb2
  injection hb2 with hb2
  injection hb2 with _ hb3
  exact Bool.noConfusion hb3

/-- A successful `Set` keeps the invariant, for any relation `Q` that holds of the
written record and agrees with `P` on the other hashes. -/
theorem inv_set (P Q : Nat → List Nat → List Nat → Prop) (b b1 : bucket) (k v : List Nat)
    (h : Nat) (fresh : Nat → Nat) (hinv : Inv P b)
    (hset : b.Set k v h fresh = some (b1, false))
    (hold : ∀ h2 k2 v2, h2 ≠ h → P h2 k2 v2 → Q h2 k2 v2) (hnew : Q h k v) : Inv Q b1 := by
  have hL := set_ok_size b b1 k v h fresh hset
  have ha := hinv.arena
  have hinv0 : Inv P ({ b with setCalls := (b.setCalls + 1) % u64 } : bucket) :=
    inv_of_eq P b _ hinv rfl rfl rfl rfl
  have hcur := ha.cursor
  rcases set_cases b k v h fresh ha hL with ⟨hfit, heq⟩ | ⟨hmv, hnext, heq⟩ | ⟨hmv, hwrap, heq⟩
  · rw [heq] at hset
    injection hset with hset
    injection hset with hset _
    rw [← hset]
    apply inv_placed_same_gen P Q _ k v h fresh b.idx hinv0 (le_refl _) _ hfit ha.below hold hnew
    show b.idx / chunkSize < b.chunks.length
    rw [chunkSize_eq] at hcur ⊢
    omega
  · rw [heq] at hset
    injection hset with hset
    injection hset with hset _
    rw [← hset]
    have hd : (b.idx / chunkSize + 1) * chunkSize / chunkSize = b.idx / chunkSize + 1 := by
      rw [chunkSize_eq]; omega
    have hm : (b.idx / chunkSize + 1) * chunkSize % chunkSize = 0 := by
      rw [chunkSize_eq]; omega
    apply inv_placed_same_gen P Q _ k v h fresh _ hinv0 _ _ _ _ hold hnew
    · show b.idx ≤ (b.idx / chunkSize + 1) * chunkSize
      rw [chunkSize_eq]; omega
    · rw [hd]; exact hnext
    · rw [hm]; omega
    · intro j hjlt
      rw [hd] at hjlt
      by_cases hjc : j < b.idx / chunkSize
      · exact ha.below j hjc
      · have hje : j = b.idx / chunkSize := by omega
        rw [hje]
        intro hnil
        have := ha.curNil hnil
        rw [chunkSize_eq] at this hmv hL
        omega
  · rw [heq] at hset
    injection hset with hset
    injection hset with hset _
    rw [← hset]
    exact inv_placed_wrap P Q _ k v h fresh hinv0 hL hold hnew

theorem inv_set_error (P : Nat → List Nat → List Nat → Prop) (b b1 : bucket) (k v : List Nat)
    (h : Nat) (fresh : Nat → Nat) (hinv : Inv P b)
    (hset : b.Set k v h fresh = some (b1, true)) : Inv P b1 := by
  have e := set_error_state b k v h fresh b1 hset
  rw [e]
  exact inv_of_eq P b _ hinv rfl rfl rfl rfl

/-! ## Reachable states -/

theorem run_nil (b : bucket) : b.run [] = some b := rfl

theorem run_cons (b : bucket) (op : Op) (ops : List Op) :
    b.run (op :: ops) = (match b.step op with | none => none | some b1 => b1.run ops) := rfl

theorem inv_step (b b1 : bucket) (op : Op) (hinv : Inv (fun _ _ _ => True) b)
    (hstep : b.step op = some b1) : Inv (fun _ _ _ => True) b1 := by
  cases op with
  | set k v h fresh =>
    simp only [bucket.step, Option.map_eq_some'] at hstep
    obtain ⟨⟨b2, e⟩, hset, hb⟩ := hstep
    simp only at hb
    subst hb
    cases e
    · exact inv_set _ _ b b2 k v h fresh hinv hset (fun _ _ _ _ _ => trivial) trivial
    · exact inv_set_error _ b b2 k v h fresh hinv hset
  | get dst k h r =>
    simp only [bucket.step, Option.map_eq_some'] at hstep
    obtain ⟨⟨b2, d, f⟩, hget, hb⟩ := hstep
    simp only at hb
    subst hb
    exact inv_get _ b b2 dst k d h r f hinv hget
  | del h =>
    simp only [bucket.step, Option.some.injEq] at hstep
    subst hstep
    exact inv_del _ _ b h hinv (fun _ _ _ _ _ => trivial)
  | reset =>
    exact inv_reset _ _ b b1 hinv hstep

theorem inv_run (ops : List Op) (b b1 : bucket) (hinv : Inv (fun _ _ _ => True) b)
    (hrun : b.run ops = some b1) : Inv (fun _ _ _ => True) b1 := by
  induction ops generalizing b with
  | nil =>
    rw [run_nil] at hrun
    injection hrun with hrun
    rw [← hrun]
    exact hinv
  | cons op ops ih =>
    rw [run_cons] at hrun
    cases hs : b.step op with
    | none => rw [hs] at hrun; exact Option.noConfusion hrun
    | some b2 =>
      rw [hs] at hrun
      exact ih b2 (inv_step b b2 op hinv hs) hrun

theorem reachable_inv (b : bucket) (hb : Reachable b) : Inv (fun _ _ _ => True) b := by
  obtain ⟨bz, maxBytes, b0, ops, hinit, hrun⟩ := hb
  exact inv_run ops b0 b (inv_init _ bz maxBytes b0 hinit) hrun

theorem reachable_blank_one : Reachable (bucket.blank 1) :=
  ⟨bucket.zero, 65536, bucket.blank 1, [], by rw [init_eq]; rfl, rfl⟩

/-! ## A write followed by a read -/

theorem mapGet_cleaned_head (m : List (Nat × Nat)) (h loc G c : Nat)
    (hkeep : cleanKeeps G c loc) :
    mapGet ((mapSet m h loc).filter (fun e => decide (cleanKeeps G c e.2))) h = loc := by
  unfold mapSet
  rw [List.filter_cons, if_pos (by simpa using hkeep), mapGet_cons, if_pos rfl]

/-- What a successful `Set` leaves behind: the locator of the hash is the current
generation with an offset right before the cursor, and the record lies there. -/
theorem set_result (P : Nat → List Nat → List Nat → Prop) (b : bucket) (k v : List Nat)
    (h : Nat) (fresh : Nat → Nat) (hinv : Inv P b)
    (hL : 4 + k.length + v.length < chunkSize) :
    ∃ b1 off, b.Set k v h fresh = some (b1, false) ∧ Arena b1 ∧
      mapGet b1.m h = off + b1.curGen * 2 ^ bucketSizeBits ∧ off < 2 ^ bucketSizeBits ∧
      b1.idx = off + (4 + k.length + v.length) ∧ RecordAt b1.chunks off k v ∧
      b1.getCalls = b.getCalls ∧ b1.misses = b.misses ∧ b1.collisions = b.collisions ∧
      b1.corruptions = b.corruptions ∧ b1.setCalls = (b.setCalls + 1) % u64 := by
  have ha := hinv.arena
  have hcur := ha.cursor
  have hne := ha.nonempty
  have key : ∀ b1, b.Set k v h fresh = some (b1, false) → Arena b1 := fun b1 hs =>
    (inv_set P (fun _ _ _ => True) b b1 k v h fresh hinv hs (fun _ _ _ _ _ => trivial)
      trivial).arena
  rcases set_cases b k v h fresh ha hL with ⟨hfit, heq⟩ | ⟨hmv, hnext, heq⟩ | ⟨hmv, hwrap, heq⟩
  · have hj : b.idx / chunkSize < b.chunks.length := by
      rw [chunkSize_eq] at hcur ⊢; omega
    exact ⟨_, b.idx, heq, key _ heq, mapGet_mapSet_eq _ _ _, arena_idx_lt b ha, rfl,
      placed_recordAt_new _ k v h fresh b.idx b.gen hj hfit, rfl, rfl, rfl, rfl, rfl⟩
  · have hd : (b.idx / chunkSize + 1) * chunkSize / chunkSize = b.idx / chunkSize + 1 := by
      rw [chunkSize_eq]; omega
    have hm : (b.idx / chunkSize + 1) * chunkSize % chunkSize = 0 := by
      rw [chunkSize_eq]; omega
    have hj : (b.idx / chunkSize + 1) * chunkSize / chunkSize < b.chunks.length := by
      rw [hd]; exact hnext
    exact ⟨_, (b.idx / chunkSize + 1) * chunkSize, heq, key _ heq, mapGet_mapSet_eq _ _ _,
      arena_off_lt b ha _ hj, rfl,
      placed_recordAt_new _ k v h fresh _ b.gen hj (by rw [hm]; omega),
      rfl, rfl, rfl, rfl, rfl⟩
  · have hj : 0 / chunkSize < b.chunks.length := by rw [Nat.zero_div]; omega
    refine ⟨_, 0, heq, key _ heq, ?_, by decide, rfl,
      placed_recordAt_new _ k v h fresh 0 (nextGen b.gen) hj (by rw [Nat.zero_mod]; omega),
      rfl, rfl, rfl, rfl, rfl⟩
    apply mapGet_cleaned_head
    rw [cleanKeeps_iff_getLive, curGen_eq_and, getLive_iff _ _ _ _ (by decide)]
    left
    refine ⟨rfl, ?_⟩
    show 0 < 0 + (4 + k.length + v.length)
    omega

/-- After a successful `Set` of `(k, v)` under hash `h`, a `Get` with hash `h`
finds `v` for the key `k` and counts a collision for any other key. -/
theorem get_after_set (P : Nat → List Nat → List Nat → Prop) (b : bucket) (k v : List Nat)
    (h : Nat) (fresh : Nat → Nat) (hinv : Inv P b)
    (hL : 4 + k.length + v.length < chunkSize) :
    ∃ b1, b.Set k v h fresh = some (b1, false) ∧ Arena b1 ∧
      ∀ (dst k1 : List Nat) (r : Bool),
        b1.Get dst k1 h r =
          if k1 = k then
            some ({ b1 with getCalls := (b1.getCalls + 1) % u64 },
              if r then dst ++ v else dst, true)
          else
            some ({ b1 with getCalls := (b1.getCalls + 1) % u64,
                            collisions := (b1.collisions + 1) % u64,
                            misses := (b1.misses + 1) % u64 }, dst, false) := by
  obtain ⟨b1, off, hset, ha1, hloc, hoff, hidx, hrec, _⟩ := set_result P b k v h fresh hinv hL
  refine ⟨b1, hset, ha1, fun dst k1 r => ?_⟩
  exact get_eval_record b1 dst k v k1 h r off b1.curGen hloc hoff
    (Nat.pos_of_ne_zero ha1.genNz) (Or.inl ⟨rfl, by omega⟩) ha1.caps hrec

/-- C1: round trip.  In every bucket state reachable from `Init` by `Set`, `Get`,
`Del` and `Reset`, for every key `k` and value `v` with `4 + len(k) + len(v) < 65536`,
every hash and every `dst`, `Set(k, v)` succeeds and the `Get` right after it
returns `dst` with exactly the bytes of `v` appended (`dst` itself when `returnDst`
is false, the call of `Has`) and `found = true`; `v` may be empty. -/
theorem set_get_roundtrip (b : bucket) (hb : Reachable b) (k v dst : List Nat) (h : Nat)
    (fresh : Nat → Nat) (r : Bool) (hsz : 4 + k.length + v.length < 65536) :
    ∃ b1 b2, b.Set k v h fresh = some (b1, false) ∧
      b1.Get dst k h r = some (b2, if r then dst ++ v else dst, true) := by
  obtain ⟨b1, hset, _, hget⟩ := get_after_set _ b k v h fresh (reachable_inv b hb) hsz
  refine ⟨b1, { b1 with getCalls := (b1.getCalls + 1) % u64 }, hset, ?_⟩
  rw [hget dst k r, if_pos rfl]

theorem set_get_roundtrip_witness :
    ∃ b1 b2, (bucket.blank 1).Set [1, 2] [] 7 (fun _ => 0) = some (b1, false) ∧
      b1.Get [] [1, 2] 7 true = some (b2, if true then [] ++ [] else [], true) :=
  set_get_roundtrip (bucket.blank 1) reachable_blank_one
    [1, 2] [] [] 7 (fun _ => 0) true (by decide)

/-- C8: collision safety.  In every reachable bucket state, for two distinct keys
`A` and `B` presented with the same hash `h`, after successful `Set(A, va)` and
`Set(B, vb)`, `Get(A)` returns `found = false` with `dst` unchanged and moves the
collision counter and the miss counter by one each (and no other counter but the
get-call counter), while `Get(B)` returns `vb` with `found = true`. -/
theorem collision_safety (b : bucket) (hb : Reachable b) (A B va vb dst : List Nat) (h : Nat)
    (freshA freshB : Nat → Nat) (r : Bool) (hAB : A ≠ B)
    (hszA : 4 + A.length + va.length < 65536) (hszB : 4 + B.length + vb.length < 65536) :
    ∃ b1 b2, b.Set A va h freshA = some (b1, false) ∧ b1.Set B vb h freshB = some (b2, false) ∧
      b2.Get dst A h r =
        some ({ b2 with getCalls := (b2.getCalls + 1) % u64,
                        collisions := (b2.collisions + 1) % u64,
                        misses := (b2.misses + 1) % u64 }, dst, false) ∧
      b2.Get dst B h r =
        some ({ b2 with getCalls := (b2.getCalls + 1) % u64 },
          if r then dst ++ vb else dst, true) := by
  have hinv := reachable_inv b hb
  obtain ⟨b1, hset1, _, _⟩ := get_after_set _ b A va h freshA hinv hszA
  have hinv1 := inv_set _ (fun _ _ _ => True) b b1 A va h freshA hinv hset1
    (fun _ _ _ _ _ => trivial) trivial
  obtain ⟨b2, hset2, _, hget⟩ := get_after_set _ b1 B vb h freshB hinv1 hszB
  refine ⟨b1, b2, hset1, hset2, ?_, ?_⟩
  · rw [hget dst A r, if_neg hAB]
  · rw [hget dst B r, if_pos rfl]

theorem collision_safety_witness :
    ∃ b1 b2, (bucket.blank 1).Set [1] [5] 7 (fun _ => 0) = some (b1, false) ∧
      b1.Set [2] [6] 7 (fun _ => 0) = some (b2, false) ∧
      b2.Get [] [1] 7 true =
        some ({ b2 with getCalls := (b2.getCalls + 1) % u64,
                        collisions := (b2.collisions + 1) % u64,
                        misses := (b2.misses + 1) % u64 }, [], false) ∧
      b2.Get [] [2] 7 true =
        some ({ b2 with getCalls := (b2.getCalls + 1) % u64 },
          if true then [] ++ [6] else [], true) :=
  collision_safety (bucket.blank 1) reachable_blank_one
    [1] [2] [5] [6] [] 7 (fun _ => 0) (fun _ => 0) true (by decide) (by decide) (by decide)

/-! ## Corrupted locators -/

/-- C9: corruption degrades to a counted miss.  In every bucket state in which the
index entry of the requested hash is present and passes the liveness test, but its
offset has a chunk index outside the chunks, or an in-chunk offset with
`offset mod 65536 + 4 >= 65536`, or a length prefix that decodes to lengths running
to or past the end of the chunk, `Get` returns `found = false` with `dst` unchanged
and moves the corruption counter and the miss counter by one each. -/
theorem get_corruption_miss (b : bucket) (dst k : List Nat) (h : Nat) (r : Bool)
    (hpos : mapGet b.m h > 0)
    (hlive : getLive (b.gen &&& ((1 <<< genSizeBits) - 1)) b.idx (mapGet b.m h))
    (hbad : corruptLocator b (mapGet b.m h &&& ((1 <<< bucketSizeBits) - 1))) :
    b.Get dst k h r =
      some ({ b with getCalls := (b.getCalls + 1) % u64,
                     corruptions := (b.corruptions + 1) % u64,
                     misses := (b.misses + 1) % u64 }, dst, false) := by
  unfold bucket.Get
  simp only
  rw [if_pos hpos, if_pos hlive]
  by_cases h1 : (mapGet b.m h &&& ((1 <<< bucketSizeBits) - 1)) / chunkSize ≥ b.chunks.length
  · rw [if_pos h1]
    rfl
  · rw [if_neg h1]
    by_cases h2 : (mapGet b.m h &&& ((1 <<< bucketSizeBits) - 1)) % chunkSize + 4 ≥ chunkSize
    · rw [if_pos h2]
      rfl
    · rw [if_neg h2]
      rcases hbad with h3 | h3 | ⟨buf, hbuf, hlen⟩
      · exact absurd h3 h1
      · exact absurd h3 h2
      · unfold bucket.getRecord
        rw [hbuf]
        simp only
        rw [if_pos hlen]
        rfl

theorem get_corruption_miss_witness :
    ({ bucket.blank 1 with m := [(7, 70000)] } : bucket).Get [9] [1] 7 true =
      some ({ bucket.blank 1 with m := [(7, 70000)], getCalls := 1, corruptions := 1,
                                  misses := 1 }, [9], false) :=
  get_corruption_miss { bucket.blank 1 with m := [(7, 70000)] } [9] [1] 7 true
    (by decide) (by decide) (Or.inl (by decide))

/-! ## A locator into an unallocated chunk -/

/-- C10, the claim as stated fails: in the bucket `Init(65536)` produces, with the
index entry of hash 7 replaced by the locator 5 (generation 0, offset 5), the entry
passes the liveness test of `Get` and points into chunk 0, which is still nil, so the
read of the length prefix `chunk[5:9]` panics, for `Get`/`HasGet` and for `Has`. -/
theorem get_panics_on_nil_chunk :
    bucket.zero.Init 65536 = some (bucket.blank 1) ∧
      ({ bucket.blank 1 with m := mapSet (bucket.blank 1).m 7 5 } : bucket).Get [] [1] 7 true
        = none ∧
      ({ bucket.blank 1 with m := mapSet (bucket.blank 1).m 7 5 } : bucket).Get [] [1] 7 false
        = none := by
  refine ⟨by rw [init_eq]; rfl, rfl, rfl⟩

/-! ## No wrong data -/

/-- A `Get` that reports `found` returns the value of a record the invariant
relates to the requested hash and key. -/
theorem get_found (P : Nat → List Nat → List Nat → Prop) (b b1 : bucket)
    (dst k dst1 : List Nat) (h : Nat) (r : Bool) (hinv : Inv P b)
    (hget : b.Get dst k h r = some (b1, dst1, true)) :
    ∃ v, P h k v ∧ dst1 = if r then dst ++ v else dst := by
  by_cases h0 : mapGet b.m h = 0
  · rw [get_eval_absent b dst k h r h0] at hget
    injection hget with hget
    injection hget with _ hget
    injection hget with _ hget
    exact Bool.noConfusion hget
  · by_cases hl : getLive b.curGen b.idx (mapGet b.m h)
    · obtain ⟨g, o, h1, h2, h3, h4, hc⟩ := hinv.entries _ (mapGet_mem b.m h h0)
      simp only at h1
      rw [h1, getLive_iff _ _ _ _ h2] at hl
      have hrec : ∃ k2 v2, P h k2 v2 ∧ RecordAt b.chunks o k2 v2 ∧
          ((g = b.curGen ∧ o < b.idx) ∨ (prevGen g b.curGen ∧ o ≥ b.idx)) := by
        rcases hc with ⟨hg, k2, v2, hP, hr, hle⟩ | ⟨hg, hrec⟩
        · exact ⟨k2, v2, hP, hr, Or.inl ⟨hg, by omega⟩⟩
        · have hne := prevGen_ne _ _ hg
          have hge : o ≥ b.idx := by
            unfold prevGen at hg
            rcases hl with ⟨e, _⟩ | ⟨_, e⟩ | ⟨_, _, e⟩
            · exact absurd e hne
            · exact e
            · exact e
          obtain ⟨k2, v2, hP, hr⟩ := hrec hge
          exact ⟨k2, v2, hP, hr, Or.inr ⟨hg, hge⟩⟩
      obtain ⟨k2, v2, hP, hr, hlive⟩ := hrec
      rw [get_eval_record b dst k2 v2 k h r o g h1 h2 h3 hlive hinv.arena.caps hr] at hget
      by_cases hk : k = k2
      · rw [if_pos hk] at hget
        injection hget with hget
        injection hget with _ hget
        injection hget with hget _
        exact ⟨v2, hk ▸ hP, hget.symm⟩
      · rw [if_neg hk] at hget
        injection hget with hget
        injection hget with _ hget
        injection hget with _ hget
        exact Bool.noConfusion hget
    · rw [get_eval_stale b dst k h r hl] at hget
      injection hget with hget
      injection hget with _ hget
      injection hget with _ hget
      exact Bool.noConfusion hget

theorem lastSet_set (hash : List Nat → Nat) (k1 v : List Nat) (h : Nat) (fresh : Nat → Nat)
    (past : List Op) (k : List Nat) :
    lastSet hash (Op.set k1 v h fresh :: past) k =
      if k1 = k ∧ 4 + k1.length + v.length < 65536 then some v else lastSet hash past k := rfl

theorem lastSet_del (hash : List Nat → Nat) (h : Nat) (past : List Op) (k : List Nat) :
    lastSet hash (Op.del h :: past) k = if h = hash k then none else lastSet hash past k := rfl

/-- The relation the index keeps with the history `past` (latest call first): the
record under hash `h` has a key of that hash whose last live `Set` stored its
value. -/
theorem lastSet_step (hash : List Nat → Nat) (past : List Op) (b b1 : bucket) (op : Op)
    (hinv : Inv (fun h k v => h = hash k ∧ lastSet hash past k = some v) b)
    (hop : op.hashed hash) (hstep : b.step op = some b1) :
    Inv (fun h k v => h = hash k ∧ lastSet hash (op :: past) k = some v) b1 := by
  cases op with
  | set k v h fresh =>
    simp only [bucket.step, Option.map_eq_some'] at hstep
    obtain ⟨⟨b2, e⟩, hset, hb⟩ := hstep
    simp only at hb
    subst hb
    have hh : h = hash k := hop
    cases e
    · have hL := set_ok_size b b2 k v h fresh hset
      rw [chunkSize_eq] at hL
      apply inv_set _ _ b b2 k v h fresh hinv hset
      · intro h2 k2 v2 hne hP
        refine ⟨hP.1, ?_⟩
        have hk : ¬ (k = k2 ∧ 4 + k.length + v.length < 65536) := by
          intro hk
          apply hne
          rw [hP.1, hh, hk.1]
        rw [lastSet_set, if_neg hk]
        exact hP.2
      · refine ⟨hh, ?_⟩
        rw [lastSet_set, if_pos ⟨rfl, hL⟩]
    · have hbig := (set_error_iff_size b k v h fresh).1 ⟨b2, hset⟩
      apply inv_mono _ _ b2 (inv_set_error _ b b2 k v h fresh hinv hset)
      intro h2 k2 v2 hP
      refine ⟨hP.1, ?_⟩
      rw [lastSet_set, if_neg (by omega)]
      exact hP.2
  | get dst k h r =>
    simp only [bucket.step, Option.map_eq_some'] at hstep
    obtain ⟨⟨b2, d, f⟩, hget, hb⟩ := hstep
    simp only at hb
    subst hb
    exact inv_get _ b b2 dst k d h r f hinv hget
  | del h =>
    simp only [bucket.step, Option.some.injEq] at hstep
    subst hstep
    apply inv_del _ _ b h hinv
    intro h2 k2 v2 hne hP
    refine ⟨hP.1, ?_⟩
    rw [lastSet_del, if_neg (fun e => hne (by rw [hP.1, e])), hP.2]
  | reset =>
    exact inv_reset _ _ b b1 hinv hstep

theorem lastSet_run (hash : List Nat → Nat) (ops past : List Op) (b b1 : bucket)
    (hinv : Inv (fun h k v => h = hash k ∧ lastSet hash past k = some v) b)
    (hops : ∀ op ∈ ops, op.hashed hash) (hrun : b.run ops = some b1) :
    Inv (fun h k v => h = hash k ∧ lastSet hash (ops.reverse ++ past) k = some v) b1 := by
  induction ops generalizing b past with
  | nil =>
    rw [run_nil] at hrun
    injection hrun with hrun
    rw [← hrun]
    exact hinv
  | cons op ops ih =>
    rw [run_cons] at hrun
    cases hs : b.step op with
    | none => rw [hs] at hrun; exact Option.noConfusion hrun
    | some b2 =>
      rw [hs] at hrun
      have h2 := lastSet_step hash past b b2 op hinv (hops op (List.mem_cons_self _ _)) hs
      have h3 := ih (op :: past) b2 h2 (fun o ho => hops o (List.mem_cons_of_mem _ ho)) hrun
      rw [List.reverse_cons, List.append_assoc]
      exact h3

/-- C2: no wrong data.  In every bucket state reached from `Init` by calls of `Set`,
`Get`, `Del` and `Reset` that present each key with the hash `hash` gives it
(distinct keys may share a hash), a `Get` of key `k` that reports `found = true`
appends exactly the value of the most recent successful `Set` of `k`, and no `Del`
of the hash of `k` and no `Reset` came after that `Set` (`lastSet` is `none`
otherwise, so a key not `Set` since the last `Reset` is a miss). -/
theorem get_found_is_last_set (hash : List Nat → Nat) (bz : bucket) (maxBytes : Nat)
    (b0 b : bucket) (ops : List Op) (hinit : bz.Init maxBytes = some b0)
    (hops : ∀ op ∈ ops, op.hashed hash) (hrun : b0.run ops = some b)
    (dst k dst1 : List Nat) (r : Bool) (b1 : bucket)
    (hget : b.Get dst k (hash k) r = some (b1, dst1, true)) :
    ∃ v, lastSet hash ops.reverse k = some v ∧ dst1 = if r then dst ++ v else dst := by
  have hinv := lastSet_run hash ops [] b0 b (inv_init _ bz maxBytes b0 hinit) hops hrun
  rw [List.append_nil] at hinv
  obtain ⟨v, hP, hd⟩ := get_found _ b b1 dst k dst1 (hash k) r hinv hget
  exact ⟨v, hP.2, hd⟩

theorem get_found_is_last_set_witness :
    ∃ v, lastSet (fun _ => 7) [Op.set [1] [5] 7 (fun _ => 0)].reverse [1] = some v ∧
      [5] = if true = true then [] ++ v else [] := by
  obtain ⟨b1, hset, _, hget⟩ := get_after_set (fun _ _ _ => True) (bucket.blank 1) [1] [5] 7
    (fun _ => 0) (reachable_inv _ reachable_blank_one) (by decide)
  exact get_found_is_last_set (fun _ => 7) bucket.zero 65536 (bucket.blank 1) b1
    [Op.set [1] [5] 7 (fun _ => 0)] (by rw [init_eq]; rfl)
    (fun op hop => by rw [List.mem_singleton.1 hop]; exact rfl)
    (by rw [run_cons]; simp only [bucket.step]; rw [hset]; rfl) [] [1] [5] true _
    (by rw [hget, if_pos rfl]; rfl)

/-! ## Eviction follows the write order -/

theorem locGen_pack (off g : Nat) (hoff : off < 2 ^ bucketSizeBits) :
    locGen (off + g * 2 ^ bucketSizeBits) = g := unpack_gen off g hoff

theorem locOff_pack (off g : Nat) (hoff : off < 2 ^ bucketSizeBits) :
    locOff (off + g * 2 ^ bucketSizeBits) = off := unpack_off off g hoff

theorem mapGet_filter_ne_zero (m : List (Nat × Nat)) (p : Nat × Nat → Bool) (h : Nat)
    (hnd : (m.map Prod.fst).Nodup) (hne : mapGet (m.filter p) h ≠ 0) :
    p (h, mapGet m h) = true ∧ mapGet (m.filter p) h = mapGet m h := by
  have hmem := mapGet_mem _ h hne
  have hf := List.mem_filter.1 hmem
  have e := mapGet_of_mem m _ hnd hf.1
  simp only at e
  exact ⟨by rw [e]; exact hf.2, e.symm⟩

theorem mapGet_filter_keep (m : List (Nat × Nat)) (p : Nat × Nat → Bool) (h : Nat)
    (hnd : (m.map Prod.fst).Nodup) (hne : mapGet m h ≠ 0) (hp : p (h, mapGet m h) = true) :
    mapGet (m.filter p) h = mapGet m h :=
  mapGet_of_mem (m.filter p) (h, mapGet m h) (nodup_filter m p hnd)
    (List.mem_filter.2 ⟨mapGet_mem m h hne, hp⟩)

theorem get_found_live (b b1 : bucket) (dst k dst1 : List Nat) (h : Nat) (r : Bool)
    (hget : b.Get dst k h r = some (b1, dst1, true)) :
    mapGet b.m h ≠ 0 ∧ getLive b.curGen b.idx (mapGet b.m h) := by
  constructor
  · intro h0
    rw [get_eval_absent b dst k h r h0] at hget
    injection hget with hget
    injection hget with _ hget
    injection hget with _ hget
    exact Bool.noConfusion hget
  · by_contra hl
    rw [get_eval_stale b dst k h r hl] at hget
    injection hget with hget
    injection hget with _ hget
    injection hget with _ hget
    exact Bool.noConfusion hget

theorem nodup_snd_key (ks : List (List Nat × Nat)) (hnd : (ks.map Prod.snd).Nodup)
    (k1 k2 : List Nat) (h : Nat) (h1 : (k1, h) ∈ ks) (h2 : (k2, h) ∈ ks) : k1 = k2 := by
  have := List.inj_on_of_nodup_map hnd h1 h2 rfl
  exact (Prod.mk.inj this).1

/-- In a bucket whose index follows the write order, a key written after a key
that `Get` finds is found as well. -/
theorem finds_later (ks : List (List Nat × Nat)) (b : bucket)
    (hinv : Inv (fun h k _ => (k, h) ∈ ks) b) (hnd : (ks.map Prod.snd).Nodup)
    (hord : WriteOrder ks b) : ks.Pairwise (fun a c => b.finds a → b.finds c) := by
  apply List.Pairwise.imp_of_mem _ hord
  intro a c _ hc hR hfa
  obtain ⟨b1, d1, hget⟩ := hfa
  obtain ⟨hnea, hlivea⟩ := get_found_live b b1 [] a.1 d1 a.2 true hget
  obtain ⟨hnec, hrel⟩ := hR hnea
  obtain ⟨ga, oa, ea, hoa, _, _, _⟩ := hinv.entries _ (mapGet_mem b.m a.2 hnea)
  obtain ⟨gc, oc, ec, hoc, hgc, _, hcc⟩ := hinv.entries _ (mapGet_mem b.m c.2 hnec)
  simp only at ea ec
  rw [ea, getLive_iff _ _ _ _ hoa] at hlivea
  rw [ea, ec, locGen_pack _ _ hoa, locGen_pack _ _ hoc, locOff_pack _ _ hoa,
    locOff_pack _ _ hoc] at hrel
  have hrec : ∃ k2 v2, (k2, c.2) ∈ ks ∧ RecordAt b.chunks oc k2 v2 ∧
      ((gc = b.curGen ∧ oc < b.idx) ∨ (prevGen gc b.curGen ∧ oc ≥ b.idx)) := by
    rcases hcc with ⟨hg, k2, v2, hP, hr, hle⟩ | ⟨hg, hrec⟩
    · exact ⟨k2, v2, hP, hr, Or.inl ⟨hg, by omega⟩⟩
    · have hne := prevGen_ne _ _ hg
      have hge : oc ≥ b.idx := by
        rcases hrel with ⟨e1, e2⟩ | ⟨_, e2⟩
        · rcases hlivea with ⟨e, _⟩ | ⟨_, e⟩ | ⟨_, _, e⟩
          · exact absurd (e1 ▸ e) hne
          · omega
          · omega
        · exact absurd e2 hne
      obtain ⟨k2, v2, hP, hr⟩ := hrec hge
      exact ⟨k2, v2, hP, hr, Or.inr ⟨hg, hge⟩⟩
  obtain ⟨k2, v2, hP, hr, hlive⟩ := hrec
  have hk : c.1 = k2 := nodup_snd_key ks hnd c.1 k2 c.2 hc hP
  refine ⟨{ b with getCalls := (b.getCalls + 1) % u64 }, [] ++ v2, ?_⟩
  rw [get_eval_record b [] k2 v2 c.1 c.2 true oc gc ec hoc hgc hlive hinv.arena.caps hr,
    if_pos hk]
  rfl

theorem writeOrder_of_eq (ks : List (List Nat × Nat)) (b b1 : bucket) (hm : b1.m = b.m)
    (hg : b1.gen = b.gen) (hord : WriteOrder ks b) : WriteOrder ks b1 := by
  unfold WriteOrder bucket.curGen at *
  rw [hm, hg]
  exact hord

theorem writeOrder_placed_same_gen (ks : List (List Nat × Nat)) (b : bucket) (k v : List Nat)
    (h : Nat) (fresh : Nat → Nat) (off : Nat)
    (hinv : Inv (fun h k _ => (k, h) ∈ ks) b) (hord : WriteOrder ks b)
    (hfresh : h ∉ ks.map Prod.snd) (hge : b.idx ≤ off) (hoff : off < 2 ^ bucketSizeBits) :
    WriteOrder (ks ++ [(k, h)]) (b.placed k v h fresh off b.gen) := by
  have hneh : ∀ x ∈ ks, x.2 ≠ h := fun x hx e => hfresh (e ▸ List.mem_map_of_mem Prod.snd hx)
  have hval : ∀ x ∈ ks, mapGet (b.placed k v h fresh off b.gen).m x.2 = mapGet b.m x.2 :=
    fun x hx => mapGet_mapSet_ne _ _ _ _ (hneh x hx)
  have hnew : mapGet (b.placed k v h fresh off b.gen).m h =
      off + b.curGen * 2 ^ bucketSizeBits := mapGet_mapSet_eq _ _ _
  have hG : (b.placed k v h fresh off b.gen).curGen = b.curGen := rfl
  unfold WriteOrder
  rw [List.pairwise_append]
  refine ⟨?_, List.pairwise_singleton _ _, ?_⟩
  · apply List.Pairwise.imp_of_mem _ hord
    intro a c ha hc hR
    rw [hval a ha, hval c hc, hG]
    exact hR
  · intro a ha c hc
    rw [List.mem_singleton.1 hc]
    simp only
    rw [hval a ha, hnew, hG, locGen_pack _ _ hoff, locOff_pack _ _ hoff]
    intro hnea
    have hGpos := Nat.pos_of_ne_zero hinv.arena.genNz
    refine ⟨?_, ?_⟩
    · have : 0 < b.curGen * 2 ^ bucketSizeBits := Nat.mul_pos hGpos (by decide)
      omega
    · obtain ⟨ga, oa, ea, hoa, _, _, hca⟩ := hinv.entries _ (mapGet_mem b.m a.2 hnea)
      simp only at ea
      rw [ea, locGen_pack _ _ hoa, locOff_pack _ _ hoa]
      rcases hca with ⟨hg, k2, v2, _, _, hle⟩ | ⟨hg, _⟩
      · exact Or.inl ⟨hg, by omega⟩
      · exact Or.inr ⟨hg, rfl⟩

theorem writeOrder_placed_wrap (ks : List (List Nat × Nat)) (b : bucket) (k v : List Nat)
    (h : Nat) (fresh : Nat → Nat)
    (hinv : Inv (fun h k _ => (k, h) ∈ ks) b) (hord : WriteOrder ks b)
    (hfresh : h ∉ ks.map Prod.snd) :
    WriteOrder (ks ++ [(k, h)]) (b.placed k v h fresh 0 (nextGen b.gen)).cleanLocked := by
  have ha := hinv.arena
  have hGpos := Nat.pos_of_ne_zero ha.genNz
  have hng := nextGen_spec b.gen
  have hprev : prevGen b.curGen (nextGen b.gen % 2 ^ genSizeBits) := nextGen_prev b.gen
  have hneh : ∀ x ∈ ks, x.2 ≠ h := fun x hx e => hfresh (e ▸ List.mem_map_of_mem Prod.snd hx)
  have hG : (b.placed k v h fresh 0 (nextGen b.gen)).cleanLocked.curGen =
      nextGen b.gen % 2 ^ genSizeBits := rfl
  have hm : (b.placed k v h fresh 0 (nextGen b.gen)).cleanLocked.m =
      (mapSet b.m h (0 + nextGen b.gen % 2 ^ genSizeBits * 2 ^ bucketSizeBits)).filter
        (fun e => decide (cleanKeeps (nextGen b.gen % 2 ^ genSizeBits)
          (0 + (4 + k.length + v.length)) e.2)) := by
    show List.filter _ _ = _
    rw [curGen_eq_and]
    rfl
  have hnd := nodup_mapSet b.m h (0 + nextGen b.gen % 2 ^ genSizeBits * 2 ^ bucketSizeBits)
    hinv.nodup
  -- an entry of a key of `ks` that survives the cleaning: it is of the old current
  -- generation and lies at or past the new cursor
  have hkept : ∀ x ∈ ks, mapGet (b.placed k v h fresh 0 (nextGen b.gen)).cleanLocked.m x.2 ≠ 0 →
      mapGet (b.placed k v h fresh 0 (nextGen b.gen)).cleanLocked.m x.2 = mapGet b.m x.2 ∧
      mapGet b.m x.2 ≠ 0 ∧
      ∃ o, mapGet b.m x.2 = o + b.curGen * 2 ^ bucketSizeBits ∧ o < 2 ^ bucketSizeBits ∧
        0 + (4 + k.length + v.length) ≤ o := by
    intro x hx hne
    rw [hm] at hne ⊢
    obtain ⟨hp, he⟩ := mapGet_filter_ne_zero _ _ x.2 hnd hne
    rw [mapGet_mapSet_ne _ _ _ _ (hneh x hx)] at hp he
    have hne0 : mapGet b.m x.2 ≠ 0 := by rw [← he]; exact hne
    refine ⟨he, hne0, ?_⟩
    obtain ⟨g, o, e1, ho, hg0, hglt, hc⟩ := hinv.entries _ (mapGet_mem b.m x.2 hne0)
    simp only at e1
    have hkeep := of_decide_eq_true hp
    simp only at hkeep
    rw [cleanKeeps_iff_getLive, e1, getLive_iff _ _ _ _ ho] at hkeep
    have hkeep2 : (g = nextGen b.gen % 2 ^ genSizeBits) ∨
        (prevGen g (nextGen b.gen % 2 ^ genSizeBits) ∧ 0 + (4 + k.length + v.length) ≤ o) := by
      unfold prevGen
      tauto
    rcases hc with ⟨hg, _⟩ | ⟨hg, _⟩
    · rw [hg] at hkeep2
      rcases hkeep2 with heq | ⟨_, hle⟩
      · exact absurd heq (prevGen_ne _ _ hprev)
      · exact ⟨o, by rw [e1, hg], ho, hle⟩
    · have hch := prevGen_chain g b.curGen (nextGen b.gen % 2 ^ genSizeBits) hg0
        hGpos (curGen_lt b) hg hprev
      rcases hkeep2 with heq | ⟨hp2, _⟩
      · exact absurd heq hch.1
      · exact absurd hp2 hch.2
  have hnew : mapGet (b.placed k v h fresh 0 (nextGen b.gen)).cleanLocked.m h =
      0 + nextGen b.gen % 2 ^ genSizeBits * 2 ^ bucketSizeBits := by
    rw [hm]
    apply mapGet_cleaned_head
    rw [cleanKeeps_iff_getLive, getLive_iff _ _ _ _ (by decide)]
    exact Or.inl ⟨rfl, by omega⟩
  unfold WriteOrder
  rw [List.pairwise_append]
  refine ⟨?_, List.pairwise_singleton _ _, ?_⟩
  · apply List.Pairwise.imp_of_mem _ hord
    intro a c hxa hxc hR hnea
    obtain ⟨ea, hnea0, oa, eoa, hoa, hlea⟩ := hkept a hxa hnea
    obtain ⟨hnec0, hrel⟩ := hR hnea0
    obtain ⟨gc, oc, ec, hoc, _, _, _⟩ := hinv.entries _ (mapGet_mem b.m c.2 hnec0)
    simp only at ec
    rw [eoa, ec, locGen_pack _ _ hoa, locGen_pack _ _ hoc, locOff_pack _ _ hoa,
      locOff_pack _ _ hoc] at hrel
    have hrel2 : b.curGen = gc ∧ oa < oc := by
      rcases hrel with hr | ⟨hp, _⟩
      · exact hr
      · exact absurd rfl (prevGen_ne _ _ hp)
    have hkeepc : mapGet (b.placed k v h fresh 0 (nextGen b.gen)).cleanLocked.m c.2 =
        mapGet b.m c.2 := by
      rw [hm]
      have hv := mapGet_mapSet_ne b.m h
        (0 + nextGen b.gen % 2 ^ genSizeBits * 2 ^ bucketSizeBits) c.2 (hneh c hxc)
      rw [mapGet_filter_keep _ _ c.2 hnd (by rw [hv]; exact hnec0), hv]
      rw [hv]
      apply decide_eq_true
      simp only
      rw [cleanKeeps_iff_getLive, ec, getLive_iff _ _ _ _ hoc, ← hrel2.1]
      unfold prevGen at hprev
      rcases hprev with hp | ⟨hp1, hp2⟩
      · exact Or.inr (Or.inl ⟨hp, by omega⟩)
      · exact Or.inr (Or.inr ⟨hp1, hp2, by omega⟩)
    rw [hkeepc, ea]
    refine ⟨hnec0, Or.inl ?_⟩
    rw [eoa, ec, locGen_pack _ _ hoa, locGen_pack _ _ hoc, locOff_pack _ _ hoa,
      locOff_pack _ _ hoc]
    exact hrel2
  · intro a hxa c hc
    rw [List.mem_singleton.1 hc]
    simp only
    intro hnea
    obtain ⟨ea, _, oa, eoa, hoa, _⟩ := hkept a hxa hnea
    rw [hnew, ea, eoa, hG, locGen_pack _ _ hoa, locGen_pack _ _ (by decide)]
    refine ⟨?_, Or.inr ⟨hprev, rfl⟩⟩
    have : 0 < nextGen b.gen % 2 ^ genSizeBits * 2 ^ bucketSizeBits :=
      Nat.mul_pos (Nat.pos_of_ne_zero hng.2.1) (by decide)
    omega

theorem fifo_set (ks : List (List Nat × Nat)) (b b1 : bucket) (k v : List Nat) (h : Nat)
    (fresh : Nat → Nat) (hinv : Inv (fun h k _ => (k, h) ∈ ks) b) (hord : WriteOrder ks b)
    (hfresh : h ∉ ks.map Prod.snd) (hset : b.Set k v h fresh = some (b1, false)) :
    Inv (fun h2 k2 _ => (k2, h2) ∈ ks ++ [(k, h)]) b1 ∧ WriteOrder (ks ++ [(k, h)]) b1 := by
  refine ⟨inv_set _ _ b b1 k v h fresh hinv hset
    (fun _ _ _ _ hP => List.mem_append_left _ hP)
    (List.mem_append_right _ (List.mem_singleton.2 rfl)), ?_⟩
  have hL := set_ok_size b b1 k v h fresh hset
  have ha := hinv.arena
  have hinv0 : Inv (fun h k _ => (k, h) ∈ ks)
      ({ b with setCalls := (b.setCalls + 1) % u64 } : bucket) :=
    inv_of_eq _ b _ hinv rfl rfl rfl rfl
  have hord0 : WriteOrder ks ({ b with setCalls := (b.setCalls + 1) % u64 } : bucket) :=
    writeOrder_of_eq ks b _ rfl rfl hord
  rcases set_cases b k v h fresh ha hL with ⟨_, heq⟩ | ⟨_, hnext, heq⟩ | ⟨_, _, heq⟩
  · rw [heq] at hset
    injection hset with hset
    injection hset with hset _
    rw [← hset]
    exact writeOrder_placed_same_gen ks _ k v h fresh b.idx hinv0 hord0 hfresh (le_refl _)
      (arena_idx_lt b ha)
  · rw [heq] at hset
    injection hset with hset
    injection hset with hset _
    rw [← hset]
    apply writeOrder_placed_same_gen ks _ k v h fresh _ hinv0 hord0 hfresh
    · show b.idx ≤ (b.idx / chunkSize + 1) * chunkSize
      rw [chunkSize_eq]; omega
    · apply arena_off_lt b ha
      have hd : (b.idx / chunkSize + 1) * chunkSize / chunkSize = b.idx / chunkSize + 1 := by
        rw [chunkSize_eq]; omega
      rw [hd]
      exact hnext
  · rw [heq] at hset
    injection hset with hset
    injection hset with hset _
    rw [← hset]
    exact writeOrder_placed_wrap ks _ k v h fresh hinv0 hord0 hfresh

theorem setKeys_set (k v : List Nat) (h : Nat) (fresh : Nat → Nat) (ops : List Op) :
    setKeys (Op.set k v h fresh :: ops) = (k, h) :: setKeys ops := rfl

theorem setKeys_get (dst k : List Nat) (h : Nat) (r : Bool) (ops : List Op) :
    setKeys (Op.get dst k h r :: ops) = setKeys ops := rfl

theorem fifo_run (ops : List Op) (ks : List (List Nat × Nat)) (b b1 : bucket)
    (hinv : Inv (fun h k _ => (k, h) ∈ ks) b) (hord : WriteOrder ks b)
    (hops : ∀ op ∈ ops, op.storesOrReads)
    (hnd : ((ks ++ setKeys ops).map Prod.snd).Nodup) (hrun : b.run ops = some b1) :
    Inv (fun h k _ => (k, h) ∈ ks ++ setKeys ops) b1 ∧ WriteOrder (ks ++ setKeys ops) b1 := by
  induction ops generalizing ks b with
  | nil =>
    rw [run_nil] at hrun
    injection hrun with hrun
    rw [← hrun]
    show Inv (fun h k _ => (k, h) ∈ ks ++ []) b ∧ WriteOrder (ks ++ []) b
    rw [List.append_nil]
    exact ⟨hinv, hord⟩
  | cons op ops ih =>
    rw [run_cons] at hrun
    have hop := hops op (List.mem_cons_self _ _)
    have hops2 : ∀ o ∈ ops, o.storesOrReads := fun o ho => hops o (List.mem_cons_of_mem _ ho)
    cases hs : b.step op with
    | none => rw [hs] at hrun; exact Option.noConfusion hrun
    | some b2 =>
      rw [hs] at hrun
      cases op with
      | set k v h fresh =>
        simp only [bucket.step, Option.map_eq_some'] at hs
        obtain ⟨⟨b3, e⟩, hset, hb⟩ := hs
        simp only at hb
        subst hb
        have hsz : 4 + k.length + v.length < 65536 := hop
        cases e with
        | true =>
          have := (set_error_iff_size b k v h fresh).1 ⟨b3, hset⟩
          omega
        | false =>
          rw [setKeys_set] at hnd ⊢
          have happ : ks ++ (k, h) :: setKeys ops = (ks ++ [(k, h)]) ++ setKeys ops := by
            rw [List.append_assoc, List.singleton_append]
          rw [happ] at hnd ⊢
          have hfresh : h ∉ ks.map Prod.snd := by
            rw [List.map_append, List.map_append] at hnd
            have h1 := (List.nodup_append.1 hnd).1
            have h2 := (List.nodup_append.1 h1).2.2
            intro hin
            exact h2 hin (by simp)
          obtain ⟨hi, ho⟩ := fifo_set ks b b3 k v h fresh hinv hord hfresh hset
          exact ih (ks ++ [(k, h)]) b3 hi ho hops2 hnd hrun
      | get dst k h r =>
        simp only [bucket.step, Option.map_eq_some'] at hs
        obtain ⟨⟨b3, d, f⟩, hget, hb⟩ := hs
        simp only at hb
        subst hb
        obtain ⟨h1, h2, h3, h4⟩ := get_frame b b3 dst k d h r f hget
        rw [setKeys_get] at hnd ⊢
        exact ih ks b3 (inv_of_eq _ b b3 hinv h1 h2 h3 h4) (writeOrder_of_eq ks b b3 h2 h4 hord)
          hops2 hnd hrun
      | del h => exact False.elim hop
      | reset => exact False.elim hop

theorem setKeys_take_sublist (ops : List Op) (n : Nat) :
    List.Sublist (setKeys (ops.take n)) (setKeys ops) := by
  induction ops generalizing n with
  | nil => rw [List.take_nil]
  | cons op ops ih =>
    cases n with
    | zero => exact List.nil_sublist _
    | succ n =>
      rw [List.take_succ_cons]
      cases op with
      | set k v h fresh => exact List.Sublist.cons₂ _ (ih n)
      | get dst k h r => exact ih n
      | del h => exact ih n
      | reset => exact ih n

/-- C7: eviction is oldest first within a shard.  Start from a bucket as `Init` or
`Reset` leaves it and run calls that are successful `Set`s, of keys with pairwise
distinct hashes, and `Get`s (no `Del`, no `Reset`).  After every prefix of the
calls, the keys `Get` reports as found form a suffix of the write order: when a key
is found, every key written after it is found. -/
theorem eviction_oldest_first (b0 : bucket)
    (hstart : (∃ bz maxBytes, bucket.Init bz maxBytes = some b0) ∨
      (∃ b, Reachable b ∧ b.Reset = some b0))
    (ops : List Op) (hops : ∀ op ∈ ops, op.storesOrReads)
    (hnd : ((setKeys ops).map Prod.snd).Nodup) (n : Nat) (b : bucket)
    (hrun : b0.run (ops.take n) = some b) :
    (setKeys (ops.take n)).Pairwise (fun a c => b.finds a → b.finds c) := by
  have hinv0 : Inv (fun h k _ => (k, h) ∈ ([] : List (List Nat × Nat))) b0 := by
    rcases hstart with ⟨bz, maxBytes, hinit⟩ | ⟨b2, hr, hreset⟩
    · exact inv_init _ bz maxBytes b0 hinit
    · exact inv_reset _ _ b2 b0 (reachable_inv b2 hr) hreset
  have hnd2 : ((setKeys (ops.take n)).map Prod.snd).Nodup :=
    hnd.sublist (List.Sublist.map _ (setKeys_take_sublist ops n))
  obtain ⟨hi, ho⟩ := fifo_run (ops.take n) [] b0 b hinv0 List.Pairwise.nil
    (fun o ho => hops o (List.mem_of_mem_take ho)) (by rw [List.nil_append]; exact hnd2) hrun
  rw [List.nil_append] at hi ho
  exact finds_later _ b hi hnd2 ho

theorem eviction_oldest_first_witness :
    ∃ b, (bucket.blank 1).run
        ([Op.set [1] [5] 7 (fun _ => 0), Op.set [2] [6] 8 (fun _ => 0)].take 2) = some b ∧
      (setKeys ([Op.set [1] [5] 7 (fun _ => 0), Op.set [2] [6] 8 (fun _ => 0)].take 2)).Pairwise
        (fun a c => b.finds a → b.finds c) := by
  have hi0 := reachable_inv _ reachable_blank_one
  obtain ⟨b1, hset1, _, _⟩ := get_after_set _ (bucket.blank 1) [1] [5] 7 (fun _ => 0) hi0
    (by decide)
  have hi1 := inv_set _ (fun _ _ _ => True) _ b1 [1] [5] 7 (fun _ => 0) hi0 hset1
    (fun _ _ _ _ _ => trivial) trivial
  obtain ⟨b2, hset2, _, _⟩ := get_after_set _ b1 [2] [6] 8 (fun _ => 0) hi1 (by decide)
  have hrun : (bucket.blank 1).run
      ([Op.set [1] [5] 7 (fun _ => 0), Op.set [2] [6] 8 (fun _ => 0)].take 2) = some b2 := by
    show (bucket.blank 1).run [Op.set [1] [5] 7 (fun _ => 0), Op.set [2] [6] 8 (fun _ => 0)]
      = some b2
    rw [run_cons]
    simp only [bucket.step]
    rw [hset1]
    simp only [Option.map_some']
    rw [run_cons]
    simp only [bucket.step]
    rw [hset2]
    rfl
  refine ⟨b2, hrun, ?_⟩
  exact eviction_oldest_first (bucket.blank 1)
    (Or.inl ⟨bucket.zero, 65536, by rw [init_eq]; rfl⟩)
    [Op.set [1] [5] 7 (fun _ => 0), Op.set [2] [6] 8 (fun _ => 0)]
    (fun op hop => by
      rcases List.mem_cons.1 hop with e | hop
      · rw [e]; show 4 + 1 + 1 < 65536; decide
      · rw [List.mem_singleton.1 hop]; show 4 + 1 + 1 < 65536; decide)
    (by decide) 2 b2 hrun

/-! ## What a read changes -/

theorem endGet_effect (x b1 : bucket) (d d1 : List Nat) (fd f : Bool)
    (he : bucket.endGet x d fd = some (b1, d1, f)) :
    f = fd ∧ d1 = d ∧ (fd = true → b1 = x) ∧
      (fd = false → b1 = { x with misses := (x.misses + 1) % u64 }) := by
  unfold bucket.endGet at he
  split at he
  · rename_i hfd
    injection he with he
    injection he with he1 he2
    injection he2 with he2 he3
    subst he1 he2 he3
    exact ⟨rfl, rfl, fun _ => rfl, fun hf => by rw [hfd] at hf; exact Bool.noConfusion hf⟩
  · rename_i hfd
    injection he with he
    injection he with he1 he2
    injection he2 with he2 he3
    subst he1 he2 he3
    exact ⟨rfl, rfl, fun ht => absurd ht hfd, fun _ => rfl⟩

theorem getRecord_effect (x b1 : bucket) (c : Option Slice) (io : Nat) (dst k d : List Nat)
    (r f : Bool) (he : x.getRecord c io dst k r = some (b1, d, f)) :
    b1.chunks = x.chunks ∧ b1.m = x.m ∧ b1.idx = x.idx ∧ b1.gen = x.gen ∧
    b1.setCalls = x.setCalls ∧ b1.getCalls = x.getCalls ∧
    ((f = true ∧ b1.misses = x.misses ∧ b1.collisions = x.collisions ∧
        b1.corruptions = x.corruptions) ∨
     (f = false ∧ d = dst ∧ b1.misses = (x.misses + 1) % u64 ∧
        ((b1.collisions = (x.collisions + 1) % u64 ∧ b1.corruptions = x.corruptions) ∨
         (b1.collisions = x.collisions ∧ b1.corruptions = (x.corruptions + 1) % u64)))) := by
  unfold bucket.getRecord at he
  split at he
  · exact Option.noConfusion he
  · simp only at he
    split at he
    · obtain ⟨h1, h2, _, h4⟩ := endGet_effect _ _ _ _ _ _ he
      rw [h4 rfl, h1, h2]
      exact ⟨rfl, rfl, rfl, rfl, rfl, rfl, Or.inr ⟨rfl, rfl, rfl, Or.inr ⟨rfl, rfl⟩⟩⟩
    · split at he
      · exact Option.noConfusion he
      · split at he
        · split at he
          · split at he
            · exact Option.noConfusion he
            · obtain ⟨h1, _, h3, _⟩ := endGet_effect _ _ _ _ _ _ he
              rw [h3 rfl, h1]
              exact ⟨rfl, rfl, rfl, rfl, rfl, rfl, Or.inl ⟨rfl, rfl, rfl, rfl⟩⟩
          · obtain ⟨h1, _, h3, _⟩ := endGet_effect _ _ _ _ _ _ he
            rw [h3 rfl, h1]
            exact ⟨rfl, rfl, rfl, rfl, rfl, rfl, Or.inl ⟨rfl, rfl, rfl, rfl⟩⟩
        · obtain ⟨h1, h2, _, h4⟩ := endGet_effect _ _ _ _ _ _ he
          rw [h4 rfl, h1, h2]
          exact ⟨rfl, rfl, rfl, rfl, rfl, rfl, Or.inr ⟨rfl, rfl, rfl, Or.inl ⟨rfl, rfl⟩⟩⟩

/-- Every `Get` that returns has the effect `GetEffect`, in every bucket state. -/
theorem get_effect (b b1 : bucket) (dst k d : List Nat) (h : Nat) (r f : Bool)
    (hget : b.Get dst k h r = some (b1, d, f)) : GetEffect b dst b1 d f := by
  have hmiss : ∀ b1 d f, bucket.endGet ({ b with getCalls := (b.getCalls + 1) % u64 } : bucket)
      dst false = some (b1, d, f) → GetEffect b dst b1 d f := by
    intro b1 d f he
    obtain ⟨h1, h2, _, h4⟩ := endGet_effect _ _ _ _ _ _ he
    rw [h4 rfl, h1, h2]
    exact ⟨rfl, rfl, rfl, rfl, rfl, rfl, Or.inr ⟨rfl, rfl, rfl, Or.inl ⟨rfl, rfl⟩⟩⟩
  have hcor : ∀ b1 d f, bucket.endGet
      ({ b with getCalls := (b.getCalls + 1) % u64,
                corruptions := (b.corruptions + 1) % u64 } : bucket)
      dst false = some (b1, d, f) → GetEffect b dst b1 d f := by
    intro b1 d f he
    obtain ⟨h1, h2, _, h4⟩ := endGet_effect _ _ _ _ _ _ he
    rw [h4 rfl, h1, h2]
    exact ⟨rfl, rfl, rfl, rfl, rfl, rfl, Or.inr ⟨rfl, rfl, rfl, Or.inr (Or.inr ⟨rfl, rfl⟩)⟩⟩
  unfold bucket.Get at hget
  simp only at hget
  split at hget
  · split at hget
    · split at hget
      · exact hcor _ _ _ hget
      · split at hget
        · exact hcor _ _ _ hget
        · obtain ⟨h1, h2, h3, h4, h5, h6, h7⟩ := getRecord_effect _ _ _ _ _ _ _ _ _ hget
          refine ⟨h1, h2, h3, h4, h5, h6, ?_⟩
          rcases h7 with h7 | ⟨g1, g2, g3, g4⟩
          · exact Or.inl h7
          · exact Or.inr ⟨g1, g2, g3, Or.inr g4⟩
    · exact hmiss _ _ _ hget
  · exact hmiss _ _ _ hget

/-! ## What a write changes in the counters -/

theorem setWrite_counters (b b1 : bucket) (k v : List Nat) (h : Nat) (fresh : Nat → Nat)
    (idx idxNew chunkIdx gen : Nat) (moved needClean e : Bool)
    (hs : b.setWrite k v h fresh idx idxNew chunkIdx gen moved needClean = some (b1, e)) :
    b1.getCalls = b.getCalls ∧ b1.setCalls = b.setCalls ∧ b1.misses = b.misses ∧
      b1.collisions = b.collisions ∧ b1.corruptions = b.corruptions := by
  unfold bucket.setWrite at hs
  split at hs
  · simp only at hs
    injection hs with hs
    injection hs with hs _
    rw [← hs]
    cases needClean
    · exact ⟨rfl, rfl, rfl, rfl, rfl⟩
    · exact ⟨rfl, rfl, rfl, rfl, rfl⟩
  · exact Option.noConfusion hs

/-- Every `Set` that returns moved the set-call counter by one and no other
counter, in every bucket state. -/
theorem set_counters (b b1 : bucket) (k v : List Nat) (h : Nat) (fresh : Nat → Nat) (e : Bool)
    (hset : b.Set k v h fresh = some (b1, e)) :
    b1.getCalls = b.getCalls ∧ b1.setCalls = (b.setCalls + 1) % u64 ∧ b1.misses = b.misses ∧
      b1.collisions = b.collisions ∧ b1.corruptions = b.corruptions := by
  unfold bucket.Set at hset
  dsimp only at hset
  split at hset
  · injection hset with hset
    injection hset with hset _
    rw [← hset]
    exact ⟨rfl, rfl, rfl, rfl, rfl⟩
  · split at hset
    · injection hset with hset
      injection hset with hset _
      rw [← hset]
      exact ⟨rfl, rfl, rfl, rfl, rfl⟩
    · split at hset
      · split at hset
        · exact (setWrite_counters _ _ _ _ _ _ _ _ _ _ _ _ _ hset :)
        · exact (setWrite_counters _ _ _ _ _ _ _ _ _ _ _ _ _ hset :)
      · exact (setWrite_counters _ _ _ _ _ _ _ _ _ _ _ _ _ hset :)

/-! ## Reads of a well-formed bucket -/

/-- In a bucket that satisfies the invariant `Get` never panics, and the state it
leaves and the flag it returns depend neither on `dst` nor on `returnDst`: the bytes
returned are `dst` with the value appended when the key is found and `returnDst` is
set, and `dst` itself otherwise. -/
theorem get_uniform (P : Nat → List Nat → List Nat → Prop) (b : bucket) (k : List Nat)
    (h : Nat) (hinv : Inv P b) :
    ∃ b1 f v, ∀ (dst : List Nat) (r : Bool),
      b.Get dst k h r = some (b1, if f = true ∧ r = true then dst ++ v else dst, f) := by
  by_cases h0 : mapGet b.m h = 0
  · refine ⟨({ b with getCalls := (b.getCalls + 1) % u64, misses := (b.misses + 1) % u64 } : bucket),
      false, [], fun dst r => ?_⟩
    rw [get_eval_absent b dst k h r h0]
    simp
  · by_cases hl : getLive b.curGen b.idx (mapGet b.m h)
    · obtain ⟨g, o, h1, h2, h3, h4, hc⟩ := hinv.entries _ (mapGet_mem b.m h h0)
      simp only at h1
      rw [h1, getLive_iff _ _ _ _ h2] at hl
      have hrec : ∃ k2 v2, RecordAt b.chunks o k2 v2 ∧
          ((g = b.curGen ∧ o < b.idx) ∨ (prevGen g b.curGen ∧ o ≥ b.idx)) := by
        rcases hc with ⟨hg, k2, v2, _, hr, hle⟩ | ⟨hg, hrec⟩
        · exact ⟨k2, v2, hr, Or.inl ⟨hg, by omega⟩⟩
        · have hne := prevGen_ne _ _ hg
          have hge : o ≥ b.idx := by
            rcases hl with ⟨e, _⟩ | ⟨_, e⟩ | ⟨_, _, e⟩
            · exact absurd e hne
            · exact e
            · exact e
          obtain ⟨k2, v2, _, hr⟩ := hrec hge
          exact ⟨k2, v2, hr, Or.inr ⟨hg, hge⟩⟩
      obtain ⟨k2, v2, hr, hlive⟩ := hrec
      by_cases hk : k = k2
      · refine ⟨({ b with getCalls := (b.getCalls + 1) % u64 } : bucket), true, v2,
          fun dst r => ?_⟩
        rw [get_eval_record b dst k2 v2 k h r o g h1 h2 h3 hlive hinv.arena.caps hr, if_pos hk]
        cases r <;> simp
      · refine ⟨({ b with getCalls := (b.getCalls + 1) % u64,
                            collisions := (b.collisions + 1) % u64,
                            misses := (b.misses + 1) % u64 } : bucket), false, [],
          fun dst r => ?_⟩
        rw [get_eval_record b dst k2 v2 k h r o g h1 h2 h3 hlive hinv.arena.caps hr, if_neg hk]
        simp
    · refine ⟨({ b with getCalls := (b.getCalls + 1) % u64, misses := (b.misses + 1) % u64 } : bucket),
        false, [], fun dst r => ?_⟩
      rw [get_eval_stale b dst k h r hl]
      simp

/-! ## Runs, one call at a time -/

theorem run_append (b : bucket) (ops1 ops2 : List Op) :
    b.run (ops1 ++ ops2) =
      (match b.run ops1 with | none => none | some b1 => b1.run ops2) := by
  induction ops1 generalizing b with
  | nil => rfl
  | cons op ops ih =>
    rw [List.cons_append, run_cons, run_cons]
    cases b.step op with
    | none => rfl
    | some b2 => exact ih b2

theorem reachable_step (b b1 : bucket) (op : Op) (hb : Reachable b)
    (hstep : b.step op = some b1) : Reachable b1 := by
  obtain ⟨bz, maxBytes, b0, ops, hinit, hrun⟩ := hb
  refine ⟨bz, maxBytes, b0, ops ++ [op], hinit, ?_⟩
  rw [run_append, hrun]
  simp only
  rw [run_cons, hstep]
  rfl

/-! ## Delete and the frame of a read -/

theorem mapDel_absent (m : List (Nat × Nat)) (h : Nat) (hn : h ∉ m.map Prod.fst) :
    mapDel m h = m := by
  unfold mapDel
  rw [List.filter_eq_self]
  intro e he
  apply decide_eq_true
  intro heq
  exact hn (heq ▸ List.mem_map_of_mem Prod.fst he)

theorem mapDel_not_mem (m : List (Nat × Nat)) (h : Nat) : h ∉ (mapDel m h).map Prod.fst := by
  intro hin
  rcases List.mem_map.1 hin with ⟨e, he, heq⟩
  exact ((mem_mapDel m h e).1 he).2 heq

/-- C12: `Del` removes the index entry only.  For every bucket state and hash `h`,
`Del(h)` leaves the chunks, the cursor, the generation and all counters as they are,
the index has no entry for `h` afterwards and the entries of every other hash are
the same, so a `Get` right after it with hash `h` is a plain miss for any key;
`Del` of a hash without entry changes nothing. -/
theorem del_removes_entry_only (b : bucket) (h : Nat) :
    (b.Del h).chunks = b.chunks ∧ (b.Del h).idx = b.idx ∧ (b.Del h).gen = b.gen ∧
    (b.Del h).getCalls = b.getCalls ∧ (b.Del h).setCalls = b.setCalls ∧
    (b.Del h).misses = b.misses ∧ (b.Del h).collisions = b.collisions ∧
    (b.Del h).corruptions = b.corruptions ∧
    h ∉ (b.Del h).m.map Prod.fst ∧
    (∀ e : Nat × Nat, e.1 ≠ h → (e ∈ (b.Del h).m ↔ e ∈ b.m)) ∧
    (∀ h2, h2 ≠ h → mapGet (b.Del h).m h2 = mapGet b.m h2) ∧
    (∀ (dst k : List Nat) (r : Bool),
      (b.Del h).Get dst k h r =
        some ({ b.Del h with getCalls := ((b.Del h).getCalls + 1) % u64,
                             misses := ((b.Del h).misses + 1) % u64 }, dst, false)) ∧
    (h ∉ b.m.map Prod.fst → b.Del h = b) := by
  refine ⟨rfl, rfl, rfl, rfl, rfl, rfl, rfl, rfl, mapDel_not_mem b.m h, ?_, ?_, ?_, ?_⟩
  · intro e he
    show e ∈ mapDel b.m h ↔ e ∈ b.m
    rw [mem_mapDel]
    exact ⟨fun hx => hx.1, fun hx => ⟨hx, he⟩⟩
  · intro h2 hne
    exact mapGet_mapDel_ne b.m h h2 hne
  · intro dst k r
    exact get_eval_absent (b.Del h) dst k h r (mapGet_mapDel_eq b.m h)
  · intro hn
    show ({ b with m := mapDel b.m h } : bucket) = b
    rw [mapDel_absent b.m h hn]

/-- C13: reads do not mutate storage.  For every bucket state and every key, a
`Get` (the call behind `Get`, `HasGet` and `Has`) leaves the index, stale entries
included, the cursor, the generation, every chunk and the set-call counter as they
are; the get-call, miss, collision and corruption counters are all it changes.  In
every reachable state the call returns. -/
theorem get_keeps_storage (b : bucket) (dst k : List Nat) (h : Nat) (r : Bool) :
    (∀ b1 d f, b.Get dst k h r = some (b1, d, f) →
      b1.m = b.m ∧ b1.idx = b.idx ∧ b1.gen = b.gen ∧ b1.chunks = b.chunks ∧
        b1.setCalls = b.setCalls) ∧
    (Reachable b → ∃ b1 d f, b.Get dst k h r = some (b1, d, f)) := by
  constructor
  · intro b1 d f hget
    obtain ⟨h1, h2, h3, h4, h5, _⟩ := get_effect b b1 dst k d h r f hget
    exact ⟨h2, h3, h4, h1, h5⟩
  · intro hb
    obtain ⟨b1, f, v, hall⟩ := get_uniform _ b k h (reachable_inv b hb)
    exact ⟨b1, _, f, hall dst r⟩

theorem get_keeps_storage_witness :
    ∃ b1 d f, (bucket.blank 1).Get [9] [1] 7 true = some (b1, d, f) :=
  (get_keeps_storage (bucket.blank 1) [9] [1] 7 true).2 reachable_blank_one

/-! ## Reset of a cache -/

theorem reset_some (b b1 : bucket) (hr : b.Reset = some b1) :
    b1 = bucket.blank b.chunks.length := by
  unfold bucket.Reset at hr
  split at hr
  · injection hr with hr
    rw [← hr]
    have hmap : b.chunks.map (fun _ => (none : Option Slice)) =
        List.replicate b.chunks.length none := by
      rw [List.eq_replicate_iff]
      refine ⟨List.length_map _ _, ?_⟩
      intro c hc
      rcases List.mem_map.1 hc with ⟨_, _, h⟩
      exact h.symm
    rw [hmap]
    rfl
  · exact Option.noConfusion hr

theorem resetBuckets_some (l l1 : List bucket) (hr : resetBuckets l = some l1) :
    l1 = l.map (fun b => bucket.blank b.chunks.length) := by
  induction l generalizing l1 with
  | nil =>
    injection hr with hr
    rw [← hr]
    rfl
  | cons b rest ih =>
    unfold resetBuckets at hr
    cases hb : b.Reset with
    | none => rw [hb] at hr; exact Option.noConfusion hr
    | some b1 =>
      rw [hb] at hr
      simp only at hr
      cases hrest : resetBuckets rest with
      | none => rw [hrest] at hr; exact Option.noConfusion hr
      | some rest1 =>
        rw [hrest] at hr
        simp only at hr
        injection hr with hr
        rw [← hr, List.map_cons, reset_some b b1 hb, ih rest1 hrest]

theorem resetBuckets_total (l : List bucket) (hl : ∀ b ∈ l, Reachable b) :
    ∃ l1, resetBuckets l = some l1 := by
  induction l with
  | nil => exact ⟨[], rfl⟩
  | cons b rest ih =>
    obtain ⟨rest1, hrest⟩ := ih (fun x hx => hl x (List.mem_cons_of_mem _ hx))
    have hb := reset_eq b (reachable_inv b (hl b (List.mem_cons_self _ _))).arena
    refine ⟨bucket.blank b.chunks.length :: rest1, ?_⟩
    unfold resetBuckets
    rw [hb]
    simp only
    rw [hrest]

theorem allocBytes_replicate_none (n : Nat) :
    (List.replicate n (none : Option Slice)).foldl
      (fun acc c => (acc + capOf c % u64) % u64) 0 = 0 := by
  induction n with
  | zero => rfl
  | succ n ih =>
    rw [List.replicate_succ, List.foldl_cons]
    have : (0 + capOf (none : Option Slice) % u64) % u64 = 0 := by
      simp [capOf]
    rw [this]
    exact ih

theorem updateStats_blank (n : Nat) (s : Stats)
    (hs : s.GetCalls = 0 ∧ s.SetCalls = 0 ∧ s.Misses = 0 ∧ s.Collisions = 0 ∧
      s.Corruptions = 0 ∧ s.EntriesCount = 0 ∧ s.AllocBytes = 0) :
    ((bucket.blank n).UpdateStats s).GetCalls = 0 ∧ ((bucket.blank n).UpdateStats s).SetCalls = 0 ∧
      ((bucket.blank n).UpdateStats s).Misses = 0 ∧
      ((bucket.blank n).UpdateStats s).Collisions = 0 ∧
      ((bucket.blank n).UpdateStats s).Corruptions = 0 ∧
      ((bucket.blank n).UpdateStats s).EntriesCount = 0 ∧
      ((bucket.blank n).UpdateStats s).AllocBytes = 0 := by
  obtain ⟨h1, h2, h3, h4, h5, h6, h7⟩ := hs
  simp only [bucket.UpdateStats, bucket.blank, h1, h2, h3, h4, h5, h6, h7,
    allocBytes_replicate_none, List.length_nil, Nat.zero_mod, Nat.add_zero]
  exact ⟨trivial, trivial, trivial, trivial, trivial, trivial, trivial⟩

theorem updateStats_fold_blank (l : List bucket) (s : Stats)
    (hs : s.GetCalls = 0 ∧ s.SetCalls = 0 ∧ s.Misses = 0 ∧ s.Collisions = 0 ∧
      s.Corruptions = 0 ∧ s.EntriesCount = 0 ∧ s.AllocBytes = 0) :
    let t := (l.map (fun b => bucket.blank b.chunks.length)).foldl
      (fun acc b => b.UpdateStats acc) s
    t.GetCalls = 0 ∧ t.SetCalls = 0 ∧ t.Misses = 0 ∧ t.Collisions = 0 ∧ t.Corruptions = 0 ∧
      t.EntriesCount = 0 ∧ t.AllocBytes = 0 := by
  induction l generalizing s with
  | nil => exact hs
  | cons b rest ih =>
    rw [List.map_cons, List.foldl_cons]
    exact ih _ (updateStats_blank b.chunks.length s hs)

theorem updateStats_fold_maxBytes_blank (l : List bucket) (s s1 : Stats)
    (hs : s1.MaxBytes = s.MaxBytes) :
    ((l.map (fun b => bucket.blank b.chunks.length)).foldl
        (fun acc b => b.UpdateStats acc) s1).MaxBytes =
      (l.foldl (fun acc b => b.UpdateStats acc) s).MaxBytes := by
  induction l generalizing s s1 with
  | nil => exact hs
  | cons b rest ih =>
    rw [List.map_cons, List.foldl_cons, List.foldl_cons]
    apply ih
    simp only [bucket.UpdateStats, bucket.blank, List.length_replicate, hs]

theorem cache_bucket_at (c : Cache) (hlen : c.buckets.length = bucketsCount) (n : Nat) :
    ∃ b, c.buckets[n % bucketsCount]? = some b ∧ b ∈ c.buckets := by
  have hlt : n % bucketsCount < c.buckets.length := by
    rw [hlen]
    exact Nat.mod_lt _ (by decide)
  exact ⟨c.buckets[n % bucketsCount], List.getElem?_eq_getElem hlt, List.getElem_mem hlt⟩

theorem blank_get (n : Nat) (dst k : List Nat) (h : Nat) (r : Bool) :
    (bucket.blank n).Get dst k h r =
      some ({ bucket.blank n with getCalls := 1, misses := 1 }, dst, false) :=
  get_eval_absent (bucket.blank n) dst k h r rfl

/-- C11: `Reset` completeness.  For every cache state (512 buckets), `Reset` returns
whenever the buckets are in states the operations produce, and after a `Reset` that
returned every bucket has an empty index, cursor 0, generation 1 and no allocated
chunk, `UpdateStats` into a zeroed `Stats` reports `EntriesCount = 0`,
`AllocBytes = 0`, zero get, set, miss, collision and corruption counters and the
`MaxBytes` it reported before the `Reset`, and every key is a miss on `HasGet`,
`Get` and `Has`. -/
theorem reset_complete (hash : List Nat → Nat) (c : Cache)
    (hlen : c.buckets.length = bucketsCount) :
    (c.WellFormed → ∃ c1, c.Reset = some c1) ∧
    ∀ c1, c.Reset = some c1 →
      c1.buckets.length = bucketsCount ∧
      (∀ b ∈ c1.buckets, b.m = [] ∧ b.idx = 0 ∧ b.gen = 1 ∧ (∀ ch ∈ b.chunks, ch = none) ∧
        b.getCalls = 0 ∧ b.setCalls = 0 ∧ b.misses = 0 ∧ b.collisions = 0 ∧
        b.corruptions = 0) ∧
      (c1.UpdateStats Stats.zero).EntriesCount = 0 ∧
      (c1.UpdateStats Stats.zero).AllocBytes = 0 ∧
      (c1.UpdateStats Stats.zero).GetCalls = 0 ∧
      (c1.UpdateStats Stats.zero).SetCalls = 0 ∧
      (c1.UpdateStats Stats.zero).Misses = 0 ∧
      (c1.UpdateStats Stats.zero).Collisions = 0 ∧
      (c1.UpdateStats Stats.zero).Corruptions = 0 ∧
      (c1.UpdateStats Stats.zero).MaxBytes = (c.UpdateStats Stats.zero).MaxBytes ∧
      ∀ (dst k : List Nat), ∃ c2,
        Cache.HasGet hash c1 dst k = some (c2, dst, false) ∧
        Cache.Get hash c1 dst k = some (c2, dst) ∧
        Cache.Has hash c1 k = some (c2, false) := by
  constructor
  · intro hwf
    obtain ⟨l1, hl1⟩ := resetBuckets_total c.buckets hwf.2
    refine ⟨⟨l1⟩, ?_⟩
    unfold Cache.Reset
    rw [hl1]
  · intro c1 hreset
    unfold Cache.Reset at hreset
    cases hr : resetBuckets c.buckets with
    | none => rw [hr] at hreset; exact Option.noConfusion hreset
    | some l1 =>
      rw [hr] at hreset
      simp only at hreset
      injection hreset with hreset
      have hl1 := resetBuckets_some c.buckets l1 hr
      have hc1 : c1.buckets = c.buckets.map (fun b => bucket.blank b.chunks.length) := by
        rw [← hreset, hl1]
      have hlen1 : c1.buckets.length = bucketsCount := by
        rw [hc1, List.length_map, hlen]
      have hblank : ∀ b ∈ c1.buckets, ∃ n, b = bucket.blank n := by
        intro b hb
        rw [hc1] at hb
        rcases List.mem_map.1 hb with ⟨b0, _, hb0⟩
        exact ⟨b0.chunks.length, hb0.symm⟩
      have hz := updateStats_fold_blank c.buckets Stats.zero ⟨rfl, rfl, rfl, rfl, rfl, rfl, rfl⟩
      simp only at hz
      refine ⟨hlen1, ?_, ?_, ?_, ?_, ?_, ?_, ?_, ?_, ?_, ?_⟩
      · intro b hb
        obtain ⟨n, hn⟩ := hblank b hb
        rw [hn]
        refine ⟨rfl, rfl, rfl, ?_, rfl, rfl, rfl, rfl, rfl⟩
        intro ch hch
        exact List.eq_of_mem_replicate hch
      · unfold Cache.UpdateStats; rw [hc1]; exact hz.2.2.2.2.2.1
      · unfold Cache.UpdateStats; rw [hc1]; exact hz.2.2.2.2.2.2
      · unfold Cache.UpdateStats; rw [hc1]; exact hz.1
      · unfold Cache.UpdateStats; rw [hc1]; exact hz.2.1
      · unfold Cache.UpdateStats; rw [hc1]; exact hz.2.2.1
      · unfold Cache.UpdateStats; rw [hc1]; exact hz.2.2.2.1
      · unfold Cache.UpdateStats; rw [hc1]; exact hz.2.2.2.2.1
      · unfold Cache.UpdateStats
        rw [hc1]
        exact updateStats_fold_maxBytes_blank c.buckets Stats.zero Stats.zero rfl
      · intro dst k
        obtain ⟨b, hb, hbm⟩ := cache_bucket_at c1 hlen1 (hash k)
        obtain ⟨n, hn⟩ := hblank b hbm
        refine ⟨⟨c1.buckets.set (hash k % bucketsCount)
          { bucket.blank n with getCalls := 1, misses := 1 }⟩, ?_, ?_, ?_⟩
        · unfold Cache.HasGet
          simp only [hb, hn, blank_get]
        · unfold Cache.Get
          simp only [hb, hn, blank_get]
        · unfold Cache.Has
          simp only [hb, hn, blank_get]

theorem wellFormed_blank_cache : (⟨List.replicate 512 (bucket.blank 1)⟩ : Cache).WellFormed :=
  ⟨List.length_replicate _ _, fun b hb => by
    rw [List.eq_of_mem_replicate hb]; exact reachable_blank_one⟩

theorem reset_complete_witness :
    ∃ c1, (⟨List.replicate 512 (bucket.blank 1)⟩ : Cache).Reset = some c1 :=
  (reset_complete (fun _ => 0) ⟨List.replicate 512 (bucket.blank 1)⟩
    (List.length_replicate _ _)).1 wellFormed_blank_cache

/-! ## Cache states -/

theorem initBuckets_spec (l l1 : List bucket) (mb : Nat) (hi : initBuckets l mb = some l1) :
    l1.length = l.length ∧ ∀ b1 ∈ l1, ∃ b : bucket, b.Init mb = some b1 := by
  induction l generalizing l1 with
  | nil =>
    injection hi with hi
    rw [← hi]
    exact ⟨rfl, fun _ hb => by cases hb⟩
  | cons b rest ih =>
    unfold initBuckets at hi
    cases hb : b.Init mb with
    | none => rw [hb] at hi; exact Option.noConfusion hi
    | some b1 =>
      rw [hb] at hi
      simp only at hi
      cases hrest : initBuckets rest mb with
      | none => rw [hrest] at hi; exact Option.noConfusion hi
      | some rest1 =>
        rw [hrest] at hi
        simp only at hi
        injection hi with hi
        obtain ⟨h1, h2⟩ := ih rest1 hrest
        rw [← hi]
        refine ⟨by rw [List.length_cons, List.length_cons, h1], ?_⟩
        intro x hx
        rcases List.mem_cons.1 hx with rfl | hx
        · exact ⟨b, hb⟩
        · exact h2 x hx

/-- The cache `New` returns is well formed. -/
theorem new_wellFormed (maxBytes : Nat) (c : Cache) (hnew : New maxBytes = some c) :
    c.WellFormed := by
  unfold New at hnew
  split at hnew
  · exact Option.noConfusion hnew
  · simp only at hnew
    split at hnew
    · exact Option.noConfusion hnew
    · rename_i bs hbs
      injection hnew with hnew
      rw [← hnew]
      obtain ⟨h1, h2⟩ := initBuckets_spec _ _ _ hbs
      refine ⟨by rw [h1, List.length_replicate], ?_⟩
      intro b hb
      obtain ⟨bz, hbz⟩ := h2 b hb
      exact ⟨bz, _, b, [], hbz, rfl⟩

theorem wellFormed_set (c : Cache) (i : Nat) (b1 : bucket) (hwf : c.WellFormed)
    (hb1 : Reachable b1) : (⟨c.buckets.set i b1⟩ : Cache).WellFormed := by
  refine ⟨by rw [List.length_set]; exact hwf.1, ?_⟩
  intro b hb
  rcases List.mem_or_eq_of_mem_set hb with hin | heq
  · exact hwf.2 b hin
  · rw [heq]; exact hb1

/-- Every operation of the cache leads from a well-formed state to a well-formed
state. -/
theorem cache_ops_wellFormed (hash : List Nat → Nat) (c : Cache) (hwf : c.WellFormed) :
    (∀ k v fresh c1 e, Cache.Set hash c k v fresh = some (c1, e) → c1.WellFormed) ∧
    (∀ dst k c1 d f, Cache.HasGet hash c dst k = some (c1, d, f) → c1.WellFormed) ∧
    (∀ dst k c1 d, Cache.Get hash c dst k = some (c1, d) → c1.WellFormed) ∧
    (∀ k c1 f, Cache.Has hash c k = some (c1, f) → c1.WellFormed) ∧
    (∀ k c1, Cache.Del hash c k = some c1 → c1.WellFormed) ∧
    (∀ c1, c.Reset = some c1 → c1.WellFormed) := by
  refine ⟨?_, ?_, ?_, ?_, ?_, ?_⟩
  · intro k v fresh c1 e hs
    unfold Cache.Set at hs
    simp only at hs
    obtain ⟨b, hb, hbm⟩ := cache_bucket_at c hwf.1 (hash k)
    rw [hb] at hs
    simp only at hs
    cases hset : b.Set k v (hash k) fresh with
    | none => rw [hset] at hs; exact Option.noConfusion hs
    | some r =>
      rw [hset] at hs
      simp only at hs
      injection hs with hs
      injection hs with hs _
      rw [← hs]
      apply wellFormed_set c _ _ hwf
      apply reachable_step b r.1 (Op.set k v (hash k) fresh) (hwf.2 b hbm)
      simp only [bucket.step, hset, Option.map_some']
  · intro dst k c1 d f hs
    unfold Cache.HasGet at hs
    simp only at hs
    obtain ⟨b, hb, hbm⟩ := cache_bucket_at c hwf.1 (hash k)
    rw [hb] at hs
    simp only at hs
    cases hget : b.Get dst k (hash k) true with
    | none => rw [hget] at hs; exact Option.noConfusion hs
    | some r =>
      rw [hget] at hs
      simp only at hs
      injection hs with hs
      injection hs with hs _
      rw [← hs]
      apply wellFormed_set c _ _ hwf
      apply reachable_step b r.1 (Op.get dst k (hash k) true) (hwf.2 b hbm)
      simp only [bucket.step, hget, Option.map_some']
  · intro dst k c1 d hs
    unfold Cache.Get at hs
    simp only at hs
    obtain ⟨b, hb, hbm⟩ := cache_bucket_at c hwf.1 (hash k)
    rw [hb] at hs
    simp only at hs
    cases hget : b.Get dst k (hash k) true with
    | none => rw [hget] at hs; exact Option.noConfusion hs
    | some r =>
      rw [hget] at hs
      simp only at hs
      injection hs with hs
      injection hs with hs _
      rw [← hs]
      apply wellFormed_set c _ _ hwf
      apply reachable_step b r.1 (Op.get dst k (hash k) true) (hwf.2 b hbm)
      simp only [bucket.step, hget, Option.map_some']
  · intro k c1 f hs
    unfold Cache.Has at hs
    simp only at hs
    obtain ⟨b, hb, hbm⟩ := cache_bucket_at c hwf.1 (hash k)
    rw [hb] at hs
    simp only at hs
    cases hget : b.Get [] k (hash k) false with
    | none => rw [hget] at hs; exact Option.noConfusion hs
    | some r =>
      rw [hget] at hs
      simp only at hs
      injection hs with hs
      injection hs with hs _
      rw [← hs]
      apply wellFormed_set c _ _ hwf
      apply reachable_step b r.1 (Op.get [] k (hash k) false) (hwf.2 b hbm)
      simp only [bucket.step, hget, Option.map_some']
  · intro k c1 hs
    unfold Cache.Del at hs
    simp only at hs
    obtain ⟨b, hb, hbm⟩ := cache_bucket_at c hwf.1 (hash k)
    rw [hb] at hs
    simp only at hs
    injection hs with hs
    rw [← hs]
    apply wellFormed_set c _ _ hwf
    exact reachable_step b _ (Op.del (hash k)) (hwf.2 b hbm) rfl
  · intro c1 hs
    unfold Cache.Reset at hs
    cases hr : resetBuckets c.buckets with
    | none => rw [hr] at hs; exact Option.noConfusion hs
    | some l1 =>
      rw [hr] at hs
      simp only at hs
      injection hs with hs
      rw [← hs]
      have hl1 := resetBuckets_some c.buckets l1 hr
      refine ⟨by rw [hl1, List.length_map]; exact hwf.1, ?_⟩
      intro b hb
      rw [hl1] at hb
      rcases List.mem_map.1 hb with ⟨b0, hb0, hbe⟩
      rw [← hbe]
      apply reachable_step b0 _ Op.reset (hwf.2 b0 hb0)
      exact reset_eq b0 (reachable_inv b0 (hwf.2 b0 hb0)).arena

/-! ## `Get`, `HasGet` and `Has` -/

/-- C14: `Get`, `HasGet` and `Has` agree.  `Get` is `HasGet` without the flag in
every cache state; in every cache state `New` and the operations produce, for every
key `k` and `dst`, the three calls return, `Get(dst, k)` returns exactly the bytes
`HasGet(dst, k)` returns, `Has(k)` returns exactly the flag `HasGet(nil, k)` (and
`HasGet(dst, k)`) returns, the three leave the same cache state, counters included,
and on a miss the bytes returned are `dst` unchanged. -/
theorem get_hasGet_has_agree (hash : List Nat → Nat) (c : Cache) (dst k : List Nat) :
    Cache.Get hash c dst k = (Cache.HasGet hash c dst k).map (fun r => (r.1, r.2.1)) ∧
    (c.WellFormed →
      ∃ c1 d f, Cache.HasGet hash c dst k = some (c1, d, f) ∧
        Cache.Get hash c dst k = some (c1, d) ∧
        (∃ d0, Cache.HasGet hash c [] k = some (c1, d0, f)) ∧
        Cache.Has hash c k = some (c1, f) ∧
        (f = false → d = dst)) := by
  constructor
  · unfold Cache.Get Cache.HasGet
    simp only
    cases c.buckets[hash k % bucketsCount]? with
    | none => rfl
    | some b =>
      simp only
      cases b.Get dst k (hash k) true with
      | none => rfl
      | some r => rfl
  · intro hwf
    obtain ⟨b, hb, hbm⟩ := cache_bucket_at c hwf.1 (hash k)
    obtain ⟨b1, f, v, hall⟩ := get_uniform _ b k (hash k) (reachable_inv b (hwf.2 b hbm))
    refine ⟨⟨c.buckets.set (hash k % bucketsCount) b1⟩,
      if f = true ∧ true = true then dst ++ v else dst, f, ?_, ?_, ?_, ?_, ?_⟩
    · unfold Cache.HasGet
      simp only [hb, hall dst true]
    · unfold Cache.Get
      simp only [hb, hall dst true]
    · refine ⟨if f = true ∧ true = true then [] ++ v else [], ?_⟩
      unfold Cache.HasGet
      simp only [hb, hall [] true]
    · unfold Cache.Has
      simp only [hb, hall [] false]
    · intro hf
      simp [hf]

theorem get_hasGet_has_agree_witness :
    ∃ c1 d f, Cache.HasGet (fun _ => 7) ⟨List.replicate 512 (bucket.blank 1)⟩ [9] [1] =
        some (c1, d, f) ∧
      Cache.Has (fun _ => 7) ⟨List.replicate 512 (bucket.blank 1)⟩ [1] = some (c1, f) := by
  obtain ⟨c1, d, f, h1, _, _, h4, _⟩ :=
    (get_hasGet_has_agree (fun _ => 7) ⟨List.replicate 512 (bucket.blank 1)⟩ [9] [1]).2
      wellFormed_blank_cache
  exact ⟨c1, d, f, h1, h4⟩

/-! ## Counter accounting -/

theorem missCount_get (dst k : List Nat) (h : Nat) (r : Bool) (ops : List Op) (b : bucket) :
    missCount (Op.get dst k h r :: ops) b =
      (match b.Get dst k h r with
        | none => 0
        | some x => (if x.2.2 then 0 else 1) + missCount ops x.1) := rfl

theorem missCount_set (k v : List Nat) (h : Nat) (fresh : Nat → Nat) (ops : List Op)
    (b : bucket) :
    missCount (Op.set k v h fresh :: ops) b =
      (match b.Set k v h fresh with
        | none => 0
        | some x => missCount ops x.1) := rfl

theorem missCount_del (h : Nat) (ops : List Op) (b : bucket) :
    missCount (Op.del h :: ops) b = missCount ops (b.Del h) := rfl

/-- The counters of a bucket after a `Reset`-free history, from any state whose
counters leave room for the calls. -/
theorem counters_run (ops : List Op) (b b1 : bucket) (hnr : ∀ op ∈ ops, op ≠ Op.reset)
    (hrun : b.run ops = some b1) (hg : b.getCalls + getCount ops < u64)
    (hs : b.setCalls + setCount ops < u64) (hm : b.misses ≤ b.getCalls)
    (hc : b.collisions + b.corruptions ≤ b.misses) :
    b1.getCalls = b.getCalls + getCount ops ∧ b1.setCalls = b.setCalls + setCount ops ∧
      b1.misses = b.misses + missCount ops b ∧
      b1.collisions + b1.corruptions ≤ b1.misses ∧ b1.misses ≤ b1.getCalls := by
  induction ops generalizing b with
  | nil =>
    rw [run_nil] at hrun
    injection hrun with hrun
    rw [← hrun]
    exact ⟨rfl, rfl, rfl, hc, hm⟩
  | cons op ops ih =>
    rw [run_cons] at hrun
    have hnr2 : ∀ o ∈ ops, o ≠ Op.reset := fun o ho => hnr o (List.mem_cons_of_mem _ ho)
    cases hst : b.step op with
    | none => rw [hst] at hrun; exact Option.noConfusion hrun
    | some b2 =>
      rw [hst] at hrun
      simp only at hrun
      cases op with
      | set k v h fresh =>
        simp only [bucket.step, Option.map_eq_some'] at hst
        obtain ⟨⟨b3, e⟩, hset, hb⟩ := hst
        simp only at hb
        subst hb
        obtain ⟨c1, c2, c3, c4, c5⟩ := set_counters b b3 k v h fresh e hset
        have hg2 : getCount (Op.set k v h fresh :: ops) = getCount ops := rfl
        have hs2 : setCount (Op.set k v h fresh :: ops) = setCount ops + 1 := rfl
        rw [hg2] at hg ⊢
        rw [hs2] at hs ⊢
        rw [u64_eq] at hg hs c2
        have c2b : b3.setCalls = b.setCalls + 1 := by omega
        obtain ⟨i1, i2, i3, i4, i5⟩ := ih b3 hnr2 hrun (by rw [c1, u64_eq]; exact hg)
          (by rw [c2b, u64_eq]; omega) (by rw [c3, c1]; exact hm) (by rw [c3, c4, c5]; exact hc)
        rw [missCount_set, hset]
        simp only
        refine ⟨by rw [i1, c1], by rw [i2, c2b]; omega, by rw [i3, c3], i4, i5⟩
      | get dst k h r =>
        simp only [bucket.step, Option.map_eq_some'] at hst
        obtain ⟨⟨b3, d, f⟩, hget, hb⟩ := hst
        simp only at hb
        subst hb
        obtain ⟨_, _, _, _, e5, e6, e7⟩ := get_effect b b3 dst k d h r f hget
        have hg2 : getCount (Op.get dst k h r :: ops) = getCount ops + 1 := rfl
        have hs2 : setCount (Op.get dst k h r :: ops) = setCount ops := rfl
        rw [hg2] at hg ⊢
        rw [hs2] at hs ⊢
        rw [u64_eq] at hg hs e6 e7
        have e6b : b3.getCalls = b.getCalls + 1 := by omega
        have hm3 : b3.misses ≤ b3.getCalls ∧ b3.collisions + b3.corruptions ≤ b3.misses ∧
            b3.misses = b.misses + (if f = true then 0 else 1) := by
          rcases e7 with ⟨f1, f2, f3, f4⟩ | ⟨f1, _, f3, f4⟩
          · rw [f1]
            simp only [if_true]
            omega
          · rw [f1]
            simp only [Bool.false_eq_true, if_false]
            omega
        obtain ⟨i1, i2, i3, i4, i5⟩ := ih b3 hnr2 hrun (by rw [e6b, u64_eq]; omega)
          (by rw [e5, u64_eq]; exact hs) hm3.1 hm3.2.1
        rw [missCount_get, hget]
        simp only
        refine ⟨by rw [i1, e6b]; omega, by rw [i2, e5], by rw [i3, hm3.2.2, Nat.add_assoc], i4, i5⟩
      | del h =>
        simp only [bucket.step, Option.some.injEq] at hst
        subst hst
        exact ih (b.Del h) hnr2 hrun hg hs hm hc
      | reset => exact absurd rfl (hnr Op.reset (List.mem_cons_self _ _))

/-- No call other than `Reset` decreases a counter that is below its maximum. -/
theorem counters_step_mono (b b1 : bucket) (op : Op) (hop : op ≠ Op.reset)
    (hstep : b.step op = some b1) (h1 : b.getCalls + 1 < u64) (h2 : b.setCalls + 1 < u64)
    (h3 : b.misses + 1 < u64) (h4 : b.collisions + 1 < u64) (h5 : b.corruptions + 1 < u64) :
    b.getCalls ≤ b1.getCalls ∧ b.setCalls ≤ b1.setCalls ∧ b.misses ≤ b1.misses ∧
      b.collisions ≤ b1.collisions ∧ b.corruptions ≤ b1.corruptions := by
  rw [u64_eq] at h1 h2 h3 h4 h5
  cases op with
  | set k v h fresh =>
    simp only [bucket.step, Option.map_eq_some'] at hstep
    obtain ⟨⟨b3, e⟩, hset, hb⟩ := hstep
    simp only at hb
    subst hb
    obtain ⟨c1, c2, c3, c4, c5⟩ := set_counters b b3 k v h fresh e hset
    rw [u64_eq] at c2
    omega
  | get dst k h r =>
    simp only [bucket.step, Option.map_eq_some'] at hstep
    obtain ⟨⟨b3, d, f⟩, hget, hb⟩ := hstep
    simp only at hb
    subst hb
    obtain ⟨_, _, _, _, e5, e6, e7⟩ := get_effect b b3 dst k d h r f hget
    rw [u64_eq] at e6 e7
    omega
  | del h =>
    simp only [bucket.step, Option.some.injEq] at hstep
    subst hstep
    exact ⟨le_refl _, le_refl _, le_refl _, le_refl _, le_refl _⟩
  | reset => exact absurd rfl hop

theorem start_blank (b0 : bucket)
    (hstart : (∃ bz maxBytes, bucket.Init bz maxBytes = some b0) ∨
      (∃ b, Reachable b ∧ b.Reset = some b0)) :
    ∃ n, b0 = bucket.blank n := by
  rcases hstart with ⟨bz, maxBytes, hinit⟩ | ⟨b, _, hreset⟩
  · rw [init_eq] at hinit
    split at hinit
    · exact Option.noConfusion hinit
    · injection hinit with hinit
      exact ⟨_, hinit.symm⟩
  · exact ⟨_, reset_some b b0 hreset⟩

/-- C15: counter accounting.  From a bucket as `Init` or `Reset` leaves it, after
any sequence of `Set`, `Get` (also behind `HasGet` and `Has`) and `Del` calls, with
fewer than `2^64` calls of each kind, `getCalls` is the number of `Get` calls,
`misses` the number of them that returned `found = false`, `setCalls` the number of
`Set` calls, rejected ones included, and
`collisions + corruptions <= misses <= getCalls`; and in every bucket state no call
other than `Reset` decreases a counter (each below `2^64 - 1`). -/
theorem counter_accounting :
    (∀ (b0 b : bucket) (ops : List Op),
      ((∃ bz maxBytes, bucket.Init bz maxBytes = some b0) ∨
        (∃ b2, Reachable b2 ∧ b2.Reset = some b0)) →
      (∀ op ∈ ops, op ≠ Op.reset) → b0.run ops = some b →
      getCount ops < u64 → setCount ops < u64 →
      b.getCalls = getCount ops ∧ b.misses = missCount ops b0 ∧ b.setCalls = setCount ops ∧
        b.collisions + b.corruptions ≤ b.misses ∧ b.misses ≤ b.getCalls) ∧
    (∀ (b b1 : bucket) (op : Op), op ≠ Op.reset → b.step op = some b1 →
      b.getCalls + 1 < u64 → b.setCalls + 1 < u64 → b.misses + 1 < u64 →
      b.collisions + 1 < u64 → b.corruptions + 1 < u64 →
      b.getCalls ≤ b1.getCalls ∧ b.setCalls ≤ b1.setCalls ∧ b.misses ≤ b1.misses ∧
        b.collisions ≤ b1.collisions ∧ b.corruptions ≤ b1.corruptions) := by
  constructor
  · intro b0 b ops hstart hnr hrun hg hs
    obtain ⟨n, hn⟩ := start_blank b0 hstart
    have h0 : b0.getCalls = 0 ∧ b0.setCalls = 0 ∧ b0.misses = 0 ∧ b0.collisions = 0 ∧
        b0.corruptions = 0 := by
      rw [hn]; exact ⟨rfl, rfl, rfl, rfl, rfl⟩
    obtain ⟨z1, z2, z3, z4, z5⟩ := h0
    obtain ⟨i1, i2, i3, i4, i5⟩ := counters_run ops b0 b hnr hrun (by rw [z1]; omega)
      (by rw [z2]; omega) (by rw [z3, z1]) (by rw [z4, z5, z3])
    rw [z1, Nat.zero_add] at i1
    rw [z2, Nat.zero_add] at i2
    rw [z3, Nat.zero_add] at i3
    exact ⟨i1, i3, i2, i4, i5⟩
  · intro b b1 op hop hstep h1 h2 h3 h4 h5
    exact counters_step_mono b b1 op hop hstep h1 h2 h3 h4 h5

theorem counter_accounting_witness :
    ∃ b, (bucket.blank 1).run [Op.get [] [1] 7 true, Op.del 7] = some b ∧
      b.getCalls = getCount [Op.get [] [1] 7 true, Op.del 7] ∧
      b.misses = missCount [Op.get [] [1] 7 true, Op.del 7] (bucket.blank 1) := by
  have hrun : (bucket.blank 1).run [Op.get [] [1] 7 true, Op.del 7] =
      some (({ bucket.blank 1 with getCalls := 1, misses := 1 } : bucket).Del 7) := by
    rw [run_cons]
    simp only [bucket.step, blank_get, Option.map_some']
    rfl
  have h := counter_accounting.1 (bucket.blank 1) _ [Op.get [] [1] 7 true, Op.del 7]
    (Or.inl ⟨bucket.zero, 65536, by rw [init_eq]; rfl⟩)
    (fun op hop => by
      rcases List.mem_cons.1 hop with e | hop
      · rw [e]; exact fun hc => Op.noConfusion hc
      · rw [List.mem_singleton.1 hop]; exact fun hc => Op.noConfusion hc)
    hrun (by rw [u64_eq]; decide) (by rw [u64_eq]; decide)
  exact ⟨_, hrun, h.1, h.2.1⟩

/-! ## Where `Set` puts a record -/

theorem wraps_iff (b : bucket) (ha : Arena b) (L : Nat) (hL : L < chunkSize) :
    b.wraps L ↔ chunkSize ≤ b.idx % chunkSize + L ∧ b.chunks.length ≤ b.idx / chunkSize + 1 := by
  have hidx := arena_idx_lt b ha
  have hcur := ha.cursor
  have e40 : (2 : Nat) ^ bucketSizeBits = 1099511627776 := by decide
  rw [e40] at hidx
  unfold bucket.wraps
  rw [chunkSize_eq] at hL hcur ⊢
  have hmod : (b.idx + L) % u64 = b.idx + L := by
    rw [u64_eq]; omega
  rw [hmod]
  constructor
  · intro hw
    omega
  · intro hw
    omega

/-- The placement of a successful `Set` in a bucket that satisfies the invariant:
the record goes to the cursor when it ends before the end of the cursor's chunk, to
the start of the next chunk when there is one, and to offset 0 under the next
generation otherwise, where the index is cleaned by the liveness test. -/
theorem set_placement (P : Nat → List Nat → List Nat → Prop) (b : bucket) (k v : List Nat)
    (h : Nat) (fresh : Nat → Nat) (hinv : Inv P b)
    (hL : 4 + k.length + v.length < chunkSize) :
    ∃ b1 off, b.Set k v h fresh = some (b1, false) ∧
      b1.idx = off + (4 + k.length + v.length) ∧
      mapGet b1.m h = off + b1.curGen * 2 ^ bucketSizeBits ∧ off < 2 ^ bucketSizeBits ∧
      RecordAt b1.chunks off k v ∧
      ((¬ b.wraps (4 + k.length + v.length) ∧
          b.idx % chunkSize + (4 + k.length + v.length) < chunkSize ∧
          off = b.idx ∧ b1.gen = b.gen ∧
          b1.m = mapSet b.m h (off + b1.curGen * 2 ^ bucketSizeBits)) ∨
        (¬ b.wraps (4 + k.length + v.length) ∧
          chunkSize ≤ b.idx % chunkSize + (4 + k.length + v.length) ∧
          b.idx / chunkSize + 1 < b.chunks.length ∧
          off = (b.idx / chunkSize + 1) * chunkSize ∧ b1.gen = b.gen ∧
          b1.m = mapSet b.m h (off + b1.curGen * 2 ^ bucketSizeBits)) ∨
        (b.wraps (4 + k.length + v.length) ∧
          chunkSize ≤ b.idx % chunkSize + (4 + k.length + v.length) ∧
          b.chunks.length ≤ b.idx / chunkSize + 1 ∧
          off = 0 ∧ b1.gen = nextGen b.gen ∧
          ∀ e, e ∈ b1.m ↔
            e ∈ mapSet b.m h (off + b1.curGen * 2 ^ bucketSizeBits) ∧
              getLive b1.curGen b1.idx e.2)) := by
  have ha := hinv.arena
  have hcur := ha.cursor
  have hne := ha.nonempty
  have hw := wraps_iff b ha (4 + k.length + v.length) hL
  rcases set_cases b k v h fresh ha hL with ⟨hfit, heq⟩ | ⟨hmv, hnext, heq⟩ | ⟨hmv, hwrap, heq⟩
  · have hj : b.idx / chunkSize < b.chunks.length := by
      rw [chunkSize_eq] at hcur ⊢; omega
    refine ⟨_, b.idx, heq, rfl, mapGet_mapSet_eq _ _ _, arena_idx_lt b ha,
      placed_recordAt_new _ k v h fresh b.idx b.gen hj hfit, Or.inl ⟨?_, hfit, rfl, rfl, rfl⟩⟩
    rw [hw]
    omega
  · have hd : (b.idx / chunkSize + 1) * chunkSize / chunkSize = b.idx / chunkSize + 1 := by
      rw [chunkSize_eq]; omega
    have hm : (b.idx / chunkSize + 1) * chunkSize % chunkSize = 0 := by
      rw [chunkSize_eq]; omega
    have hj : (b.idx / chunkSize + 1) * chunkSize / chunkSize < b.chunks.length := by
      rw [hd]; exact hnext
    refine ⟨_, (b.idx / chunkSize + 1) * chunkSize, heq, rfl, mapGet_mapSet_eq _ _ _,
      arena_off_lt b ha _ hj,
      placed_recordAt_new _ k v h fresh _ b.gen hj (by rw [hm]; omega),
      Or.inr (Or.inl ⟨?_, hmv, hnext, rfl, rfl, rfl⟩)⟩
    rw [hw]
    omega
  · have hj : 0 / chunkSize < b.chunks.length := by rw [Nat.zero_div]; omega
    have hkeep : cleanKeeps (nextGen b.gen % 2 ^ genSizeBits) (0 + (4 + k.length + v.length))
        (0 + nextGen b.gen % 2 ^ genSizeBits * 2 ^ bucketSizeBits) := by
      rw [cleanKeeps_iff_getLive, getLive_iff _ _ _ _ (by decide)]
      exact Or.inl ⟨rfl, by omega⟩
    refine ⟨_, 0, heq, rfl, ?_, by decide,
      placed_recordAt_new _ k v h fresh 0 (nextGen b.gen) hj (by rw [Nat.zero_mod]; omega),
      Or.inr (Or.inr ⟨hw.2 ⟨hmv, hwrap⟩, hmv, hwrap, rfl, rfl, ?_⟩)⟩
    · show mapGet (List.filter _ _) h = _
      rw [curGen_eq_and]
      exact mapGet_cleaned_head _ _ _ _ _ hkeep
    · intro e
      show e ∈ List.filter _ _ ↔ _
      rw [curGen_eq_and, List.mem_filter, decide_eq_true_iff, cleanKeeps_iff_getLive]
      rfl

/-! ## A state whose next write wraps -/

/-- After `Set` of an empty key and value in the bucket `Init(65536)` gives, the
cursor is 4 in the only chunk, and a record of 65532 bytes wraps. -/
theorem wrapping_state :
    ∃ b1, (bucket.blank 1).Set [] [] 7 (fun _ => 0) = some (b1, false) ∧ Reachable b1 ∧
      b1.idx = 4 ∧ b1.gen = 1 ∧ b1.chunks.length = 1 ∧
      4 + ([] : List Nat).length + (List.replicate 65528 0).length < 65536 ∧
      b1.wraps (4 + ([] : List Nat).length + (List.replicate 65528 0).length) := by
  have hi0 := reachable_inv _ reachable_blank_one
  obtain ⟨b1, off1, hset1, hidx1, _, _, _, hcase1⟩ :=
    set_placement _ (bucket.blank 1) [] [] 7 (fun _ => 0) hi0 (by decide)
  have hr : Reachable b1 := reachable_step (bucket.blank 1) b1 (Op.set [] [] 7 (fun _ => 0))
    reachable_blank_one (by simp only [bucket.step]; rw [hset1]; rfl)
  have hb1 : b1.idx = 4 ∧ b1.gen = 1 := by
    rw [chunkSize_eq] at hcase1
    rcases hcase1 with ⟨_, _, c2, c3, _⟩ | ⟨_, c1, _⟩ | ⟨_, c1, _⟩
    · rw [hidx1, c2, c3]
      exact ⟨rfl, rfl⟩
    · exact absurd c1 (by decide)
    · exact absurd c1 (by decide)
  have hlen1 : b1.chunks.length = 1 := by
    rcases set_cases (bucket.blank 1) [] [] 7 (fun _ => 0) hi0.arena (by decide) with
      ⟨_, heq⟩ | ⟨c1, _⟩ | ⟨c1, _⟩
    · rw [heq] at hset1
      injection hset1 with hset1
      injection hset1 with hset1 _
      rw [← hset1]
      rfl
    · exact absurd c1 (by decide)
    · exact absurd c1 (by decide)
  have hL2 : 4 + ([] : List Nat).length + (List.replicate 65528 0).length = 65532 := by
    rw [List.length_replicate]; rfl
  refine ⟨b1, hset1, hr, hb1.1, hb1.2, hlen1, by rw [hL2]; decide, ?_⟩
  rw [hL2, wraps_iff b1 (reachable_inv b1 hr).arena 65532 (by decide), hb1.1, hlen1]
  decide

/-- C18: wraparound pruning.  In every reachable bucket state a `Set` of a record
that fits a chunk succeeds, and when it wraps the cursor the index afterwards
consists of exactly the new entry, which is live, and the entries present before,
of other hashes, that the liveness test of `Get` accepts for the new generation and
cursor: no live entry is removed and no other entry remains.  When it does not wrap
no entry is removed and only the entry of the written hash changes. -/
theorem wrap_pruning (b : bucket) (hb : Reachable b) (k v : List Nat) (h : Nat)
    (fresh : Nat → Nat) (hsz : 4 + k.length + v.length < 65536) :
    ∃ b1, b.Set k v h fresh = some (b1, false) ∧
      (b.wraps (4 + k.length + v.length) →
        getLive b1.curGen b1.idx (mapGet b1.m h) ∧
        ∀ e, e ∈ b1.m ↔
          e = (h, mapGet b1.m h) ∨ (e ∈ b.m ∧ e.1 ≠ h ∧ getLive b1.curGen b1.idx e.2)) ∧
      (¬ b.wraps (4 + k.length + v.length) →
        ∀ e, e ∈ b1.m ↔ e = (h, mapGet b1.m h) ∨ (e ∈ b.m ∧ e.1 ≠ h)) := by
  obtain ⟨b1, off, hset, hidx, hloc, hoff, _, hcase⟩ :=
    set_placement _ b k v h fresh (reachable_inv b hb) hsz
  refine ⟨b1, hset, ?_, ?_⟩
  · intro hw
    rcases hcase with ⟨hnw, _⟩ | ⟨hnw, _⟩ | ⟨_, _, _, _, _, hmem⟩
    · exact absurd hw hnw
    · exact absurd hw hnw
    · have hnewlive : getLive b1.curGen b1.idx (mapGet b1.m h) := by
        rw [hloc, getLive_iff _ _ _ _ hoff]
        exact Or.inl ⟨rfl, by omega⟩
      refine ⟨hnewlive, fun e => ?_⟩
      rw [hmem e, mem_mapSet, hloc]
      constructor
      · rintro ⟨he | ⟨he1, he2⟩, hl⟩
        · exact Or.inl he
        · exact Or.inr ⟨he1, he2, hl⟩
      · rintro (he | ⟨he1, he2, hl⟩)
        · refine ⟨Or.inl he, ?_⟩
          rw [he, ← hloc]
          exact hnewlive
        · exact ⟨Or.inr ⟨he1, he2⟩, hl⟩
  · intro hnw
    rcases hcase with ⟨_, _, _, _, hm⟩ | ⟨_, _, _, _, _, hm⟩ | ⟨hw, _⟩
    · intro e
      rw [hloc, hm, mem_mapSet]
    · intro e
      rw [hloc, hm, mem_mapSet]
    · exact absurd hw hnw

theorem wrap_pruning_witness :
    ∃ b1 b2, (bucket.blank 1).Set [] [] 7 (fun _ => 0) = some (b1, false) ∧
      b1.wraps (4 + ([] : List Nat).length + (List.replicate 65528 0).length) ∧
      b1.Set [] (List.replicate 65528 0) 8 (fun _ => 0) = some (b2, false) ∧
      getLive b2.curGen b2.idx (mapGet b2.m 8) ∧
      ∀ e, e ∈ b2.m ↔
        e = (8, mapGet b2.m 8) ∨ (e ∈ b1.m ∧ e.1 ≠ 8 ∧ getLive b2.curGen b2.idx e.2) := by
  obtain ⟨b1, hset1, hr, _, _, _, hsz, hw⟩ := wrapping_state
  obtain ⟨b2, hset2, h2, _⟩ := wrap_pruning b1 hr [] (List.replicate 65528 0) 8 (fun _ => 0) hsz
  exact ⟨b1, b2, hset1, hw, hset2, h2 hw⟩

/-- C19, as the code has it: cursor placement.  In every reachable bucket state with
cursor `c` and `n` chunks, a `Set` of a record of encoded size `L < 65536` succeeds;
if the record ends before the end of the chunk of the cursor
(`c mod 65536 + L < 65536`, strictly) it is stored at offset `c` with the generation
unchanged; otherwise, if a next chunk exists (`c / 65536 + 1 < n`), at the start of
that chunk with the generation unchanged; otherwise the bucket wraps and it is
stored at offset 0 with the generation advanced.  In every case the new cursor is
the stored offset plus `L` and the index maps the hash to the locator of the
generation (its low 24 bits) and the stored offset. -/
theorem cursor_placement (b : bucket) (hb : Reachable b) (k v : List Nat) (h : Nat)
    (fresh : Nat → Nat) (hsz : 4 + k.length + v.length < 65536) :
    ∃ b1 off, b.Set k v h fresh = some (b1, false) ∧
      RecordAt b1.chunks off k v ∧
      b1.idx = off + (4 + k.length + v.length) ∧
      mapGet b1.m h = off ||| (b1.gen <<< bucketSizeBits) % u64 ∧
      locGen (mapGet b1.m h) = b1.gen % 2 ^ genSizeBits ∧ locOff (mapGet b1.m h) = off ∧
      ((b.idx % 65536 + (4 + k.length + v.length) < 65536 ∧ off = b.idx ∧ b1.gen = b.gen) ∨
        (65536 ≤ b.idx % 65536 + (4 + k.length + v.length) ∧
          b.idx / 65536 + 1 < b.chunks.length ∧
          off = (b.idx / 65536 + 1) * 65536 ∧ b1.gen = b.gen) ∨
        (65536 ≤ b.idx % 65536 + (4 + k.length + v.length) ∧
          b.chunks.length ≤ b.idx / 65536 + 1 ∧
          off = 0 ∧ b1.gen = nextGen b.gen)) := by
  obtain ⟨b1, off, hset, hidx, hloc, hoff, hrec, hcase⟩ :=
    set_placement _ b k v h fresh (reachable_inv b hb) hsz
  refine ⟨b1, off, hset, hrec, hidx, ?_, ?_, ?_, ?_⟩
  · rw [hloc, pack_eq off b1.gen hoff]
    rfl
  · rw [hloc, locGen_pack _ _ hoff]
    rfl
  · rw [hloc, locOff_pack _ _ hoff]
  · rw [chunkSize_eq] at hcase
    rcases hcase with ⟨_, c1, c2, c3, _⟩ | ⟨_, c1, c2, c3, c4, _⟩ | ⟨_, c1, c2, c3, c4, _⟩
    · exact Or.inl ⟨c1, c2, c3⟩
    · exact Or.inr (Or.inl ⟨c1, c2, c3, c4⟩)
    · exact Or.inr (Or.inr ⟨c1, c2, c3, c4⟩)

theorem cursor_placement_witness :
    ∃ b1 off, (bucket.blank 1).Set [1] [5] 7 (fun _ => 0) = some (b1, false) ∧
      b1.idx = off + (4 + [1].length + [5].length) := by
  obtain ⟨b1, off, h1, _, h3, _⟩ := cursor_placement (bucket.blank 1) reachable_blank_one
    [1] [5] 7 (fun _ => 0) (by decide)
  exact ⟨b1, off, h1, h3⟩

/-- C19, the claim as stated fails: in the bucket `Init(65536)` gives (one chunk),
after `Set` of an empty key and value (4 bytes, cursor 4) a record of 65532 bytes
fits the space left in the chunk in the sense of the claim (`4 + 65532 <= 65536`),
yet `Set` does not store it at offset 4 under generation 1: it wraps, stores it at
offset 0 and advances the generation to 2. -/
theorem cursor_placement_counterexample :
    ∃ b1 b2, (bucket.blank 1).Set [] [] 7 (fun _ => 0) = some (b1, false) ∧
      b1.Set [] (List.replicate 65528 0) 8 (fun _ => 0) = some (b2, false) ∧
      b1.idx = 4 ∧ b1.gen = 1 ∧
      b1.idx % 65536 + (4 + ([] : List Nat).length + (List.replicate 65528 0).length) ≤ 65536 ∧
      b2.idx = 65532 ∧ b2.gen = 2 ∧ locOff (mapGet b2.m 8) = 0 ∧ locGen (mapGet b2.m 8) = 2 := by
  have hi0 := reachable_inv _ reachable_blank_one
  obtain ⟨b1, off1, hset1, hidx1, _, _, _, hcase1⟩ :=
    set_placement _ (bucket.blank 1) [] [] 7 (fun _ => 0) hi0 (by decide)
  have hb1 : b1.idx = 4 ∧ b1.gen = 1 := by
    rw [chunkSize_eq] at hcase1
    rcases hcase1 with ⟨_, _, c2, c3, _⟩ | ⟨_, c1, _⟩ | ⟨_, c1, _⟩
    · rw [hidx1, c2, c3]
      exact ⟨rfl, rfl⟩
    · exact absurd c1 (by decide)
    · exact absurd c1 (by decide)
  have hlen1 : b1.chunks.length = 1 := by
    rcases set_cases (bucket.blank 1) [] [] 7 (fun _ => 0) hi0.arena (by decide) with
      ⟨_, heq⟩ | ⟨c1, _⟩ | ⟨c1, _⟩
    · rw [heq] at hset1
      injection hset1 with hset1
      injection hset1 with hset1 _
      rw [← hset1]
      rfl
    · exact absurd c1 (by decide)
    · exact absurd c1 (by decide)
  have hi1 := inv_set _ (fun _ _ _ => True) _ b1 [] [] 7 (fun _ => 0) hi0 hset1
    (fun _ _ _ _ _ => trivial) trivial
  have hL2 : 4 + ([] : List Nat).length + (List.replicate 65528 0).length = 65532 := by
    rw [List.length_replicate]; rfl
  obtain ⟨b2, off2, hset2, hidx2, hloc2, hoff2, _, hcase2⟩ :=
    set_placement _ b1 [] (List.replicate 65528 0) 8 (fun _ => 0) hi1
      (by rw [hL2]; decide)
  rw [hL2] at hidx2 hcase2
  rw [chunkSize_eq, hb1.1, hlen1] at hcase2
  have hb2 : off2 = 0 ∧ b2.gen = 2 := by
    rcases hcase2 with ⟨_, c1, _⟩ | ⟨_, _, c2, _⟩ | ⟨_, _, _, c3, c4⟩
    · exact absurd c1 (by decide)
    · exact absurd c2 (by decide)
    · refine ⟨c3, ?_⟩
      rw [c4.1, hb1.2]
      decide
  refine ⟨b1, b2, hset1, hset2, hb1.1, hb1.2, ?_, ?_, hb2.2, ?_, ?_⟩
  · rw [hL2, hb1.1]
  · rw [hidx2, hb2.1]
  · rw [hloc2, locOff_pack _ _ hoff2, hb2.1]
  · rw [hloc2, locGen_pack _ _ hoff2]
    show b2.gen % 2 ^ genSizeBits = 2
    rw [hb2.2]
    decide

/-! ## The sentinel generation -/

/-- C20: the generation never takes the sentinel value.  In every reachable bucket
state the low 24 bits of the generation are non-zero and every index entry is a
non-zero value, so the presence test `v > 0` of `Get` accepts it; a `Set` that
wraps advances the low 24 bits from `g` to `g + 1`, or from `2^24 - 1` to 1, a `Set`
that does not wrap leaves the generation as it is, and the locator a successful
`Set` stores is a non-zero 64-bit value. -/
theorem generation_never_sentinel (b : bucket) (hb : Reachable b) :
    b.gen &&& ((1 <<< genSizeBits) - 1) ≠ 0 ∧
    (∀ e ∈ b.m, mapGet b.m e.1 = e.2 ∧ mapGet b.m e.1 > 0) ∧
    ∀ (k v : List Nat) (h : Nat) (fresh : Nat → Nat), 4 + k.length + v.length < 65536 →
      ∃ b1, b.Set k v h fresh = some (b1, false) ∧
        (b.wraps (4 + k.length + v.length) →
          (b.gen % 2 ^ 24 = 2 ^ 24 - 1 ∧ b1.gen % 2 ^ 24 = 1) ∨
            (b.gen % 2 ^ 24 < 2 ^ 24 - 1 ∧ b1.gen % 2 ^ 24 = b.gen % 2 ^ 24 + 1)) ∧
        (¬ b.wraps (4 + k.length + v.length) → b1.gen = b.gen) ∧
        b1.gen &&& ((1 <<< genSizeBits) - 1) ≠ 0 ∧
        0 < mapGet b1.m h ∧ mapGet b1.m h < 2 ^ 64 := by
  have hinv := reachable_inv b hb
  refine ⟨?_, ?_, ?_⟩
  · rw [curGen_eq_and]
    exact hinv.arena.genNz
  · intro e he
    have hval := mapGet_of_mem b.m e hinv.nodup he
    refine ⟨hval, ?_⟩
    rw [hval]
    obtain ⟨g, o, h1, _, h3, _⟩ := hinv.entries e he
    rw [h1]
    have : 0 < g * 2 ^ bucketSizeBits := Nat.mul_pos h3 (by decide)
    omega
  · intro k v h fresh hsz
    obtain ⟨b1, off, hset, _, hloc, hoff, _, hcase⟩ := set_placement _ b k v h fresh hinv hsz
    have hinv1 := inv_set _ (fun _ _ _ => True) b b1 k v h fresh hinv hset
      (fun _ _ _ _ _ => trivial) trivial
    have hnz1 := hinv1.arena.genNz
    have hlt1 := curGen_lt b1
    have hng := (nextGen_spec b.gen).2.2
    rw [maxGen_eq] at hng
    have e24 : (2 : Nat) ^ genSizeBits = 16777216 := by decide
    have e40 : (2 : Nat) ^ bucketSizeBits = 1099511627776 := by decide
    refine ⟨b1, hset, ?_, ?_, ?_, ?_, ?_⟩
    · intro hw
      rcases hcase with ⟨hnw, _⟩ | ⟨hnw, _⟩ | ⟨_, _, _, _, c4, _⟩
      · exact absurd hw hnw
      · exact absurd hw hnw
      · rw [c4]
        rw [e24] at hng
        norm_num
        exact hng
    · intro hnw
      rcases hcase with ⟨_, _, _, c3, _⟩ | ⟨_, _, _, _, c4, _⟩ | ⟨hw, _⟩
      · exact c3
      · exact c4
      · exact absurd hw hnw
    · rw [curGen_eq_and]
      exact hnz1
    · rw [hloc]
      have : 0 < b1.curGen * 2 ^ bucketSizeBits :=
        Nat.mul_pos (Nat.pos_of_ne_zero hnz1) (by decide)
      omega
    · rw [hloc]
      rw [e24] at hlt1
      rw [e40] at hoff ⊢
      norm_num
      omega

theorem generation_never_sentinel_witness :
    ∃ b1 b2, (bucket.blank 1).Set [] [] 7 (fun _ => 0) = some (b1, false) ∧
      b1.wraps (4 + ([] : List Nat).length + (List.replicate 65528 0).length) ∧
      b1.Set [] (List.replicate 65528 0) 8 (fun _ => 0) = some (b2, false) ∧
      b1.gen &&& ((1 <<< genSizeBits) - 1) ≠ 0 ∧
      ((b1.gen % 2 ^ 24 = 2 ^ 24 - 1 ∧ b2.gen % 2 ^ 24 = 1) ∨
        (b1.gen % 2 ^ 24 < 2 ^ 24 - 1 ∧ b2.gen % 2 ^ 24 = b1.gen % 2 ^ 24 + 1)) ∧
      b2.gen &&& ((1 <<< genSizeBits) - 1) ≠ 0 := by
  obtain ⟨b1, hset1, hr, _, _, _, hsz, hw⟩ := wrapping_state
  obtain ⟨h1, _, h3⟩ := generation_never_sentinel b1 hr
  obtain ⟨b2, hset2, hwrap, _, hnz, _⟩ := h3 [] (List.replicate 65528 0) 8 (fun _ => 0) hsz
  exact ⟨b1, b2, hset1, hw, hset2, h1, hwrap hw, hnz⟩

/-! ## The liveness test -/

theorem succ_mod_ne (x : Nat) : (x + 1) % u64 ≠ x := by
  rw [u64_eq]
  omega

theorem specLive_iff_getLive (v g o G c : Nat) (hv : v = o + g * 2 ^ bucketSizeBits)
    (ho : o < 2 ^ bucketSizeBits) : specLive g o G c ↔ getLive G c v := by
  rw [hv, getLive_iff _ _ _ _ ho]
  unfold specLive
  rw [maxGen_eq]
  norm_num
  tauto

/-- A locator that is present and passes the liveness test is read: the `Get` does
not end in a plain miss. -/
theorem live_not_plainMiss (b : bucket) (dst k : List Nat) (h : Nat) (r : Bool)
    (hpos : mapGet b.m h > 0) (hl : getLive b.curGen b.idx (mapGet b.m h)) :
    ¬ b.plainMiss dst k h r := by
  intro hp
  unfold bucket.plainMiss at hp
  have hcor : ∀ x, bucket.endGet
      ({ b with getCalls := (b.getCalls + 1) % u64,
                corruptions := (b.corruptions + 1) % u64 } : bucket) dst false = x →
      x ≠ some ({ b with getCalls := (b.getCalls + 1) % u64,
                         misses := (b.misses + 1) % u64 }, dst, false) := by
    intro x hx heq
    rw [heq] at hx
    obtain ⟨_, _, _, h4⟩ := endGet_effect _ _ _ _ _ _ hx
    have := congrArg bucket.corruptions (h4 rfl)
    simp only at this
    exact succ_mod_ne _ this.symm
  unfold bucket.Get at hp
  simp only at hp
  rw [if_pos hpos, curGen_eq_and, if_pos hl] at hp
  split at hp
  · exact hcor _ rfl hp
  · split at hp
    · exact hcor _ rfl hp
    · obtain ⟨_, _, _, _, _, _, h7⟩ := getRecord_effect _ _ _ _ _ _ _ _ _ hp
      simp only at h7
      rcases h7 with ⟨f1, _⟩ | ⟨_, _, _, h8⟩
      · exact Bool.noConfusion f1
      · rcases h8 with ⟨g1, _⟩ | ⟨_, g2⟩
        · exact succ_mod_ne _ g1.symm
        · exact succ_mod_ne _ g2.symm

/-- C17, as the code has it: the liveness predicate.  For every index entry of the
requested hash with generation `g` and offset `o`, current generation `G` and
cursor `c`, `Get` goes on to read the record (it does not end in a plain miss) if
and only if the entry is not the zero locator and `g = G` and `o < c`, or `g` is one
behind `G` (`g + 1 = G`, or `g = 2^24 - 1` and `G = 1`) and `o >= c`; in every other
case, the zero locator included, `Get` ends in a plain miss with no collision or
corruption counted.  Generation 0 is not excluded by the test. -/
theorem liveness_predicate (b : bucket) (dst k : List Nat) (h : Nat) (r : Bool) (g o : Nat)
    (hv : mapGet b.m h = o + g * 2 ^ bucketSizeBits) (ho : o < 2 ^ bucketSizeBits) :
    ((o + g * 2 ^ bucketSizeBits ≠ 0 ∧ specLive g o b.curGen b.idx) ↔
      ¬ b.plainMiss dst k h r) ∧
    (¬ (o + g * 2 ^ bucketSizeBits ≠ 0 ∧ specLive g o b.curGen b.idx) →
      b.Get dst k h r =
        some ({ b with getCalls := (b.getCalls + 1) % u64,
                       misses := (b.misses + 1) % u64 }, dst, false)) := by
  have hmiss : ¬ (o + g * 2 ^ bucketSizeBits ≠ 0 ∧ specLive g o b.curGen b.idx) →
      b.Get dst k h r =
        some ({ b with getCalls := (b.getCalls + 1) % u64,
                       misses := (b.misses + 1) % u64 }, dst, false) := by
    intro hn
    by_cases h0 : mapGet b.m h = 0
    · exact get_eval_absent b dst k h r h0
    · apply get_eval_stale
      intro hl
      apply hn
      rw [← hv]
      exact ⟨h0, (specLive_iff_getLive _ g o _ _ hv ho).2 hl⟩
  refine ⟨⟨?_, ?_⟩, hmiss⟩
  · rintro ⟨hne, hs⟩
    apply live_not_plainMiss
    · rw [hv]; omega
    · exact (specLive_iff_getLive _ g o _ _ hv ho).1 hs
  · intro hnp
    by_contra hn
    exact hnp (hmiss hn)

theorem liveness_predicate_witness :
    mapGet (bucket.blank 1).m 7 = 0 + 0 * 2 ^ bucketSizeBits ∧
      (bucket.blank 1).Get [] [1] 7 true =
        some ({ bucket.blank 1 with getCalls := ((bucket.blank 1).getCalls + 1) % u64,
                                    misses := ((bucket.blank 1).misses + 1) % u64 }, [], false) :=
  ⟨rfl, (liveness_predicate (bucket.blank 1) [] [1] 7 true 0 0 rfl (by decide)).2
    (fun hc => hc.1 rfl)⟩

/-- C17, the claim as stated fails.  (a) The zero locator (generation 0, offset 0)
satisfies the stated predicate in a fresh bucket (`0 + 1 = G = 1`, `0 >= c = 0`),
yet `Get` does not read a record: it ends in a plain miss.  (b) A locator of the
sentinel generation 0 at offset 10 is not a plain miss when `G = 1` and the cursor
is 6: `Get` reads the bytes at offset 10 as a record and counts a collision. -/
theorem liveness_counterexample :
    (specLive 0 0 (bucket.blank 1).curGen (bucket.blank 1).idx ∧
      mapGet ({ bucket.blank 1 with m := [(7, 0)] } : bucket).m 7 = 0 + 0 * 2 ^ bucketSizeBits ∧
      ({ bucket.blank 1 with m := [(7, 0)] } : bucket).plainMiss [] [1] 7 true) ∧
    (mapGet staleSentinel.m 7 = 10 + 0 * 2 ^ bucketSizeBits ∧ staleSentinel.curGen = 1 ∧
      staleSentinel.idx = 6 ∧
      staleSentinel.Get [] [1] 7 true =
        some ({ staleSentinel with getCalls := 1, collisions := 1, misses := 1 }, [], false)) := by
  refine ⟨⟨?_, rfl, ?_⟩, rfl, rfl, rfl, rfl⟩
  · right
    exact ⟨Or.inl rfl, Nat.le_refl _⟩
  · exact get_eval_absent _ [] [1] 7 true rfl

/-! ## The generations of the index -/

theorem packLoc_eq (off gen : Nat) (hoff : off < 2 ^ bucketSizeBits) :
    packLoc off gen = off + gen % 2 ^ genSizeBits * 2 ^ bucketSizeBits :=
  pack_eq off gen hoff

theorem prevGen_not_twice (g g1 G : Nat) (hg : g = G ∨ prevGen g G) (h1 : prevGen g g1) :
    ¬ prevGen g1 G := by
  unfold prevGen at *
  rw [maxGen_eq] at *
  omega

/-- C21: the generations of the index.  In every reachable bucket state every index
entry is the packing `offset | generation << 40` of the offset and generation it
decodes to: the offset is below `2^40`, so packing it with any generation and
unpacking gives back the offset and the low 24 bits of the generation.  The decoded
generation is not 0 and is either the current generation, with the offset behind
the cursor, or the generation right before the current one in the cycle
`1, ..., 2^24 - 1`; it is never the one two steps back.  An entry the liveness test
of `Get` accepts addresses a record that is stored at its offset. -/
theorem index_generation_invariant (b : bucket) (hb : Reachable b) (e : Nat × Nat)
    (he : e ∈ b.m) :
    locOff e.2 < 2 ^ 40 ∧
    (∀ gen, locOff (packLoc (locOff e.2) gen) = locOff e.2 ∧
      locGen (packLoc (locOff e.2) gen) = gen % 2 ^ 24) ∧
    e.2 = packLoc (locOff e.2) (locGen e.2) ∧
    0 < locGen e.2 ∧ locGen e.2 < 2 ^ 24 ∧
    ((locGen e.2 = b.gen &&& ((1 <<< genSizeBits) - 1) ∧ locOff e.2 < b.idx) ∨
      prevGen (locGen e.2) (b.gen &&& ((1 <<< genSizeBits) - 1))) ∧
    (∀ g1, prevGen (locGen e.2) g1 → ¬ prevGen g1 (b.gen &&& ((1 <<< genSizeBits) - 1))) ∧
    (getLive (b.gen &&& ((1 <<< genSizeBits) - 1)) b.idx e.2 →
      ∃ k v, RecordAt b.chunks (locOff e.2) k v) := by
  have hinv := reachable_inv b hb
  obtain ⟨g, o, h1, h2, h3, h4, hc⟩ := hinv.entries e he
  have hg : locGen e.2 = g := by rw [h1]; exact locGen_pack o g h2
  have ho : locOff e.2 = o := by rw [h1]; exact locOff_pack o g h2
  have hgm : g % 2 ^ genSizeBits = g := Nat.mod_eq_of_lt h4
  rw [curGen_eq_and, hg, ho]
  have hcur : (g = b.curGen ∧ o < b.idx) ∨ prevGen g b.curGen := by
    rcases hc with ⟨hG, k, v, _, _, hle⟩ | ⟨hp, _⟩
    · exact Or.inl ⟨hG, by omega⟩
    · exact Or.inr hp
  refine ⟨h2, ?_, ?_, h3, h4, hcur, ?_, ?_⟩
  · intro gen
    rw [packLoc_eq o gen h2]
    exact ⟨locOff_pack o _ h2, locGen_pack o _ h2⟩
  · rw [packLoc_eq o g h2, hgm]
    exact h1
  · intro g1 hp
    exact prevGen_not_twice g g1 b.curGen (hcur.imp (fun x => x.1) id) hp
  · intro hl
    rw [h1, getLive_iff _ _ _ _ h2] at hl
    rcases hc with ⟨_, k, v, _, hr, _⟩ | ⟨hp, hrec⟩
    · exact ⟨k, v, hr⟩
    · have hne := prevGen_ne _ _ hp
      have hge : b.idx ≤ o := by
        rcases hl with ⟨e1, _⟩ | ⟨_, e2⟩ | ⟨_, _, e3⟩
        · exact absurd e1 hne
        · exact e2
        · exact e3
      obtain ⟨k, v, _, hr⟩ := hrec hge
      exact ⟨k, v, hr⟩

theorem index_generation_invariant_witness :
    ∃ b1, (bucket.blank 1).Set [1] [5] 7 (fun _ => 0) = some (b1, false) ∧
      (7, mapGet b1.m 7) ∈ b1.m ∧
      mapGet b1.m 7 = packLoc (locOff (mapGet b1.m 7)) (locGen (mapGet b1.m 7)) := by
  obtain ⟨b1, off, hset, _, hloc, hoff, _, _⟩ := set_placement (fun _ _ _ => True)
    (bucket.blank 1) [1] [5] 7 (fun _ => 0) (reachable_inv _ reachable_blank_one) (by decide)
  have hr : Reachable b1 := reachable_step (bucket.blank 1) b1 (Op.set [1] [5] 7 (fun _ => 0))
    reachable_blank_one (by simp only [bucket.step]; rw [hset]; rfl)
  have hpos : mapGet b1.m 7 ≠ 0 := by
    rw [hloc]
    have : 0 < b1.curGen * 2 ^ bucketSizeBits :=
      Nat.mul_pos (Nat.pos_of_ne_zero (reachable_inv b1 hr).arena.genNz) (by decide)
    omega
  have hmem : (7, mapGet b1.m 7) ∈ b1.m := mapGet_mem b1.m 7 hpos
  exact ⟨b1, hset, hmem, (index_generation_invariant b1 hr _ hmem).2.2.1⟩

/-! ## The arena -/

theorem placed_len_le (b : bucket) (k v : List Nat) (h : Nat) (fresh : Nat → Nat)
    (off g : Nat) (hj : off / chunkSize < b.chunks.length)
    (hfit : off % chunkSize + (4 + k.length + v.length) < chunkSize)
    (hl : ∀ j s, chunkAt b.chunks j = some s → s.len ≤ chunkSize) :
    ∀ j s, chunkAt (b.placed k v h fresh off g).chunks j = some s → s.len ≤ chunkSize := by
  intro j s hs
  by_cases hjj : j = off / chunkSize
  · rw [hjj, placed_chunkAt_eq b k v h fresh off g hj] at hs
    injection hs with hs
    rw [← hs]
    exact Nat.le_of_lt hfit
  · rw [placed_chunkAt_ne b k v h fresh off g j hjj] at hs
    exact hl j s hs

/-- A `Set` that returns leaves the chunk count as it is and every chunk within
`chunkSize` bytes. -/
theorem set_chunks (b b1 : bucket) (k v : List Nat) (h : Nat) (fresh : Nat → Nat) (e : Bool)
    (ha : Arena b) (hl : ∀ j s, chunkAt b.chunks j = some s → s.len ≤ chunkSize)
    (hset : b.Set k v h fresh = some (b1, e)) :
    b1.chunks.length = b.chunks.length ∧
      ∀ j s, chunkAt b1.chunks j = some s → s.len ≤ chunkSize := by
  cases e with
  | true =>
    rw [set_error_state b k v h fresh b1 hset]
    exact ⟨rfl, hl⟩
  | false =>
    have hL := set_ok_size b b1 k v h fresh hset
    have hcur := ha.cursor
    have hne := ha.nonempty
    rcases set_cases b k v h fresh ha hL with ⟨hfit, heq⟩ | ⟨hmv, hnext, heq⟩ | ⟨hmv, hwrap, heq⟩
    · rw [heq] at hset
      injection hset with hset
      injection hset with hset _
      rw [← hset]
      refine ⟨List.length_set _ _ _, ?_⟩
      apply placed_len_le _ k v h fresh b.idx b.gen _ hfit hl
      show b.idx / chunkSize < b.chunks.length
      rw [chunkSize_eq] at hcur ⊢
      omega
    · rw [heq] at hset
      injection hset with hset
      injection hset with hset _
      rw [← hset]
      have hd : (b.idx / chunkSize + 1) * chunkSize / chunkSize = b.idx / chunkSize + 1 := by
        rw [chunkSize_eq]; omega
      have hm : (b.idx / chunkSize + 1) * chunkSize % chunkSize = 0 := by
        rw [chunkSize_eq]; omega
      refine ⟨List.length_set _ _ _, ?_⟩
      apply placed_len_le _ k v h fresh _ b.gen _ _ hl
      · rw [hd]; exact hnext
      · rw [hm]; omega
    · rw [heq] at hset
      injection hset with hset
      injection hset with hset _
      rw [← hset]
      refine ⟨List.length_set _ _ _, ?_⟩
      apply placed_len_le _ k v h fresh 0 (nextGen b.gen) _ _ hl
      · show 0 / chunkSize < b.chunks.length
        rw [Nat.zero_div]; omega
      · rw [Nat.zero_mod]; omega

theorem lens_step (b b1 : bucket) (op : Op) (ha : Arena b)
    (hl : ∀ j s, chunkAt b.chunks j = some s → s.len ≤ chunkSize)
    (hstep : b.step op = some b1) :
    ∀ j s, chunkAt b1.chunks j = some s → s.len ≤ chunkSize := by
  cases op with
  | set k v h fresh =>
    simp only [bucket.step, Option.map_eq_some'] at hstep
    obtain ⟨⟨b2, e⟩, hset, hb⟩ := hstep
    simp only at hb
    subst hb
    exact (set_chunks b b2 k v h fresh e ha hl hset).2
  | get dst k h r =>
    simp only [bucket.step, Option.map_eq_some'] at hstep
    obtain ⟨⟨b2, d, f⟩, hget, hb⟩ := hstep
    simp only at hb
    subst hb
    rw [(get_frame b b2 dst k d h r f hget).1]
    exact hl
  | del h =>
    simp only [bucket.step, Option.some.injEq] at hstep
    subst hstep
    exact hl
  | reset =>
    rw [reset_some b b1 hstep]
    intro j s hs
    rw [show (bucket.blank b.chunks.length).chunks = List.replicate b.chunks.length none from rfl,
      chunkAt_replicate_none] at hs
    exact Option.noConfusion hs

theorem lens_run (ops : List Op) (b b1 : bucket) (hinv : Inv (fun _ _ _ => True) b)
    (hl : ∀ j s, chunkAt b.chunks j = some s → s.len ≤ chunkSize)
    (hrun : b.run ops = some b1) :
    ∀ j s, chunkAt b1.chunks j = some s → s.len ≤ chunkSize := by
  induction ops generalizing b with
  | nil =>
    rw [run_nil] at hrun
    injection hrun with hrun
    rw [← hrun]
    exact hl
  | cons op ops ih =>
    rw [run_cons] at hrun
    cases hs : b.step op with
    | none => rw [hs] at hrun; exact Option.noConfusion hrun
    | some b2 =>
      rw [hs] at hrun
      exact ih b2 (inv_step b b2 op hinv hs) (lens_step b b2 op hinv.arena hl hs) hrun

/-- In every reachable state no chunk is longer than `chunkSize`. -/
theorem reachable_lens (b : bucket) (hb : Reachable b) :
    ∀ j s, chunkAt b.chunks j = some s → s.len ≤ chunkSize := by
  obtain ⟨bz, maxBytes, b0, ops, hinit, hrun⟩ := hb
  apply lens_run ops b0 b (inv_init _ bz maxBytes b0 hinit) _ hrun
  intro j s hs
  rw [init_eq] at hinit
  split at hinit
  · exact Option.noConfusion hinit
  · injection hinit with hinit
    rw [← hinit, show (bucket.blank ((maxBytes + 65535) / 65536)).chunks =
      List.replicate ((maxBytes + 65535) / 65536) none from rfl, chunkAt_replicate_none] at hs
    exact Option.noConfusion hs

theorem allocChunks_le (l : List (Option Slice)) : allocChunks l ≤ l.length :=
  List.countP_le_length _

theorem allocBytes_fold (l : List (Option Slice)) (acc : Nat)
    (hcap : ∀ c ∈ l, ∀ s, c = some s → s.cap = chunkSize)
    (hb : acc + l.length * chunkSize < u64) :
    l.foldl (fun acc c => (acc + capOf c % u64) % u64) acc = acc + allocChunks l * chunkSize := by
  induction l generalizing acc with
  | nil => simp [allocChunks]
  | cons c rest ih =>
    rw [List.foldl_cons]
    rw [List.length_cons] at hb
    have hrest : ∀ c ∈ rest, ∀ s, c = some s → s.cap = chunkSize :=
      fun c hc => hcap c (List.mem_cons_of_mem _ hc)
    cases c with
    | none =>
      have h0 : (acc + capOf (none : Option Slice) % u64) % u64 = acc := by
        show (acc + 0 % u64) % u64 = acc
        rw [Nat.zero_mod, Nat.add_zero]
        apply Nat.mod_eq_of_lt
        omega
      rw [h0, ih acc hrest (by rw [Nat.add_mul] at hb; omega)]
      simp [allocChunks]
    | some s =>
      have hs : s.cap = chunkSize := hcap _ (List.mem_cons_self _ _) s rfl
      have h0 : (acc + capOf (some s) % u64) % u64 = acc + chunkSize := by
        show (acc + s.cap % u64) % u64 = acc + chunkSize
        rw [hs]
        rw [Nat.add_mul] at hb
        have h1 : chunkSize % u64 = chunkSize := Nat.mod_eq_of_lt (by omega)
        rw [h1]
        apply Nat.mod_eq_of_lt
        omega
      rw [h0, ih (acc + chunkSize) hrest (by rw [Nat.add_mul] at hb; omega)]
      simp [allocChunks]
      ring

theorem mem_chunkAt (l : List (Option Slice)) (c : Option Slice) (hc : c ∈ l) :
    ∃ j, chunkAt l j = c := by
  obtain ⟨j, hj, e⟩ := List.mem_iff_getElem.1 hc
  refine ⟨j, ?_⟩
  unfold chunkAt
  rw [List.getD_eq_getElem _ _ hj]
  exact e

/-- The allocation statistics of a bucket with a well-formed arena. -/
theorem updateStats_alloc (b : bucket) (ha : Arena b) :
    (b.UpdateStats Stats.zero).AllocBytes = allocChunks b.chunks * chunkSize ∧
      (b.UpdateStats Stats.zero).MaxBytes = b.chunks.length * chunkSize := by
  have hbd := ha.bound
  rw [maxBucketSize_eq] at hbd
  have hal := allocChunks_le b.chunks
  have hfold := allocBytes_fold b.chunks 0
    (fun c hc s hs => by
      obtain ⟨j, hj⟩ := mem_chunkAt b.chunks c hc
      exact ha.caps j s (by rw [hj, hs]))
    (by rw [u64_eq]; omega)
  rw [Nat.zero_add] at hfold
  rw [chunkSize_eq] at hbd hfold ⊢
  constructor
  · show (0 + b.chunks.foldl (fun acc c => (acc + capOf c % u64) % u64) 0) % u64 = _
    rw [hfold, Nat.zero_add]
    apply Nat.mod_eq_of_lt
    rw [u64_eq]; omega
  · show (0 + (b.chunks.length % u64) * chunkSize % u64) % u64 = _
    rw [chunkSize_eq, u64_eq]
    omega

/-- C22: the arena.  In every reachable bucket state the cursor is below
`chunkCount * 65536`; the chunk of the cursor is nil with the cursor at its start,
or has length exactly `cursor mod 65536`; every chunk below it is allocated; every
allocated chunk has capacity 65536 and a length within it; every record a live index
entry addresses, and every record a `Set` stores, lies wholly inside one chunk
(`offset mod 65536 + 4 + keyLen + valLen < 65536`), the chunk `Set` wrote ending
right after the record with its capacity still 65536 and the chunk count unchanged;
and `AllocBytes` is 65536 times the number of allocated chunks, which is at most the
chunk count, so `AllocBytes <= MaxBytes`. -/
theorem arena_invariant (b : bucket) (hb : Reachable b) :
    b.idx < b.chunks.length * 65536 ∧
    ((chunkAt b.chunks (b.idx / 65536) = none ∧ b.idx % 65536 = 0) ∨
      ∃ s, chunkAt b.chunks (b.idx / 65536) = some s ∧ s.len = b.idx % 65536) ∧
    (∀ j, j < b.idx / 65536 → ∃ s, chunkAt b.chunks j = some s) ∧
    (∀ j s, chunkAt b.chunks j = some s → s.cap = 65536 ∧ s.len ≤ s.cap) ∧
    (∀ e ∈ b.m, getLive (b.gen &&& ((1 <<< genSizeBits) - 1)) b.idx e.2 →
      ∃ s k v, chunkAt b.chunks (locOff e.2 / 65536) = some s ∧
        locOff e.2 % 65536 + (4 + k.length + v.length) < 65536 ∧
        readBytes s.mem (locOff e.2 % 65536) (4 + k.length + v.length) = encodeRecord k v) ∧
    (∀ (k v : List Nat) (h : Nat) (fresh : Nat → Nat), 4 + k.length + v.length < 65536 →
      ∃ b1 s, b.Set k v h fresh = some (b1, false) ∧
        b1.chunks.length = b.chunks.length ∧
        chunkAt b1.chunks (locOff (mapGet b1.m h) / 65536) = some s ∧
        locOff (mapGet b1.m h) % 65536 + (4 + k.length + v.length) < 65536 ∧
        s.len = locOff (mapGet b1.m h) % 65536 + (4 + k.length + v.length) ∧
        s.cap = 65536 ∧
        readBytes s.mem (locOff (mapGet b1.m h) % 65536) (4 + k.length + v.length) =
          encodeRecord k v) ∧
    allocChunks b.chunks ≤ b.chunks.length ∧
    (b.UpdateStats Stats.zero).AllocBytes = allocChunks b.chunks * 65536 ∧
    (b.UpdateStats Stats.zero).MaxBytes = b.chunks.length * 65536 ∧
    (b.UpdateStats Stats.zero).AllocBytes ≤ (b.UpdateStats Stats.zero).MaxBytes := by
  have hinv := reachable_inv b hb
  have ha := hinv.arena
  have hlens := reachable_lens b hb
  have hst := updateStats_alloc b ha
  have hal := allocChunks_le b.chunks
  have hcur := ha.cursor
  have hcl := ha.curLen
  have hcn := ha.curNil
  have hbl := ha.below
  have hcaps := ha.caps
  rw [chunkSize_eq] at hst hcur hcl hcn hbl hcaps hlens
  refine ⟨hcur, ?_, ?_, ?_, ?_, ?_, hal, hst.1, hst.2, ?_⟩
  · cases hc : chunkAt b.chunks (b.idx / 65536) with
    | none => exact Or.inl ⟨rfl, hcn hc⟩
    | some s => exact Or.inr ⟨s, rfl, hcl s hc⟩
  · intro j hj
    cases hc : chunkAt b.chunks j with
    | none => exact absurd hc (hbl j hj)
    | some s => exact ⟨s, rfl⟩
  · intro j s hs
    have h1 := hcaps j s hs
    exact ⟨h1, by rw [h1]; exact hlens j s hs⟩
  · intro e he hl
    obtain ⟨g, o, h1, h2, h3, h4, hc⟩ := hinv.entries e he
    have ho : locOff e.2 = o := by rw [h1]; exact locOff_pack o g h2
    rw [curGen_eq_and, h1, getLive_iff _ _ _ _ h2] at hl
    have hrec : ∃ k v, RecordAt b.chunks o k v := by
      rcases hc with ⟨_, k, v, _, hr, _⟩ | ⟨hp, hrec⟩
      · exact ⟨k, v, hr⟩
      · have hne := prevGen_ne _ _ hp
        have hge : b.idx ≤ o := by
          rcases hl with ⟨e1, _⟩ | ⟨_, e2⟩ | ⟨_, _, e3⟩
          · exact absurd e1 hne
          · exact e2
          · exact e3
        obtain ⟨k, v, _, hr⟩ := hrec hge
        exact ⟨k, v, hr⟩
    obtain ⟨k, v, s, r1, r2, r3⟩ := hrec
    rw [chunkSize_eq] at r1 r2 r3
    rw [ho]
    exact ⟨s, k, v, r1, r2, r3⟩
  · intro k v h fresh hsz
    obtain ⟨b1, off, hset, hidx, hloc, hoff, hrec, _⟩ :=
      set_placement _ b k v h fresh hinv hsz
    have hinv1 := inv_set _ (fun _ _ _ => True) b b1 k v h fresh hinv hset
      (fun _ _ _ _ _ => trivial) trivial
    have ho : locOff (mapGet b1.m h) = off := by rw [hloc]; exact locOff_pack off _ hoff
    obtain ⟨s, r1, r2, r3⟩ := hrec
    have hlen1 := hinv1.arena.curLen
    have hcap1 := hinv1.arena.caps _ s r1
    rw [chunkSize_eq] at r1 r2 r3 hlen1 hcap1
    have hq : b1.idx / 65536 = off / 65536 := by rw [hidx]; omega
    have hr : b1.idx % 65536 = off % 65536 + (4 + k.length + v.length) := by rw [hidx]; omega
    rw [hq, hr] at hlen1
    refine ⟨b1, s, hset, (set_chunks b b1 k v h fresh false ha (reachable_lens b hb) hset).1,
      ?_, ?_, ?_, hcap1, ?_⟩
    · rw [ho]; exact r1
    · rw [ho]; exact r2
    · rw [ho]; exact hlen1 s r1
    · rw [ho]; exact r3
  · rw [hst.1, hst.2]
    omega

theorem arena_invariant_witness :
    ∃ b1 b2, (bucket.blank 1).Set [] [] 7 (fun _ => 0) = some (b1, false) ∧
      b1.wraps (4 + ([] : List Nat).length + (List.replicate 65528 0).length) ∧
      b1.Set [] (List.replicate 65528 0) 8 (fun _ => 0) = some (b2, false) ∧
      b2.idx < b2.chunks.length * 65536 ∧
      (b2.UpdateStats Stats.zero).AllocBytes ≤ (b2.UpdateStats Stats.zero).MaxBytes := by
  obtain ⟨b1, hset1, hr, _, _, _, hsz, hw⟩ := wrapping_state
  obtain ⟨b2, off, hset2, _⟩ := set_placement (fun _ _ _ => True) b1 []
    (List.replicate 65528 0) 8 (fun _ => 0) (reachable_inv b1 hr) hsz
  have hr2 : Reachable b2 := reachable_step b1 b2
    (Op.set [] (List.replicate 65528 0) 8 (fun _ => 0)) hr
    (by simp only [bucket.step]; rw [hset2]; rfl)
  exact ⟨b1, b2, hset1, hw, hset2, (arena_invariant b2 hr2).1,
    (arena_invariant b2 hr2).2.2.2.2.2.2.2.2.2⟩

/-! ## Reads through a replaced index entry -/

theorem endGet_ne_none (x : bucket) (d : List Nat) (f : Bool) : bucket.endGet x d f ≠ none := by
  unfold bucket.endGet
  split
  · exact fun he => Option.noConfusion he
  · exact fun he => Option.noConfusion he

theorem sliceRange_eq_some (c : Option Slice) (lo hi : Nat) (bs : List Nat) (hpos : 0 < hi)
    (hs : sliceRange c lo hi = some bs) :
    ∃ s, c = some s ∧ bs = readBytes s.mem lo (hi - lo) := by
  cases c with
  | none =>
    rw [sliceRange_none lo hi hpos] at hs
    exact Option.noConfusion hs
  | some s =>
    simp only [sliceRange] at hs
    split at hs
    · injection hs with hs
      exact ⟨s, rfl, hs.symm⟩
    · exact Option.noConfusion hs

theorem sliceRange_alloc_ne_none (s : Slice) (lo hi : Nat) (h : lo ≤ hi ∧ hi ≤ s.cap) :
    sliceRange (some s) lo hi ≠ none := by
  rw [sliceRange_some s lo hi h]
  exact fun he => Option.noConfusion he

/-- Reading a record from an allocated chunk of capacity `chunkSize`, at an in-chunk
offset that leaves room for the length prefix, does not panic. -/
theorem getRecord_ne_none (x : bucket) (s : Slice) (io : Nat) (dst k : List Nat) (r : Bool)
    (hcap : s.cap = chunkSize) (hio : io + 4 < chunkSize) :
    x.getRecord (some s) io dst k r ≠ none := by
  intro he
  rw [chunkSize_eq] at hcap hio
  unfold bucket.getRecord at he
  split at he
  · rename_i hs
    exact sliceRange_alloc_ne_none s io (io + 4) ⟨by omega, by omega⟩ hs
  · simp only [chunkSize_eq] at he
    split at he
    · exact endGet_ne_none _ _ _ he
    · rename_i hfit
      split at he
      · rename_i hs
        exact sliceRange_alloc_ne_none s _ _ ⟨by omega, by omega⟩ hs
      · split at he
        · split at he
          · split at he
            · rename_i hs
              exact sliceRange_alloc_ne_none s _ _ ⟨by omega, by omega⟩ hs
            · exact endGet_ne_none _ _ _ he
          · exact endGet_ne_none _ _ _ he
        · exact endGet_ne_none _ _ _ he

theorem getRecord_nil (x : bucket) (io : Nat) (dst k : List Nat) (r : Bool) :
    x.getRecord none io dst k r = none := by
  unfold bucket.getRecord
  rw [sliceRange_none io (io + 4) (by omega)]

/-- A record read that reports `found` compared the requested key with the key bytes
stored after the length prefix, of the length the prefix encodes, and found them
equal; what it appends is the value bytes that follow. -/
theorem getRecord_found_key (x b1 : bucket) (c : Option Slice) (io : Nat) (dst k d : List Nat)
    (r : Bool) (he : x.getRecord c io dst k r = some (b1, d, true)) :
    ∃ s, c = some s ∧
      readBytes s.mem (io + 4)
        (((readBytes s.mem io 4).getD 0 0 <<< 8) ||| (readBytes s.mem io 4).getD 1 0) = k ∧
      d = if r then
          dst ++ readBytes s.mem
            (io + 4 + (((readBytes s.mem io 4).getD 0 0 <<< 8) ||| (readBytes s.mem io 4).getD 1 0))
            (((readBytes s.mem io 4).getD 2 0 <<< 8) ||| (readBytes s.mem io 4).getD 3 0)
        else dst := by
  have hnf : ∀ (y : bucket), bucket.endGet y dst false ≠ some (b1, d, true) := by
    intro y hy
    exact Bool.noConfusion (endGet_effect _ _ _ _ _ _ hy).1
  unfold bucket.getRecord at he
  split at he
  · exact Option.noConfusion he
  · rename_i buf hbuf
    obtain ⟨s, hc, hbs⟩ := sliceRange_eq_some c io (io + 4) buf (by omega) hbuf
    have e4 : io + 4 - io = 4 := by omega
    rw [e4] at hbs
    subst hc
    subst hbs
    refine ⟨s, rfl, ?_⟩
    simp only at he
    split at he
    · exact absurd he (hnf _)
    · split at he
      · exact Option.noConfusion he
      · rename_i key hkey
        obtain ⟨s2, hc2, hks⟩ := sliceRange_eq_some _ _ _ key (by omega) hkey
        injection hc2 with hc2
        subst hc2
        rw [Nat.add_sub_cancel_left] at hks
        split at he
        · rename_i hk
          refine ⟨by rw [hk, hks], ?_⟩
          split at he
          · rename_i hr
            split at he
            · exact Option.noConfusion he
            · rename_i val hval
              obtain ⟨s3, hc3, hvs⟩ := sliceRange_eq_some _ _ _ val (by omega) hval
              injection hc3 with hc3
              subst hc3
              rw [Nat.add_sub_cancel_left] at hvs
              obtain ⟨_, hd, _⟩ := endGet_effect _ _ _ _ _ _ he
              rw [hr, if_pos rfl, hd, hvs]
          · rename_i hr
            obtain ⟨_, hd, _⟩ := endGet_effect _ _ _ _ _ _ he
            rw [if_neg hr, hd]
        · exact absurd he (hnf _)

/-- When `Get` panics: exactly when the index entry of the hash is present, passes
the liveness test and both range checks, and the chunk it addresses is nil. -/
theorem get_none_iff (x : bucket)
    (hcaps : ∀ j s, chunkAt x.chunks j = some s → s.cap = chunkSize)
    (dst k : List Nat) (h : Nat) (r : Bool) :
    x.Get dst k h r = none ↔
      (mapGet x.m h > 0 ∧ getLive x.curGen x.idx (mapGet x.m h) ∧
        locOff (mapGet x.m h) / chunkSize < x.chunks.length ∧
        locOff (mapGet x.m h) % chunkSize + 4 < chunkSize ∧
        chunkAt x.chunks (locOff (mapGet x.m h) / chunkSize) = none) := by
  unfold bucket.Get locOff
  simp only
  rw [curGen_eq_and]
  constructor
  · intro he
    split at he
    · rename_i hpos
      split at he
      · rename_i hl
        split at he
        · exact absurd he (endGet_ne_none _ _ _)
        · rename_i hlen
          split at he
          · exact absurd he (endGet_ne_none _ _ _)
          · rename_i hio
            refine ⟨hpos, hl, by omega, by omega, ?_⟩
            cases hc : chunkAt x.chunks ((mapGet x.m h &&& ((1 <<< bucketSizeBits) - 1)) / chunkSize) with
            | none => rfl
            | some s =>
              rw [hc] at he
              exact absurd he (getRecord_ne_none _ s _ dst k r (hcaps _ s hc) (by omega))
      · exact absurd he (endGet_ne_none _ _ _)
    · exact absurd he (endGet_ne_none _ _ _)
  · rintro ⟨hpos, hl, hlen, hio, hc⟩
    rw [if_pos hpos, if_pos hl, if_neg (by omega), if_neg (by omega), hc]
    exact getRecord_nil _ _ dst k r

/-- A `Get` that reports `found` read, in the allocated chunk the index entry
addresses, a key equal to the requested one. -/
theorem get_found_key (x b1 : bucket) (dst k d : List Nat) (h : Nat) (r : Bool)
    (hget : x.Get dst k h r = some (b1, d, true)) :
    ∃ s, chunkAt x.chunks (locOff (mapGet x.m h) / chunkSize) = some s ∧
      readBytes s.mem (locOff (mapGet x.m h) % chunkSize + 4)
        (((readBytes s.mem (locOff (mapGet x.m h) % chunkSize) 4).getD 0 0 <<< 8) |||
          (readBytes s.mem (locOff (mapGet x.m h) % chunkSize) 4).getD 1 0) = k ∧
      d = if r then
          dst ++ readBytes s.mem
            (locOff (mapGet x.m h) % chunkSize + 4 +
              (((readBytes s.mem (locOff (mapGet x.m h) % chunkSize) 4).getD 0 0 <<< 8) |||
                (readBytes s.mem (locOff (mapGet x.m h) % chunkSize) 4).getD 1 0))
            (((readBytes s.mem (locOff (mapGet x.m h) % chunkSize) 4).getD 2 0 <<< 8) |||
              (readBytes s.mem (locOff (mapGet x.m h) % chunkSize) 4).getD 3 0)
        else dst := by
  have hnf : ∀ (y : bucket), bucket.endGet y dst false ≠ some (b1, d, true) := by
    intro y hy
    exact Bool.noConfusion (endGet_effect _ _ _ _ _ _ hy).1
  unfold bucket.Get at hget
  unfold locOff
  simp only at hget
  split at hget
  · split at hget
    · split at hget
      · exact absurd hget (hnf _)
      · split at hget
        · exact absurd hget (hnf _)
        · exact getRecord_found_key _ b1 _ _ dst k d r hget
    · exact absurd hget (hnf _)
  · exact absurd hget (hnf _)

/-- C10, as the code has it: `Get` and a replaced index entry.  In every reachable
bucket state `Get` (the call behind `Get`, `HasGet` and `Has`) returns.  With the
index entry of the requested hash replaced by an arbitrary locator `v`, `Get` panics
in exactly one case: `v` is not zero, passes the liveness test and both range checks
(its chunk index is below the chunk count and its in-chunk offset leaves room for
the 4-byte length prefix), and the chunk it addresses is still nil.  In every other
case it returns: a miss hands back `dst` unchanged, and a hit read, in the allocated
chunk the locator addresses, key bytes equal to the requested key (of the length
the prefix encodes) and appends the value bytes that follow them. -/
theorem get_malformed_entry (b : bucket) (hb : Reachable b) (dst k : List Nat) (h : Nat)
    (r : Bool) :
    (∃ b1 d f, b.Get dst k h r = some (b1, d, f)) ∧
    ∀ v : Nat,
      (({ b with m := mapSet b.m h v } : bucket).Get dst k h r = none ↔
        (v > 0 ∧ getLive (b.gen &&& ((1 <<< genSizeBits) - 1)) b.idx v ∧
          locOff v / 65536 < b.chunks.length ∧ locOff v % 65536 + 4 < 65536 ∧
          chunkAt b.chunks (locOff v / 65536) = none)) ∧
      (∀ b1 d, ({ b with m := mapSet b.m h v } : bucket).Get dst k h r = some (b1, d, false) →
        d = dst) ∧
      (∀ b1 d, ({ b with m := mapSet b.m h v } : bucket).Get dst k h r = some (b1, d, true) →
        ∃ s, chunkAt b.chunks (locOff v / 65536) = some s ∧
          readBytes s.mem (locOff v % 65536 + 4)
            (((readBytes s.mem (locOff v % 65536) 4).getD 0 0 <<< 8) |||
              (readBytes s.mem (locOff v % 65536) 4).getD 1 0) = k ∧
          d = if r then
              dst ++ readBytes s.mem
                (locOff v % 65536 + 4 +
                  (((readBytes s.mem (locOff v % 65536) 4).getD 0 0 <<< 8) |||
                    (readBytes s.mem (locOff v % 65536) 4).getD 1 0))
                (((readBytes s.mem (locOff v % 65536) 4).getD 2 0 <<< 8) |||
                  (readBytes s.mem (locOff v % 65536) 4).getD 3 0)
            else dst) := by
  have hinv := reachable_inv b hb
  refine ⟨?_, fun v => ?_⟩
  · obtain ⟨b1, f, w, hall⟩ := get_uniform _ b k h hinv
    exact ⟨b1, _, f, hall dst r⟩
  · have hm : mapGet (mapSet b.m h v) h = v := mapGet_mapSet_eq b.m h v
    refine ⟨?_, ?_, ?_⟩
    · have hn := get_none_iff ({ b with m := mapSet b.m h v } : bucket) hinv.arena.caps dst k h r
      simp only [hm] at hn
      rw [chunkSize_eq] at hn
      rw [curGen_eq_and]
      exact hn
    · intro b1 d hget
      obtain ⟨_, _, _, _, _, _, h7⟩ := get_effect _ b1 dst k d h r false hget
      rcases h7 with ⟨hf, _⟩ | ⟨_, hd, _⟩
      · exact Bool.noConfusion hf
      · exact hd
    · intro b1 d hget
      have hk := get_found_key ({ b with m := mapSet b.m h v } : bucket) b1 dst k d h r hget
      simp only [hm] at hk
      rw [chunkSize_eq] at hk
      exact hk

theorem get_malformed_entry_witness :
    ∃ b1, (bucket.blank 1).Set [1] [5] 7 (fun _ => 0) = some (b1, false) ∧
      getLive (b1.gen &&& ((1 <<< genSizeBits) - 1)) b1.idx (2 + 1 * 2 ^ bucketSizeBits) ∧
      ({ b1 with m := mapSet b1.m 7 (2 + 1 * 2 ^ bucketSizeBits) } : bucket).Get [] [1] 7 true
        ≠ none := by
  have hi0 := reachable_inv _ reachable_blank_one
  obtain ⟨b1, off, hset, hidx, _, _, hrec, hcase⟩ := set_placement (fun _ _ _ => True)
    (bucket.blank 1) [1] [5] 7 (fun _ => 0) hi0 (by decide)
  have hr : Reachable b1 := reachable_step (bucket.blank 1) b1 (Op.set [1] [5] 7 (fun _ => 0))
    reachable_blank_one (by simp only [bucket.step]; rw [hset]; rfl)
  have hb1 : off = 0 ∧ b1.gen = 1 := by
    rw [chunkSize_eq] at hcase
    rcases hcase with ⟨_, _, c2, c3, _⟩ | ⟨_, c1, _⟩ | ⟨_, c1, _⟩
    · exact ⟨c2, c3⟩
    · exact absurd c1 (by decide)
    · exact absurd c1 (by decide)
  have hidx1 : b1.idx = 6 := by rw [hidx, hb1.1]; rfl
  have ho : locOff (2 + 1 * 2 ^ bucketSizeBits) = 2 := locOff_pack 2 1 (by decide)
  have hlive : getLive (b1.gen &&& ((1 <<< genSizeBits) - 1)) b1.idx
      (2 + 1 * 2 ^ bucketSizeBits) := by
    rw [curGen_eq_and, getLive_iff _ _ _ _ (by decide), hidx1]
    unfold bucket.curGen
    rw [hb1.2]
    exact Or.inl ⟨by decide, by decide⟩
  refine ⟨b1, hset, hlive, fun hnone => ?_⟩
  have hcond := ((get_malformed_entry b1 hr [] [1] 7 true).2 (2 + 1 * 2 ^ bucketSizeBits)).1.1
    hnone
  obtain ⟨s, hs, _⟩ := hrec
  rw [hb1.1] at hs
  have hnil := hcond.2.2.2.2
  rw [ho] at hnil
  rw [show (2 : Nat) / 65536 = 0 from rfl] at hnil
  rw [show (0 : Nat) / chunkSize = 0 from rfl, hnil] at hs
  exact Option.noConfusion hs

end cache
